import Mathlib

/-! # c_hashtable: a chained hash table with intrusive doubly-linked nodes

Shallow embedding of `hash_node.c` / `hash_table.c`.

* A C pointer to a node is an `Option Ptr` (`none` is `NULL`).
* Node objects live in a heap `Ptr → Option hash_node`; a freed or never
  allocated address maps to `none`.  Reading, writing or freeing through such
  an address is undefined behaviour in C and makes the embedded function
  return `none`.
* The table struct and its bucket array are passed by value; a `NULL` table
  pointer is `none : Option hash_table`.
* Loops that follow `next` links take a `fuel` argument bounding the number of
  iterations; running out of fuel returns `none`.
* `int` values are mathematical integers.  The only arithmetic on keys is the
  one in `calc_hash_code`, whose intermediate results are shown to stay in the
  `int` range.  The counter `num_items` is an `int` object: the value stored by
  `ht->num_items++` and `ht->num_items--` is wrapped into the `int` range by
  `wrap_int`, which is what the compiled code does when the counter overflows.
-/

namespace CHashtable

/-- A non-null address. -/
abbrev Ptr := Nat

/-- Lower end of the range of `int`. -/
def INT_MIN : Int := -2147483648

/-- Upper end of the range of `int`. -/
def INT_MAX : Int := 2147483647

/-- The value an `int` object holds after the result `x` of an increment or a decrement has
been stored in it: `x` itself when it lies in the `int` range, else `x` wrapped around modulo
`2^32`.  Signed overflow is undefined in ISO C; the compiled code wraps in two's complement, and
so does this embedding. -/
def wrap_int (x : Int) : Int :=
  (x - INT_MIN) % 4294967296 + INT_MIN

/-- The struct `hash_node` of `hash_node.h`; the `char*` payload fields are addresses of text
buffers. -/
structure hash_node where
  key : Int
  hash_code : Int
  full_name : Option Ptr
  address : Option Ptr
  city : Option Ptr
  state : Option Ptr
  zip : Option Ptr
  prev : Option Ptr
  next : Option Ptr
  deriving DecidableEq

/-- The struct `hash_table` of `hash_table.h`; `table` is the bucket-head array. -/
structure hash_table where
  table : List (Option Ptr)
  num_buckets : Int
  num_items : Int
  deriving DecidableEq

/-- Dynamic memory: the live node objects and the live text buffers. -/
structure Heap where
  nodes : Ptr → Option hash_node
  text : Ptr → Bool

/-- Store a node value at address `p`. -/
def Heap.write (h : Heap) (p : Ptr) (n : hash_node) : Heap :=
  { h with nodes := fun q => if q = p then some n else h.nodes q }

/-- The call `free(node)` on a node address; freeing an address that is not live is undefined. -/
def Heap.free_node (h : Heap) (p : Ptr) : Option Heap :=
  match h.nodes p with
  | none => none
  | some _ => some { h with nodes := fun q => if q = p then none else h.nodes q }

/-- A heap paired with the table struct that a non-null table pointer refers to. -/
structure State where
  heap : Heap
  ht : hash_table

/-- The function `calc_hash_code` of `hash_table.c`; `Int.tmod` is the truncating `%` of C. -/
def calc_hash_code (key num_buckets : Int) : Int :=
  if num_buckets ≤ 0 then 0
  else
    let h := Int.tmod key num_buckets
    if h < 0 then h + num_buckets else h

/-- The function `ht_create` of `hash_table.c`.  The two booleans are the outcomes of the two `calloc`
calls (`true` when the allocation succeeds). -/
def ht_create (calloc_ht calloc_table : Bool) (ht_size : Int) : Option hash_table :=
  if !calloc_ht then none
  else if !calloc_table then none
  else some { table := List.replicate ht_size.toNat none, num_buckets := ht_size, num_items := 0 }

/-- The function `hn_is_head` of `hash_node.c`. -/
def hn_is_head (h : Heap) (node : Ptr) : Option Bool :=
  (h.nodes node).map fun n => n.prev == none

/-- The function `hn_is_tail` of `hash_node.c`. -/
def hn_is_tail (h : Heap) (node : Ptr) : Option Bool :=
  (h.nodes node).map fun n => n.next == none

/-- The call `free(ptr)` on a payload text pointer: a no-op on `NULL`, undefined on a buffer
that is not live. -/
def Heap.free_text (h : Heap) (b : Option Ptr) : Option Heap :=
  match b with
  | none => some h
  | some a =>
    if h.text a then some { h with text := fun x => if x = a then false else h.text x }
    else none

/-- The function `hn_create` of `hash_node.c`.  The argument `calloc` is the outcome of the
allocation: `none` when it fails, else the address of the new zero-filled object. -/
def hn_create (h : Heap) (calloc : Option Ptr) : Heap × Option Ptr :=
  match calloc with
  | none => (h, none)
  | some p => (h.write p ⟨0, 0, none, none, none, none, none, none, none⟩, some p)

/-- The function `hn_destroy` of `hash_node.c`: the heap afterwards and the returned
pointer. -/
def hn_destroy (h : Heap) (node : Option Ptr) : Option (Heap × Option Ptr) :=
  match node with
  | none => some (h, none)
  | some p => do
    let n ← h.nodes p
    let h1 ← h.free_text n.full_name
    let h2 ← h1.free_text n.address
    let h3 ← h2.free_text n.city
    let h4 ← h3.free_text n.state
    let h5 ← h4.free_text n.zip
    let h6 ← h5.free_node p
    pure (h6, none)

/-- The function `hn_insert_after` of `hash_node.c`. -/
def hn_insert_after (h : Heap) (node new_node : Option Ptr) : Option Heap :=
  match node, new_node with
  | some p, some q => do
    let n ← h.nodes p
    let m ← h.nodes q
    -- new_node->next = node->next; new_node->prev = node;
    let h1 := h.write q { m with next := n.next, prev := some p }
    let n1 ← h1.nodes p
    -- if (node->next) node->next->prev = new_node;
    let h2 ← match n1.next with
      | some r => do
        let nr ← h1.nodes r
        pure (h1.write r { nr with prev := some q })
      | none => pure h1
    -- node->next = new_node;
    let n2 ← h2.nodes p
    pure (h2.write p { n2 with next := some q })
  | _, _ => some h

/-- The function `hn_insert_before` of `hash_node.c`. -/
def hn_insert_before (h : Heap) (node new_node : Option Ptr) : Option Heap :=
  match node, new_node with
  | some p, some q => do
    let n ← h.nodes p
    let m ← h.nodes q
    -- new_node->prev = node->prev; new_node->next = node;
    let h1 := h.write q { m with prev := n.prev, next := some p }
    let n1 ← h1.nodes p
    -- if (node->prev) node->prev->next = new_node;
    let h2 ← match n1.prev with
      | some r => do
        let nr ← h1.nodes r
        pure (h1.write r { nr with next := some q })
      | none => pure h1
    -- node->prev = new_node;
    let n2 ← h2.nodes p
    pure (h2.write p { n2 with prev := some q })
  | _, _ => some h

/-- The function `hn_remove` of `hash_node.c`; it dereferences `node` without a null check. -/
def hn_remove (h : Heap) (node : Option Ptr) : Option Heap :=
  match node with
  | none => none
  | some p => do
    let n ← h.nodes p
    -- if (node->prev) node->prev->next = node->next;
    let h1 ← match n.prev with
      | some q => do
        let nq ← h.nodes q
        pure (h.write q { nq with next := n.next })
      | none => pure h
    -- if (node->next) node->next->prev = node->prev;
    let n1 ← h1.nodes p
    let h2 ← match n1.next with
      | some r => do
        let nr ← h1.nodes r
        pure (h1.write r { nr with prev := n1.prev })
      | none => pure h1
    -- node->next = NULL; node->prev = NULL;
    let n2 ← h2.nodes p
    pure (h2.write p { n2 with next := none, prev := none })

/-- The scan of `ht_get_node`:
`for (n = ht->table[idx]; n; n = n->next) if (n->key == key) return n;`. -/
def ht_get_node_loop (h : Heap) (key : Int) : Nat → Option Ptr → Option (Option Ptr)
  | _, none => some none
  | 0, some _ => none
  | fuel + 1, some p =>
    match h.nodes p with
    | none => none
    | some n => if n.key = key then some (some p) else ht_get_node_loop h key fuel n.next

/-- The function `ht_get_node` of `hash_table.c`. -/
def ht_get_node (fuel : Nat) (h : Heap) (ht : Option hash_table) (key : Int) :
    Option (Option Ptr) :=
  match ht with
  | none => some none
  | some t =>
    if t.num_buckets ≤ 0 then some none
    else
      match t.table[(calc_hash_code key t.num_buckets).toNat]? with
      | none => none
      | some head => ht_get_node_loop h key fuel head

/-- The function `ht_contains` of `hash_table.c`. -/
def ht_contains (fuel : Nat) (h : Heap) (ht : Option hash_table) (key : Int) : Option Bool :=
  match ht with
  | none => some false
  | some t =>
    if 0 < t.num_buckets then (ht_get_node fuel h (some t) key).map Option.isSome
    else some false

/-- The search loop of `ht_remove`: `while (n && n->key != key) n = n->next;`. -/
def ht_remove_loop (h : Heap) (key : Int) : Nat → Option Ptr → Option (Option Ptr)
  | _, none => some none
  | 0, some _ => none
  | fuel + 1, some p =>
    match h.nodes p with
    | none => none
    | some n => if n.key ≠ key then ht_remove_loop h key fuel n.next else some (some p)

/-- The block `// unlink n` of `ht_remove` for the node `n` found at address `p`, with the
`free(n)`, the decrement of `num_items` and the `return true` that follow it. -/
def ht_remove_unlink (h : Heap) (t : hash_table) (idx : Nat) (p : Ptr) :
    Option (Bool × Heap × Option hash_table) := do
  let n ← h.nodes p
  -- if (n->prev) n->prev->next = n->next; else ht->table[idx] = n->next;
  let (h1, t1) ← match n.prev with
    | some q => do
      let nq ← h.nodes q
      pure (h.write q { nq with next := n.next }, t)
    | none => pure (h, { t with table := t.table.set idx n.next })
  -- if (n->next) n->next->prev = n->prev;
  let n1 ← h1.nodes p
  let h2 ← match n1.next with
    | some r => do
      let nr ← h1.nodes r
      pure (h1.write r { nr with prev := n1.prev })
    | none => pure h1
  -- free(n); ht->num_items--; return true;
  let h3 ← h2.free_node p
  pure (true, h3, some { t1 with num_items := wrap_int (t1.num_items - 1) })

/-- The function `ht_remove` of `hash_table.c`: the result flag, the heap and the table afterwards. -/
def ht_remove (fuel : Nat) (h : Heap) (ht : Option hash_table) (key : Int) :
    Option (Bool × Heap × Option hash_table) :=
  match ht with
  | none => some (false, h, none)
  | some t =>
    if t.num_buckets ≤ 0 then some (false, h, some t)
    else
      let idx := (calc_hash_code key t.num_buckets).toNat
      match t.table[idx]? with
      | none => none
      | some head =>
        match ht_remove_loop h key fuel head with
        | none => none
        | some none => some (false, h, some t)
        | some (some p) => ht_remove_unlink h t idx p

/-- The tail search of `ht_add`: `while (!hn_is_tail(tail)) tail = tail->next;`. -/
def ht_add_find_tail (h : Heap) : Nat → Ptr → Option Ptr
  | 0, _ => none
  | fuel + 1, tail =>
    match hn_is_tail h tail with
    | none => none
    | some true => some tail
    | some false =>
      match h.nodes tail with
      | none => none
      | some n =>
        match n.next with
        | none => none
        | some q => ht_add_find_tail h fuel q

/-- The part of `ht_add` from `int idx = ...` on: the node at `p` becomes the head of an empty
bucket or is spliced in after the tail of the chain, `num_items` is incremented and `true` is
returned. -/
def ht_add_link (fuel : Nat) (h : Heap) (t : hash_table) (key : Int) (p : Ptr) :
    Option (Bool × Heap × Option hash_table) :=
  let idx := (calc_hash_code key t.num_buckets).toNat
  match t.table[idx]? with
  | none => none
  | some (some hd) =>
    -- find tail, then hn_insert_after(tail, node)
    match ht_add_find_tail h fuel hd with
    | none => none
    | some tail =>
      match hn_insert_after h (some tail) (some p) with
      | none => none
      | some h1 => some (true, h1, some { t with num_items := wrap_int (t.num_items + 1) })
  | some none =>
    -- ht->table[idx] = node
    some (true, h, some { t with table := t.table.set idx (some p),
                                 num_items := wrap_int (t.num_items + 1) })

/-- The function `ht_add` of `hash_table.c`: the result flag, the heap and the table afterwards. -/
def ht_add (fuel : Nat) (h : Heap) (ht : Option hash_table) (key : Int) (node : Option Ptr) :
    Option (Bool × Heap × Option hash_table) :=
  match ht, node with
  | none, _ => some (false, h, none)
  | some t, none => some (false, h, some t)
  | some t, some p =>
    if t.num_buckets ≤ 0 then some (false, h, some t)
    else
      -- node->key = key; node->next = NULL; node->prev = NULL;
      match h.nodes p with
      | none => none
      | some n =>
        let h1 := h.write p { n with key := key, next := none, prev := none }
        -- if (ht_contains(ht, key)) ht_remove(ht, key);
        match ht_contains fuel h1 (some t) key with
        | none => none
        | some true =>
          match ht_remove fuel h1 (some t) key with
          | some (_, h2, some t2) => ht_add_link fuel h2 t2 key p
          | _ => none
        | some false => ht_add_link fuel h1 t key p

/-- The inner loop of `ht_clear`:
`while (node) { next = node->next; free(node); node = next; }`. -/
def ht_clear_chain : Nat → Heap → Option Ptr → Option Heap
  | _, h, none => some h
  | 0, _, some _ => none
  | fuel + 1, h, some p =>
    match h.nodes p with
    | none => none
    | some n =>
      match h.free_node p with
      | none => none
      | some h1 => ht_clear_chain fuel h1 n.next

/-- The outer loop of `ht_clear`, `for (i = ...; i < ht->num_buckets; i++)`, with `todo`
iterations left to run from index `i`. -/
def ht_clear_loop (fuel : Nat) : Nat → Nat → Heap → List (Option Ptr) →
    Option (Heap × List (Option Ptr))
  | 0, _, h, table => some (h, table)
  | todo + 1, i, h, table =>
    match table[i]? with
    | none => none
    | some node =>
      match ht_clear_chain fuel h node with
      | none => none
      | some h1 => ht_clear_loop fuel todo (i + 1) h1 (table.set i none)

/-- The function `ht_clear` of `hash_table.c`. -/
def ht_clear (fuel : Nat) (h : Heap) (ht : Option hash_table) : Option (Heap × Option hash_table) :=
  match ht with
  | none => some (h, none)
  | some t =>
    match ht_clear_loop fuel t.num_buckets.toNat 0 h t.table with
    | none => none
    | some (h1, table1) => some (h1, some { t with table := table1, num_items := 0 })

/-- The function `ht_destroy` of `hash_table.c`: after `ht_clear` the bucket array and the
table struct are released, and `NULL` is returned. -/
def ht_destroy (fuel : Nat) (h : Heap) (ht : Option hash_table) :
    Option (Heap × Option hash_table) :=
  match ht with
  | none => some (h, none)
  | some t =>
    match ht_clear fuel h (some t) with
    | none => none
    | some (h1, _) => some (h1, none)

/-! ## Specification vocabulary -/

/-- The relation `OnChain nodes cur p`: the node at `p` is met when following `next` links from `cur`. -/
inductive OnChain (nodes : Ptr → Option hash_node) : Option Ptr → Ptr → Prop
  | here (p : Ptr) : OnChain nodes (some p) p
  | step (q : Ptr) (n : hash_node) (p : Ptr) :
      nodes q = some n → OnChain nodes n.next p → OnChain nodes (some q) p

/-- The node at `p` is linked into the table: it is on the chain of some bucket. -/
def Linked (s : State) (p : Ptr) : Prop :=
  ∃ (i : Nat) (head : Option Ptr), s.ht.table[i]? = some head ∧ OnChain s.heap.nodes head p

/-- A node a caller may hand to `ht_add`: a live node object that is not linked into the
table. -/
def Fresh (s : State) (p : Ptr) : Prop :=
  (∃ n, s.heap.nodes p = some n) ∧ ¬ Linked s p

/-- The states a table with a positive bucket count can be in: the result of `ht_create`,
followed by any number of `ht_add` (of a fresh node), `ht_remove` and `ht_clear` calls, between
which the caller may allocate, free and modify nodes that are not linked into the table. -/
inductive Reachable : State → Prop
  | create (h : Heap) (n : Int) (t : hash_table) :
      0 < n → ht_create true true n = some t → Reachable ⟨h, t⟩
  | add (s : State) (fuel : Nat) (key : Int) (p : Ptr) (r : Bool) (h1 : Heap) (t1 : hash_table) :
      Reachable s → Fresh s p →
      ht_add fuel s.heap (some s.ht) key (some p) = some (r, h1, some t1) → Reachable ⟨h1, t1⟩
  | remove (s : State) (fuel : Nat) (key : Int) (r : Bool) (h1 : Heap) (t1 : hash_table) :
      Reachable s →
      ht_remove fuel s.heap (some s.ht) key = some (r, h1, some t1) → Reachable ⟨h1, t1⟩
  | clear (s : State) (fuel : Nat) (h1 : Heap) (t1 : hash_table) :
      Reachable s →
      ht_clear fuel s.heap (some s.ht) = some (h1, some t1) → Reachable ⟨h1, t1⟩
  | caller (s : State) (h1 : Heap) :
      Reachable s → (∀ p, Linked s p → h1.nodes p = s.heap.nodes p) → Reachable ⟨h1, s.ht⟩

/-- Number of nodes on the chain that starts at `cur`, following `next` links up to `NULL`. -/
def chain_length (h : Heap) : Nat → Option Ptr → Option Nat
  | _, none => some 0
  | 0, some _ => none
  | fuel + 1, some p =>
    match h.nodes p with
    | none => none
    | some n => (chain_length h fuel n.next).map (· + 1)

/-- Sum of the chain lengths of the buckets with index below `i`, each chain counted by
traversal. -/
def count_nodes (fuel : Nat) (h : Heap) (table : List (Option Ptr)) : Nat → Option Nat
  | 0 => some 0
  | i + 1 => do
    let a ← count_nodes fuel h table i
    let head ← table[i]?
    let b ← chain_length h fuel head
    pure (a + b)

/-- The chains of the table hold `n` nodes in all: counting the nodes of every bucket chain by
traversal gives `n`. -/
def NodeCount (s : State) (n : Nat) : Prop :=
  ∃ fuel, count_nodes fuel s.heap s.ht.table s.ht.num_buckets.toNat = some n

/-- Total length of the lists `c 0`, ..., `c (len - 1)`. -/
def chain_total (c : Nat → List Ptr) (len : Nat) : Nat :=
  ((List.range len).map fun i => (c i).length).sum

/-- The predicate `Dll nodes prev cur l`: following `next` links from `cur` visits exactly the nodes of `l`, in
order, and then reaches `NULL`; the `prev` link of each visited node is the node visited before
it, and that of the first is `prev`. -/
def Dll (nodes : Ptr → Option hash_node) : Option Ptr → Option Ptr → List Ptr → Prop
  | _, cur, [] => cur = none
  | prev, cur, p :: l =>
    cur = some p ∧ ∃ n, nodes p = some n ∧ n.prev = prev ∧ Dll nodes (some p) n.next l

/-- The bucket index of a key as a position in the bucket array. -/
def bucket (s : State) (key : Int) : Nat :=
  (calc_hash_code key s.ht.num_buckets).toNat

/-- The key stored in the node at `p`, if that node is live. -/
def key_of (h : Heap) (p : Ptr) : Option Int :=
  (h.nodes p).map fun n => n.key

/-- The node at `p` is live and carries the key `key`. -/
def HasKey (h : Heap) (p : Ptr) (key : Int) : Prop :=
  key_of h p = some key

/-- Representation invariant: `c i` lists the nodes of bucket `i` in chain order, and the
counter holds the number of listed nodes, wrapped into the `int` range. -/
structure Rep (s : State) (c : Nat → List Ptr) : Prop where
  nb_pos : 0 < s.ht.num_buckets
  len_table : s.ht.table.length = s.ht.num_buckets.toNat
  dll : ∀ (i : Nat) (head : Option Ptr), s.ht.table[i]? = some head →
    Dll s.heap.nodes none head (c i)
  nodup : ∀ i, (c i).Nodup
  placed : ∀ i p, p ∈ c i →
    ∃ k, key_of s.heap p = some k ∧ (calc_hash_code k s.ht.num_buckets).toNat = i
  keys : ∀ i p q, p ∈ c i → q ∈ c i → key_of s.heap p = key_of s.heap q → p = q
  count : s.ht.num_items = wrap_int (chain_total c s.ht.table.length)

/-- The chains after `ht_add` of the node at `p` under `key`: in the bucket of `key` the nodes
that carried `key` are gone and `p` is the new last node; the other buckets are as before. -/
def chains_after_add (s : State) (c : Nat → List Ptr) (key : Int) (p : Ptr) : Nat → List Ptr :=
  Function.update c (bucket s key)
    ((c (bucket s key)).filter (fun q => key_of s.heap q != some key) ++ [p])

/-- The chains after `ht_remove` of `key`: the nodes that carried `key` are gone from its
bucket. -/
def chains_after_remove (s : State) (c : Nat → List Ptr) (key : Int) : Nat → List Ptr :=
  Function.update c (bucket s key)
    ((c (bucket s key)).filter (fun q => key_of s.heap q != some key))

/-- The arguments `ht_add` rejects: `!ht || ht->num_buckets <= 0 || !node`. -/
def InvalidAdd (ht : Option hash_table) (node : Option Ptr) : Prop :=
  ht = none ∨ (∃ t, ht = some t ∧ t.num_buckets ≤ 0) ∨ node = none

/-- The tables every operation refuses to index: `!ht || ht->num_buckets <= 0`. -/
def InvalidTable (ht : Option hash_table) : Prop :=
  ht = none ∨ ∃ t, ht = some t ∧ t.num_buckets ≤ 0

/-- The nodes on the chain that starts at `cur`, in chain order, following `next` links up to
`NULL`. -/
def chain_nodes (h : Heap) : Nat → Option Ptr → Option (List Ptr)
  | _, none => some []
  | 0, some _ => none
  | fuel + 1, some p =>
    match h.nodes p with
    | none => none
    | some n => (chain_nodes h fuel n.next).map fun l => p :: l

/-- The states reachable from `ht_create(n)`: as `Reachable`, with the bucket count given at
construction kept as an index. -/
inductive ReachableFrom (n : Int) : State → Prop
  | create (h : Heap) (t : hash_table) :
      0 < n → ht_create true true n = some t → ReachableFrom n ⟨h, t⟩
  | add (s : State) (fuel : Nat) (key : Int) (p : Ptr) (r : Bool) (h1 : Heap) (t1 : hash_table) :
      ReachableFrom n s → Fresh s p →
      ht_add fuel s.heap (some s.ht) key (some p) = some (r, h1, some t1) →
      ReachableFrom n ⟨h1, t1⟩
  | remove (s : State) (fuel : Nat) (key : Int) (r : Bool) (h1 : Heap) (t1 : hash_table) :
      ReachableFrom n s →
      ht_remove fuel s.heap (some s.ht) key = some (r, h1, some t1) → ReachableFrom n ⟨h1, t1⟩
  | clear (s : State) (fuel : Nat) (h1 : Heap) (t1 : hash_table) :
      ReachableFrom n s →
      ht_clear fuel s.heap (some s.ht) = some (h1, some t1) → ReachableFrom n ⟨h1, t1⟩
  | caller (s : State) (h1 : Heap) :
      ReachableFrom n s → (∀ p, Linked s p → h1.nodes p = s.heap.nodes p) →
      ReachableFrom n ⟨h1, s.ht⟩

/-- The links of the chain `l` that hangs off the bucket head `head` are well formed: the head
pointer is the first node, the first node has no `prev`, the last node has no `next`, and of
two consecutive nodes the first has the second as `next` and the second the first as `prev`. -/
def WellLinked (h : Heap) (head : Option Ptr) (l : List Ptr) : Prop :=
  head = l.head? ∧
  (∀ p, l.head? = some p → ∃ n, h.nodes p = some n ∧ n.prev = none) ∧
  (∀ p, l.getLast? = some p → ∃ n, h.nodes p = some n ∧ n.next = none) ∧
  (∀ (j : Nat) (a b : Ptr), l[j]? = some a → l[j + 1]? = some b →
    ∃ na nb, h.nodes a = some na ∧ h.nodes b = some nb ∧
      na.next = some b ∧ nb.prev = some a)

/-- The heap `h1` is the heap `h` with the node at `q` spliced in right after the node at `p`:
the node at `p` has `q` as `next` and its old `prev`, the node at `q` has `p` as `prev` and the
old successor of `p` as `next`, that old successor (if any) has `q` as `prev`, and every other
node is as before. -/
def SplicedAfter (h h1 : Heap) (p q : Ptr) : Prop :=
  ∃ n m n1 m1, h.nodes p = some n ∧ h.nodes q = some m ∧
    h1.nodes p = some n1 ∧ h1.nodes q = some m1 ∧
    n1.next = some q ∧ m1.prev = some p ∧ m1.next = n.next ∧ n1.prev = n.prev ∧
    (∀ r nr, n.next = some r → h.nodes r = some nr →
      ∃ nr1, h1.nodes r = some nr1 ∧ nr1.prev = some q ∧ nr1.next = nr.next) ∧
    (∀ x, x ≠ p → x ≠ q → some x ≠ n.next → h1.nodes x = h.nodes x)

/-- The mirror image of `SplicedAfter`: the node at `q` is spliced in right before the node at
`p`. -/
def SplicedBefore (h h1 : Heap) (p q : Ptr) : Prop :=
  ∃ n m n1 m1, h.nodes p = some n ∧ h.nodes q = some m ∧
    h1.nodes p = some n1 ∧ h1.nodes q = some m1 ∧
    n1.prev = some q ∧ m1.next = some p ∧ m1.prev = n.prev ∧ n1.next = n.next ∧
    (∀ r nr, n.prev = some r → h.nodes r = some nr →
      ∃ nr1, h1.nodes r = some nr1 ∧ nr1.next = some q ∧ nr1.prev = nr.prev) ∧
    (∀ x, x ≠ p → x ≠ q → some x ≠ n.prev → h1.nodes x = h.nodes x)

/-- In the heap `h2` the splice of the node at `q` after the node at `p` is undone with respect
to the heap `h`: the node at `p` and its successor in `h` (if any) have the links they have in
`h`, and the node at `q` has neither `prev` nor `next`. -/
def SpliceUndone (h h2 : Heap) (p q : Ptr) : Prop :=
  ∃ n n2 m2, h.nodes p = some n ∧ h2.nodes p = some n2 ∧
    n2.prev = n.prev ∧ n2.next = n.next ∧
    (∀ r nr, n.next = some r → h.nodes r = some nr →
      ∃ nr2, h2.nodes r = some nr2 ∧ nr2.prev = nr.prev ∧ nr2.next = nr.next) ∧
    h2.nodes q = some m2 ∧ m2.prev = none ∧ m2.next = none

/-- The heap `h1` is the heap `h` with the node at `x` unlinked: the old predecessor of `x`
(if any) has the old successor of `x` as `next`, the old successor (if any) has the old
predecessor as `prev`, and the node at `x` has neither `prev` nor `next`. -/
def Unlinked (h h1 : Heap) (x : Ptr) : Prop :=
  ∃ n n1, h.nodes x = some n ∧ h1.nodes x = some n1 ∧ n1.prev = none ∧ n1.next = none ∧
    (∀ a, n.prev = some a → ∃ na1, h1.nodes a = some na1 ∧ na1.next = n.next) ∧
    (∀ b, n.next = some b → ∃ nb1, h1.nodes b = some nb1 ∧ nb1.prev = n.prev)

/-- A call of one of the three mutating table operations. -/
inductive TableOp where
  | add (key : Int) (node : Ptr)
  | remove (key : Int)
  | clear

/-- Run one operation on the table of a state. -/
def apply_op (fuel : Nat) (s : State) : TableOp → Option State
  | TableOp.add key node =>
    match ht_add fuel s.heap (some s.ht) key (some node) with
    | some (_, h1, some t1) => some ⟨h1, t1⟩
    | _ => none
  | TableOp.remove key =>
    match ht_remove fuel s.heap (some s.ht) key with
    | some (_, h1, some t1) => some ⟨h1, t1⟩
    | _ => none
  | TableOp.clear =>
    match ht_clear fuel s.heap (some s.ht) with
    | some (h1, some t1) => some ⟨h1, t1⟩
    | _ => none

/-- Run a sequence of operations, first to last. -/
def run_ops (fuel : Nat) : State → List TableOp → Option State
  | s, [] => some s
  | s, op :: ops =>
    match apply_op fuel s op with
    | none => none
    | some s1 => run_ops fuel s1 ops

/-- The nodes handed to `ht_add` in a sequence of operations. -/
def added_nodes : List TableOp → List Ptr
  | [] => []
  | TableOp.add _ node :: ops => node :: added_nodes ops
  | _ :: ops => added_nodes ops

/-- Reference model: a finite map from integer keys to nodes, as an association list with at
most one entry per key. -/
abbrev RefMap := List (Int × Ptr)

/-- Reference model: the lookup of a key. -/
def ref_lookup : RefMap → Int → Option Ptr
  | [], _ => none
  | (k, p) :: m, key => if k = key then some p else ref_lookup m key

/-- Reference model: erase the entry of a key. -/
def ref_erase (m : RefMap) (key : Int) : RefMap :=
  m.filter fun e => e.1 != key

/-- Reference model: insert an entry, overwriting the entry the key had. -/
def ref_insert (m : RefMap) (key : Int) (p : Ptr) : RefMap :=
  (key, p) :: ref_erase m key

/-- Reference model: the number of entries. -/
def ref_size (m : RefMap) : Nat := m.length

/-- Reference model: one operation replayed on the map, `ht_add` as insert-or-overwrite,
`ht_remove` as erase and `ht_clear` as the empty map. -/
def ref_apply (m : RefMap) : TableOp → RefMap
  | TableOp.add key node => ref_insert m key node
  | TableOp.remove key => ref_erase m key
  | TableOp.clear => []

/-- Reference model: a sequence of operations replayed on the map, first to last. -/
def ref_run : RefMap → List TableOp → RefMap
  | m, [] => m
  | m, op :: ops => ref_run (ref_apply m op) ops

/-! ## Example states -/

/-- An example heap: ten live nodes at the addresses 0 to 9, the node at `p` with key
`100 + p`, none of them linked. -/
def demo_heap : Heap :=
  { nodes := fun p =>
      if p < 10 then some ⟨100 + p, 0, none, none, none, none, none, none, none⟩ else none
    text := fun _ => false }

/-- The table `ht_create(5)`. -/
def demo_table : hash_table :=
  { table := List.replicate 5 none, num_buckets := 5, num_items := 0 }

/-- The table `ht_create(5)` next to `demo_heap`. -/
def demo_state : State := ⟨demo_heap, demo_table⟩

/-- The state an operation leaves behind (`dflt` if the operation has no result). -/
def state_of (r : Option (Bool × Heap × Option hash_table)) (dflt : State) : State :=
  match r with
  | some (_, h, some t) => ⟨h, t⟩
  | _ => dflt

/-- The state `demo_state` after `ht_add(ht, 1, node)` with the node at address 1. -/
def demo_state1 : State :=
  state_of (ht_add 1 demo_state.heap (some demo_state.ht) 1 (some 1)) demo_state

/-- The state `demo_state1` after `ht_add(ht, 6, node)` with the node at address 2; the keys 1 and 6 share
bucket 1. -/
def demo_state2 : State :=
  state_of (ht_add 2 demo_state1.heap (some demo_state1.ht) 6 (some 2)) demo_state1

/-- An example heap with one node at address 1 that owns two live text buffers, at the
addresses 100 (`full_name`) and 101 (`city`). -/
def payload_heap : Heap :=
  { nodes := fun p =>
      if p = 1 then some ⟨0, 0, some 100, none, some 101, none, none, none, none⟩
      else if p = 2 then some ⟨0, 0, none, none, none, none, none, none, none⟩
      else none
    text := fun a => a = 100 || a = 101 }

/-- The state `ht_create(5)` next to `payload_heap`, after `ht_add(ht, 7, node)` with the node
at address 1. -/
def payload_state : State :=
  state_of (ht_add 1 payload_heap (some demo_table) 7 (some 1)) ⟨payload_heap, demo_table⟩

/-- An example heap for the splice primitives: the node at address 1 already has the node at
address 2 as its successor, the node at address 3 is its own successor, the node at address 4
is its own predecessor and the node at address 5 has the node at address 2 as its
predecessor. -/
def splice_heap : Heap :=
  { nodes := fun p =>
      if p = 1 then some ⟨0, 0, none, none, none, none, none, none, some 2⟩
      else if p = 2 then some ⟨0, 0, none, none, none, none, none, none, none⟩
      else if p = 3 then some ⟨0, 0, none, none, none, none, none, none, some 3⟩
      else if p = 4 then some ⟨0, 0, none, none, none, none, none, some 4, none⟩
      else if p = 5 then some ⟨0, 0, none, none, none, none, none, some 2, none⟩
      else none
    text := fun _ => false }

/-- An example heap for `hn_remove`: the node at address 1 has the node at address 2 as its
successor, but the node at address 2 does not point back at it; the node at address 3 is
unlinked; the node at address 4 is its own predecessor and has the node at address 2 as its
successor. -/
def stale_heap : Heap :=
  { nodes := fun p =>
      if p = 1 then some ⟨0, 0, none, none, none, none, none, none, some 2⟩
      else if p = 2 then some ⟨0, 0, none, none, none, none, none, none, none⟩
      else if p = 3 then some ⟨0, 0, none, none, none, none, none, none, none⟩
      else if p = 4 then some ⟨0, 0, none, none, none, none, none, some 4, some 2⟩
      else none
    text := fun _ => false }

/-- An example heap in which every address holds a live node that is linked to no other
node. -/
def full_heap : Heap :=
  { nodes := fun _ => some ⟨0, 0, none, none, none, none, none, none, none⟩
    text := fun _ => false }

/-- The calls `ht_add(ht, 0, node 0)`, ..., `ht_add(ht, k - 1, node k - 1)`: `k` different
nodes under `k` different keys. -/
def add_range (k : Nat) : List TableOp :=
  (List.range k).map fun (p : Nat) => TableOp.add (p : Int) p

/-! # Proofs -/

/-! ## The bucket index -/

theorem tmod_neg_left (a b : Int) : Int.tmod (-a) b = -Int.tmod a b := by
  rw [Int.tmod_def, Int.tmod_def, Int.neg_tdiv]
  simp only [Int.mul_neg]
  omega

theorem tmod_bounds (key n : Int) (hn : 0 < n) :
    -n < Int.tmod key n ∧ Int.tmod key n < n ∧ (0 ≤ key → 0 ≤ Int.tmod key n) ∧
      (key < 0 → Int.tmod key n ≤ 0) := by
  have h1 := Int.tmod_lt_of_pos key hn
  have h2 := Int.tmod_lt_of_pos (-key) hn
  rw [tmod_neg_left] at h2
  refine ⟨by omega, h1, fun hk => Int.tmod_nonneg n hk, fun hk => ?_⟩
  have h3 := Int.tmod_nonneg n (a := -key) (by omega)
  rw [tmod_neg_left] at h3
  omega

theorem calc_hash_code_eq_emod (key n : Int) (hn : 0 < n) : calc_hash_code key n = key % n := by
  obtain ⟨hlo, hhi, _, _⟩ := tmod_bounds key n hn
  have hkey : key = Int.tmod key n + n * key.tdiv n := (Int.tmod_add_tdiv key n).symm
  unfold calc_hash_code
  have h1 : ¬ n ≤ 0 := by omega
  simp only [h1, if_false]
  by_cases hz : Int.tmod key n < 0
  · simp only [hz, if_true]
    have e : key % n = (Int.tmod key n + n) % n := by
      conv_lhs => rw [hkey]
      rw [Int.add_mul_emod_self_left, Int.add_emod_self]
    rw [e, Int.emod_eq_of_lt (by omega) (by omega)]
  · simp only [hz, if_false]
    have e : key % n = (Int.tmod key n) % n := by
      conv_lhs => rw [hkey]
      rw [Int.add_mul_emod_self_left]
    rw [e, Int.emod_eq_of_lt (by omega) (by omega)]

theorem calc_hash_code_range (key n : Int) (hn : 0 < n) :
    0 ≤ calc_hash_code key n ∧ calc_hash_code key n < n := by
  rw [calc_hash_code_eq_emod key n hn]
  exact ⟨Int.emod_nonneg _ (by omega), Int.emod_lt_of_pos _ hn⟩

/-! ## Chains in the heap -/

theorem Dll_nil {nodes : Ptr → Option hash_node} {prev cur : Option Ptr} :
    Dll nodes prev cur [] ↔ cur = none := Iff.rfl

theorem Dll_cons {nodes : Ptr → Option hash_node} {prev cur : Option Ptr} {p : Ptr}
    {l : List Ptr} :
    Dll nodes prev cur (p :: l) ↔
      cur = some p ∧ ∃ n, nodes p = some n ∧ n.prev = prev ∧ Dll nodes (some p) n.next l :=
  Iff.rfl

theorem Dll_frame {nodes nodes1 : Ptr → Option hash_node} {l : List Ptr} :
    ∀ {prev cur : Option Ptr}, (∀ q ∈ l, nodes1 q = nodes q) → Dll nodes prev cur l →
      Dll nodes1 prev cur l := by
  induction l with
  | nil => intro prev cur _ h; exact h
  | cons p l ih =>
    intro prev cur hf h
    obtain ⟨hc, n, hn, hp, hd⟩ := Dll_cons.1 h
    refine Dll_cons.2 ⟨hc, n, ?_, hp, ih (fun q hq => hf q (List.mem_cons_of_mem _ hq)) hd⟩
    rw [hf p (List.mem_cons_self _ _)]; exact hn

theorem Dll_live {nodes : Ptr → Option hash_node} {l : List Ptr} :
    ∀ {prev cur : Option Ptr}, Dll nodes prev cur l → ∀ p ∈ l, ∃ n, nodes p = some n := by
  induction l with
  | nil => intro _ _ _ p hp; cases hp
  | cons x l ih =>
    intro prev cur h p hp
    obtain ⟨_, n, hn, _, hd⟩ := Dll_cons.1 h
    rcases List.mem_cons.1 hp with rfl | hp
    · exact ⟨n, hn⟩
    · exact ih hd p hp

theorem Dll_onchain {nodes : Ptr → Option hash_node} {l : List Ptr} :
    ∀ {prev cur : Option Ptr}, Dll nodes prev cur l → ∀ p ∈ l, OnChain nodes cur p := by
  induction l with
  | nil => intro _ _ _ p hp; cases hp
  | cons x l ih =>
    intro prev cur h p hp
    obtain ⟨hc, n, hn, _, hd⟩ := Dll_cons.1 h
    subst hc
    rcases List.mem_cons.1 hp with rfl | hp
    · exact OnChain.here _
    · exact OnChain.step _ n _ hn (ih hd p hp)

theorem onchain_Dll {nodes : Ptr → Option hash_node} {cur : Option Ptr} {p : Ptr}
    (hc : OnChain nodes cur p) :
    ∀ {prev : Option Ptr} {l : List Ptr}, Dll nodes prev cur l → p ∈ l := by
  induction hc with
  | here p =>
    intro prev l h
    cases l with
    | nil => cases Dll_nil.1 h
    | cons x l =>
      obtain ⟨hc, _⟩ := Dll_cons.1 h
      cases hc
      exact List.mem_cons_self _ _
  | step q n p hq _ ih =>
    intro prev l h
    cases l with
    | nil => cases Dll_nil.1 h
    | cons x l =>
      obtain ⟨hc, m, hm, _, hd⟩ := Dll_cons.1 h
      cases hc
      rw [hq] at hm
      cases hm
      exact List.mem_cons_of_mem _ (ih hd)

/-- Where the links of a chain member point. -/
theorem Dll_mid {nodes : Ptr → Option hash_node} {p : Ptr} {n : hash_node} {l2 : List Ptr} :
    ∀ (l1 : List Ptr) {prev cur : Option Ptr}, Dll nodes prev cur (l1 ++ p :: l2) →
      nodes p = some n →
      (l1 = [] → n.prev = prev) ∧ (l1 ≠ [] → ∃ y ∈ l1, n.prev = some y) ∧
        (∀ z, n.next = some z → z ∈ l2) ∧ (l2 = [] → n.next = none) := by
  intro l1
  induction l1 with
  | nil =>
    intro prev cur h hn
    obtain ⟨_, m, hm, hp, hd⟩ := Dll_cons.1 h
    rw [hn] at hm
    cases hm
    refine ⟨fun _ => hp, fun h => absurd rfl h, ?_, ?_⟩
    · intro z hz
      cases l2 with
      | nil => rw [Dll_nil.1 hd] at hz; cases hz
      | cons r l2 =>
        obtain ⟨hc, _⟩ := Dll_cons.1 hd
        rw [hz] at hc
        cases hc
        exact List.mem_cons_self _ _
    · intro h2
      subst h2
      exact Dll_nil.1 hd
  | cons x l1 ih =>
    intro prev cur h hn
    obtain ⟨_, m, hm, hp, hd⟩ := Dll_cons.1 h
    obtain ⟨a, b, c, d⟩ := ih hd hn
    refine ⟨fun h => (by cases h), fun _ => ?_, c, d⟩
    cases l1 with
    | nil => exact ⟨x, List.mem_cons_self _ _, a rfl⟩
    | cons y l1 =>
      obtain ⟨z, hz, hz2⟩ := b (by simp)
      exact ⟨z, List.mem_cons_of_mem _ hz, hz2⟩

/-- Unlinking a chain member: the neighbours are joined and the other nodes keep their
links. -/
theorem Dll_unlink {nodes nodes1 : Ptr → Option hash_node} {p : Ptr} {n : hash_node}
    {l2 : List Ptr}
    (hn : nodes p = some n)
    (hother : ∀ x, x ≠ p → some x ≠ n.prev → some x ≠ n.next → nodes1 x = nodes x)
    (hprev : ∀ q, n.prev = some q →
      ∃ nq, nodes q = some nq ∧ nodes1 q = some { nq with next := n.next })
    (hnext : ∀ r, n.next = some r →
      ∃ nr, nodes r = some nr ∧ nodes1 r = some { nr with prev := n.prev }) :
    ∀ (l1 : List Ptr) {prev cur : Option Ptr}, Dll nodes prev cur (l1 ++ p :: l2) →
      (l1 ++ p :: l2).Nodup → (∀ x, prev = some x → x ∉ l1 ++ p :: l2) →
      Dll nodes1 prev (if l1 = [] then n.next else cur) (l1 ++ l2) := by
  intro l1
  induction l1 with
  | nil =>
    intro prev cur h hnd hpv
    simp only [List.nil_append, if_true] at h hnd hpv ⊢
    obtain ⟨_, m, hm, hp, hd⟩ := Dll_cons.1 h
    rw [hn] at hm
    cases hm
    cases l2 with
    | nil => exact hd
    | cons r l2 =>
      obtain ⟨hc, nr, hr, hrp, hd2⟩ := Dll_cons.1 hd
      obtain ⟨nr1, hr1, hr2⟩ := hnext r hc
      rw [hr] at hr1
      cases hr1
      have hnd2 : p ∉ r :: l2 := (List.nodup_cons.1 hnd).1
      have hnd3 : r ∉ l2 := (List.nodup_cons.1 (List.nodup_cons.1 hnd).2).1
      refine Dll_cons.2 ⟨hc, _, hr2, hp, Dll_frame (fun x hx => ?_) hd2⟩
      apply hother
      · rintro rfl; exact hnd2 (List.mem_cons_of_mem _ hx)
      · rw [hp]
        intro e
        exact hpv x e.symm (List.mem_cons_of_mem _ (List.mem_cons_of_mem _ hx))
      · rw [hc]
        intro e
        cases e
        exact hnd3 hx
  | cons x l1 ih =>
    intro prev cur h hnd hpv
    obtain ⟨hc, nx, hx, hxp, hd⟩ := Dll_cons.1 h
    have hnd1 : x ∉ l1 ++ p :: l2 := (List.nodup_cons.1 hnd).1
    have hnd2 : (l1 ++ p :: l2).Nodup := (List.nodup_cons.1 hnd).2
    have ih1 := ih hd hnd2 (fun y hy => by cases hy; exact hnd1)
    obtain ⟨m1, m2, m3, _⟩ := Dll_mid l1 hd hn
    simp only [List.cons_append, reduceCtorEq, if_false]
    cases l1 with
    | nil =>
      simp only [if_true] at ih1
      obtain ⟨nq, hq1, hq2⟩ := hprev x (m1 rfl)
      rw [hx] at hq1
      cases hq1
      exact Dll_cons.2 ⟨hc, _, hq2, hxp, ih1⟩
    | cons y l1 =>
      simp only [reduceCtorEq, if_false] at ih1
      have hx1 : nodes1 x = nodes x := by
        apply hother
        · rintro rfl; exact hnd1 (by simp)
        · obtain ⟨z, hz, hz2⟩ := m2 (by simp)
          rw [hz2]
          intro e
          cases e
          exact hnd1 (List.mem_append_left _ hz)
        · intro e
          exact hnd1 (List.mem_append_right _ (List.mem_cons_of_mem _ (m3 x e.symm)))
      exact Dll_cons.2 ⟨hc, nx, by rw [hx1]; exact hx, hxp, ih1⟩

/-- Appending a node after the last node of a non-empty chain. -/
theorem Dll_snoc {nodes nodes1 : Ptr → Option hash_node} {t p : Ptr} {nt np : hash_node}
    (ht : nodes t = some nt) (ht1 : nodes1 t = some { nt with next := some p })
    (hp1 : nodes1 p = some np) (hpp : np.prev = some t) (hpn : np.next = none) :
    ∀ (l0 : List Ptr) {prev cur : Option Ptr}, Dll nodes prev cur (l0 ++ [t]) →
      (∀ q ∈ l0, nodes1 q = nodes q) → Dll nodes1 prev cur (l0 ++ [t, p]) := by
  intro l0
  induction l0 with
  | nil =>
    intro prev cur h _
    obtain ⟨hc, m, hm, hmp, hd⟩ := Dll_cons.1 h
    rw [ht] at hm
    cases hm
    exact Dll_cons.2 ⟨hc, _, ht1, hmp, Dll_cons.2 ⟨rfl, np, hp1, hpp, by rw [hpn]; exact Dll_nil.2 rfl⟩⟩
  | cons x l0 ih =>
    intro prev cur h hf
    obtain ⟨hc, nx, hx, hxp, hd⟩ := Dll_cons.1 h
    refine Dll_cons.2 ⟨hc, nx, ?_, hxp, ih hd (fun q hq => hf q (List.mem_cons_of_mem _ hq))⟩
    rw [hf x (List.mem_cons_self _ _)]; exact hx

/-! ## The loops on a well-formed chain -/

theorem HasKey_iff {h : Heap} {p : Ptr} {key : Int} :
    HasKey h p key ↔ ∃ n, h.nodes p = some n ∧ n.key = key := by
  unfold HasKey key_of
  cases h.nodes p <;> simp

theorem ht_remove_loop_eq (h : Heap) (key : Int) :
    ∀ (fuel : Nat) (cur : Option Ptr),
      ht_remove_loop h key fuel cur = ht_get_node_loop h key fuel cur := by
  intro fuel
  induction fuel with
  | zero => intro cur; cases cur <;> rfl
  | succ f ih =>
    intro cur
    cases cur with
    | none => rfl
    | some p =>
      simp only [ht_remove_loop, ht_get_node_loop]
      cases h.nodes p with
      | none => rfl
      | some n =>
        by_cases hk : n.key = key
        · simp [hk]
        · simp [hk, ih]

theorem get_loop_found {h : Heap} {key : Int} {p : Ptr} (hp : HasKey h p key) {l : List Ptr} :
    ∀ {prev cur : Option Ptr} {fuel : Nat}, Dll h.nodes prev cur l → p ∈ l →
      (∀ q ∈ l, HasKey h q key → q = p) → l.length ≤ fuel →
      ht_get_node_loop h key fuel cur = some (some p) := by
  induction l with
  | nil => intro _ _ _ _ hm; cases hm
  | cons x l ih =>
    intro prev cur fuel hd hm hu hf
    obtain ⟨hc, n, hn, _, hd2⟩ := Dll_cons.1 hd
    subst hc
    cases fuel with
    | zero => simp at hf
    | succ f =>
      simp only [ht_get_node_loop, hn]
      by_cases hk : n.key = key
      · have : x = p := hu x (List.mem_cons_self _ _) (HasKey_iff.2 ⟨n, hn, hk⟩)
        simp [hk, this]
      · simp only [hk, if_false]
        have hxp : p ≠ x := by
          rintro rfl
          obtain ⟨m, hm1, hm2⟩ := HasKey_iff.1 hp
          rw [hn] at hm1
          cases hm1
          exact hk hm2
        have hm2 : p ∈ l := by
          rcases List.mem_cons.1 hm with e | e
          · exact absurd e hxp
          · exact e
        exact ih hd2 hm2 (fun q hq => hu q (List.mem_cons_of_mem _ hq))
          (by simp at hf; omega)

theorem get_loop_absent {h : Heap} {key : Int} {l : List Ptr} :
    ∀ {prev cur : Option Ptr} {fuel : Nat}, Dll h.nodes prev cur l →
      (∀ q ∈ l, ¬ HasKey h q key) → l.length ≤ fuel →
      ht_get_node_loop h key fuel cur = some none := by
  induction l with
  | nil =>
    intro prev cur fuel hd _ _
    rw [Dll_nil.1 hd]
    cases fuel <;> rfl
  | cons x l ih =>
    intro prev cur fuel hd hu hf
    obtain ⟨hc, n, hn, _, hd2⟩ := Dll_cons.1 hd
    subst hc
    cases fuel with
    | zero => simp at hf
    | succ f =>
      simp only [ht_get_node_loop, hn]
      have hk : ¬ n.key = key := fun e => hu x (List.mem_cons_self _ _) (HasKey_iff.2 ⟨n, hn, e⟩)
      simp only [hk, if_false]
      exact ih hd2 (fun q hq => hu q (List.mem_cons_of_mem _ hq)) (by simp at hf; omega)

theorem find_tail_last {h : Heap} {t : Ptr} :
    ∀ (l0 : List Ptr) {prev : Option Ptr} {x : Ptr} {fuel : Nat},
      Dll h.nodes prev (some x) (l0 ++ [t]) → (l0 ++ [t]).length ≤ fuel →
      ht_add_find_tail h fuel x = some t := by
  intro l0
  induction l0 with
  | nil =>
    intro prev x fuel hd hf
    obtain ⟨hc, n, hn, _, hd2⟩ := Dll_cons.1 hd
    cases hc
    cases fuel with
    | zero => simp at hf
    | succ f =>
      have : n.next = none := Dll_nil.1 hd2
      simp [ht_add_find_tail, hn, hn_is_tail, this]
  | cons y l0 ih =>
    intro prev x fuel hd hf
    obtain ⟨hc, n, hn, _, hd2⟩ := Dll_cons.1 hd
    cases hc
    cases fuel with
    | zero => simp at hf
    | succ f =>
      have hnx : ∃ z, n.next = some z := by
        cases l0 with
        | nil => exact ⟨_, (Dll_cons.1 hd2).1⟩
        | cons z l0 => exact ⟨_, (Dll_cons.1 hd2).1⟩
      obtain ⟨z, hz⟩ := hnx
      rw [hz] at hd2
      simp only [ht_add_find_tail, hn, hn_is_tail, hz, Option.map_some']
      simpa using ih hd2 (by simp at hf ⊢; omega)

theorem chain_length_eq {h : Heap} {l : List Ptr} :
    ∀ {prev cur : Option Ptr} {fuel : Nat}, Dll h.nodes prev cur l → l.length ≤ fuel →
      chain_length h fuel cur = some l.length := by
  induction l with
  | nil =>
    intro prev cur fuel hd _
    rw [Dll_nil.1 hd]
    cases fuel <;> rfl
  | cons x l ih =>
    intro prev cur fuel hd hf
    obtain ⟨hc, n, hn, _, hd2⟩ := Dll_cons.1 hd
    subst hc
    cases fuel with
    | zero => simp at hf
    | succ f =>
      simp only [chain_length, hn]
      rw [ih hd2 (by simp at hf; omega)]
      simp

theorem clear_chain_spec {l : List Ptr} :
    ∀ {h : Heap} {prev cur : Option Ptr} {fuel : Nat}, Dll h.nodes prev cur l → l.Nodup →
      l.length ≤ fuel →
      ∃ h1, ht_clear_chain fuel h cur = some h1 ∧ h1.text = h.text ∧
        (∀ q, q ∉ l → h1.nodes q = h.nodes q) ∧ (∀ q ∈ l, h1.nodes q = none) := by
  induction l with
  | nil =>
    intro h prev cur fuel hd _ _
    rw [Dll_nil.1 hd]
    refine ⟨h, ?_, rfl, fun _ _ => rfl, fun q hq => by cases hq⟩
    cases fuel <;> rfl
  | cons x l ih =>
    intro h prev cur fuel hd hnd hf
    obtain ⟨hc, n, hn, _, hd2⟩ := Dll_cons.1 hd
    subst hc
    have hx : x ∉ l := (List.nodup_cons.1 hnd).1
    cases fuel with
    | zero => simp at hf
    | succ f =>
      let h0 : Heap := { h with nodes := fun q => if q = x then none else h.nodes q }
      have hd3 : Dll h0.nodes (some x) n.next l := by
        refine Dll_frame (fun q hq => ?_) hd2
        have : q ≠ x := by rintro rfl; exact hx hq
        simp [h0, this]
      obtain ⟨h1, e1, e2, e3, e4⟩ := ih hd3 (List.nodup_cons.1 hnd).2
        (show l.length ≤ f by simp at hf; omega)
      refine ⟨h1, ?_, e2, ?_, ?_⟩
      · simp only [ht_clear_chain, hn, Heap.free_node]
        exact e1
      · intro q hq
        have hq1 : q ≠ x := fun e => hq (e ▸ List.mem_cons_self _ _)
        have hq2 : q ∉ l := fun e => hq (List.mem_cons_of_mem _ e)
        rw [e3 q hq2]
        simp [h0, hq1]
      · intro q hq
        rcases List.mem_cons.1 hq with rfl | hq
        · rw [e3 q hx]
          simp [h0]
        · exact e4 q hq

/-! ## More fuel does not change a result -/

theorem get_loop_mono (h : Heap) (key : Int) :
    ∀ (f g : Nat) (cur : Option Ptr) (r : Option Ptr), f ≤ g →
      ht_get_node_loop h key f cur = some r → ht_get_node_loop h key g cur = some r := by
  intro f
  induction f with
  | zero =>
    intro g cur r _ e
    cases cur with
    | none => cases g <;> exact e
    | some p => cases e
  | succ f ih =>
    intro g cur r hfg e
    cases g with
    | zero => omega
    | succ g =>
      cases cur with
      | none => exact e
      | some p =>
        simp only [ht_get_node_loop] at e ⊢
        cases hn : h.nodes p with
        | none => rw [hn] at e; cases e
        | some n =>
          rw [hn] at e
          simp only at e ⊢
          by_cases hk : n.key = key
          · simpa [hk] using e
          · simp only [hk, if_false] at e ⊢
            exact ih g _ r (by omega) e

theorem find_tail_mono (h : Heap) :
    ∀ (f g : Nat) (x r : Ptr), f ≤ g →
      ht_add_find_tail h f x = some r → ht_add_find_tail h g x = some r := by
  intro f
  induction f with
  | zero => intro g x r _ e; cases e
  | succ f ih =>
    intro g x r hfg e
    cases g with
    | zero => omega
    | succ g =>
      simp only [ht_add_find_tail] at e ⊢
      cases ht : hn_is_tail h x with
      | none => rw [ht] at e; cases e
      | some b =>
        rw [ht] at e
        cases b with
        | true => exact e
        | false =>
          simp only at e ⊢
          cases hn : h.nodes x with
          | none => rw [hn] at e; cases e
          | some n =>
            rw [hn] at e
            simp only at e ⊢
            cases hz : n.next with
            | none => rw [hz] at e; cases e
            | some z =>
              rw [hz] at e
              exact ih g z r (by omega) e

theorem clear_chain_mono :
    ∀ (f g : Nat) (h : Heap) (cur : Option Ptr) (r : Heap), f ≤ g →
      ht_clear_chain f h cur = some r → ht_clear_chain g h cur = some r := by
  intro f
  induction f with
  | zero =>
    intro g h cur r _ e
    cases cur with
    | none => cases g <;> exact e
    | some p => cases e
  | succ f ih =>
    intro g h cur r hfg e
    cases g with
    | zero => omega
    | succ g =>
      cases cur with
      | none => exact e
      | some p =>
        simp only [ht_clear_chain] at e ⊢
        cases hn : h.nodes p with
        | none => rw [hn] at e; cases e
        | some n =>
          rw [hn] at e
          simp only at e ⊢
          cases hfr : h.free_node p with
          | none => rw [hfr] at e; cases e
          | some h1 =>
            rw [hfr] at e
            exact ih g h1 _ r (by omega) e

/-! ## Consequences of the representation invariant -/

theorem sum_range_update_ge (c : Nat → List Ptr) (l : List Ptr) (i : Nat) :
    ∀ len : Nat, len ≤ i →
      ((List.range len).map fun j => (Function.update c i l j).length).sum =
        ((List.range len).map fun j => (c j).length).sum := by
  intro len
  induction len with
  | zero => intro _; rfl
  | succ len ih =>
    intro hi
    have hne : len ≠ i := by omega
    simp only [List.range_succ, List.map_append, List.sum_append, List.map_cons, List.map_nil,
      List.sum_cons, List.sum_nil, Function.update_noteq hne]
    rw [ih (by omega)]

theorem sum_range_update (c : Nat → List Ptr) (l : List Ptr) (i : Nat) :
    ∀ len : Nat, i < len →
      ((List.range len).map fun j => (Function.update c i l j).length).sum + (c i).length =
        ((List.range len).map fun j => (c j).length).sum + l.length := by
  intro len
  induction len with
  | zero => intro hi; omega
  | succ len ih =>
    intro hi
    simp only [List.range_succ, List.map_append, List.sum_append, List.map_cons, List.map_nil,
      List.sum_cons, List.sum_nil]
    by_cases hlt : i < len
    · have hne : len ≠ i := by omega
      have := ih hlt
      simp only [Function.update_noteq hne]
      omega
    · have he : i = len := by omega
      subst he
      rw [sum_range_update_ge c l i i (Nat.le_refl _)]
      simp only [Function.update_same]
      omega

theorem length_le_sum_range (c : Nat → List Ptr) (i : Nat) :
    ∀ len : Nat, i < len → (c i).length ≤ ((List.range len).map fun j => (c j).length).sum := by
  intro len
  induction len with
  | zero => intro hi; omega
  | succ len ih =>
    intro hi
    simp only [List.range_succ, List.map_append, List.sum_append, List.map_cons, List.map_nil,
      List.sum_cons, List.sum_nil]
    by_cases hlt : i < len
    · have := ih hlt
      omega
    · have he : i = len := by omega
      subst he
      omega

theorem wrap_int_of_range {x : Int} (h1 : INT_MIN ≤ x) (h2 : x ≤ INT_MAX) : wrap_int x = x := by
  simp only [wrap_int, INT_MIN, INT_MAX] at *
  omega

theorem wrap_int_range (x : Int) : INT_MIN ≤ wrap_int x ∧ wrap_int x ≤ INT_MAX := by
  simp only [wrap_int, INT_MIN, INT_MAX]
  omega

theorem wrap_int_add (a b : Int) : wrap_int (wrap_int a + b) = wrap_int (a + b) := by
  simp only [wrap_int, INT_MIN]
  omega

theorem wrap_int_sub (a b : Int) : wrap_int (wrap_int a - b) = wrap_int (a - b) := by
  simp only [wrap_int, INT_MIN]
  omega

theorem wrap_int_idem (a : Int) : wrap_int (wrap_int a) = wrap_int a := by
  simp only [wrap_int, INT_MIN]
  omega

theorem chain_total_update (c : Nat → List Ptr) (l : List Ptr) {i len : Nat} (hi : i < len) :
    chain_total (Function.update c i l) len + (c i).length = chain_total c len + l.length :=
  sum_range_update c l i len hi

theorem Dll_head_none {nodes : Ptr → Option hash_node} {prev : Option Ptr} {l : List Ptr}
    (h : Dll nodes prev none l) : l = [] := by
  cases l with
  | nil => rfl
  | cons x l => cases (Dll_cons.1 h).1

theorem Dll_head_some {nodes : Ptr → Option hash_node} {prev : Option Ptr} {x : Ptr}
    {l : List Ptr} (h : Dll nodes prev (some x) l) : l ≠ [] := by
  rintro rfl
  cases Dll_nil.1 h

theorem bucket_lt_of_pos (nb : Int) (hnb : 0 < nb) (key : Int) :
    (calc_hash_code key nb).toNat < nb.toNat := by
  have := calc_hash_code_range key nb hnb
  omega

theorem Rep.bucket_lt {s : State} {c : Nat → List Ptr} (hr : Rep s c) (key : Int) :
    bucket s key < s.ht.table.length := by
  rw [hr.len_table]
  exact bucket_lt_of_pos _ hr.nb_pos key

theorem Rep.head {s : State} {c : Nat → List Ptr} (hr : Rep s c) (i : Nat)
    (hi : i < s.ht.table.length) :
    ∃ head, s.ht.table[i]? = some head ∧ Dll s.heap.nodes none head (c i) := by
  refine ⟨s.ht.table[i], List.getElem?_eq_getElem hi, hr.dll i _ (List.getElem?_eq_getElem hi)⟩

theorem Rep.mem_lt {s : State} {c : Nat → List Ptr} (hr : Rep s c) {i : Nat} {p : Ptr}
    (hp : p ∈ c i) : i < s.ht.table.length := by
  obtain ⟨k, _, hk⟩ := hr.placed i p hp
  rw [← hk]
  exact hr.bucket_lt k

theorem Rep.disjoint {s : State} {c : Nat → List Ptr} (hr : Rep s c) {i j : Nat} {p : Ptr}
    (hi : p ∈ c i) (hj : p ∈ c j) : i = j := by
  obtain ⟨k, hk1, hk2⟩ := hr.placed i p hi
  obtain ⟨k1, hk3, hk4⟩ := hr.placed j p hj
  rw [hk1] at hk3
  cases hk3
  rw [← hk2, ← hk4]

theorem Rep.mem_bucket {s : State} {c : Nat → List Ptr} (hr : Rep s c) {i : Nat} {p : Ptr}
    {key : Int} (hp : p ∈ c i) (hk : HasKey s.heap p key) : i = bucket s key := by
  obtain ⟨k, hk1, hk2⟩ := hr.placed i p hp
  unfold HasKey at hk
  rw [hk1] at hk
  cases hk
  rw [← hk2]
  rfl

theorem Rep.length_le {s : State} {c : Nat → List Ptr} (hr : Rep s c) (i : Nat) :
    (c i).length ≤ chain_total c s.ht.table.length := by
  by_cases hi : i < s.ht.table.length
  · exact length_le_sum_range c i _ hi
  · cases hc : c i with
    | nil => simp
    | cons x l =>
      exact absurd (hr.mem_lt (i := i) (p := x) (by rw [hc]; exact List.mem_cons_self _ _)) hi

theorem Rep.num_items_range {s : State} {c : Nat → List Ptr} (hr : Rep s c) :
    INT_MIN ≤ s.ht.num_items ∧ s.ht.num_items ≤ INT_MAX := by
  rw [hr.count]
  exact wrap_int_range _

theorem Rep.linked_iff {s : State} {c : Nat → List Ptr} (hr : Rep s c) (p : Ptr) :
    Linked s p ↔ ∃ i, p ∈ c i := by
  constructor
  · rintro ⟨i, head, hh, hc⟩
    exact ⟨i, onchain_Dll hc (hr.dll i head hh)⟩
  · rintro ⟨i, hp⟩
    obtain ⟨head, hh, hd⟩ := hr.head i (hr.mem_lt hp)
    exact ⟨i, head, hh, Dll_onchain hd p hp⟩

theorem key_of_congr {h h1 : Heap} {p : Ptr} (e : h1.nodes p = h.nodes p) :
    key_of h1 p = key_of h p := by
  unfold key_of
  rw [e]

/-- The invariant only depends on the table struct and on the key and links of the linked
nodes. -/
theorem Rep.frame {s : State} {c : Nat → List Ptr} (hr : Rep s c) (h1 : Heap)
    (hf : ∀ i, ∀ q ∈ c i, h1.nodes q = s.heap.nodes q) : Rep ⟨h1, s.ht⟩ c where
  nb_pos := hr.nb_pos
  len_table := hr.len_table
  dll := fun i head hh => Dll_frame (hf i) (hr.dll i head hh)
  nodup := hr.nodup
  placed := fun i p hp => by
    obtain ⟨k, hk1, hk2⟩ := hr.placed i p hp
    exact ⟨k, by rw [key_of_congr (hf i p hp)]; exact hk1, hk2⟩
  keys := fun i p q hp hq e => by
    rw [key_of_congr (hf i p hp), key_of_congr (hf i q hq)] at e
    exact hr.keys i p q hp hq e
  count := hr.count

/-- The function `ht_get_node` finds the node that carries the key. -/
theorem get_found {s : State} {c : Nat → List Ptr} (hr : Rep s c) {fuel : Nat}
    (hf : chain_total c s.ht.table.length ≤ fuel) {key : Int} {p : Ptr} {i : Nat} (hp : p ∈ c i)
    (hk : HasKey s.heap p key) :
    ht_get_node fuel s.heap (some s.ht) key = some (some p) := by
  have hi : i = bucket s key := hr.mem_bucket hp hk
  subst hi
  obtain ⟨head, hh, hd⟩ := hr.head _ (hr.bucket_lt key)
  have hnb : ¬ s.ht.num_buckets ≤ 0 := by have := hr.nb_pos; omega
  unfold bucket at hh
  simp only [ht_get_node, hnb, if_false, hh]
  refine get_loop_found hk hd hp (fun q hq hqk => ?_) (le_trans (hr.length_le _) hf)
  exact hr.keys _ q p hq hp (by unfold HasKey at hqk hk; rw [hqk, hk])

/-- The function `ht_get_node` reports not-found when no node of the bucket carries the key. -/
theorem get_absent {s : State} {c : Nat → List Ptr} (hr : Rep s c) {fuel : Nat}
    (hf : chain_total c s.ht.table.length ≤ fuel) {key : Int}
    (hk : ∀ q ∈ c (bucket s key), ¬ HasKey s.heap q key) :
    ht_get_node fuel s.heap (some s.ht) key = some none := by
  obtain ⟨head, hh, hd⟩ := hr.head _ (hr.bucket_lt key)
  have hnb : ¬ s.ht.num_buckets ≤ 0 := by have := hr.nb_pos; omega
  unfold bucket at hh
  simp only [ht_get_node, hnb, if_false, hh]
  exact get_loop_absent hd hk (le_trans (hr.length_le _) hf)

theorem contains_eq {fuel : Nat} {h : Heap} {t : hash_table} {key : Int} {r : Option Ptr}
    (hnb : 0 < t.num_buckets) (e : ht_get_node fuel h (some t) key = some r) :
    ht_contains fuel h (some t) key = some r.isSome := by
  simp [ht_contains, hnb, e]

/-- Either some node of the bucket carries the key or none does. -/
theorem Rep.key_cases {s : State} {c : Nat → List Ptr} (_hr : Rep s c) (key : Int) :
    (∃ p, p ∈ c (bucket s key) ∧ HasKey s.heap p key) ∨
      (∀ q ∈ c (bucket s key), ¬ HasKey s.heap q key) := by
  by_cases h : ∃ p, p ∈ c (bucket s key) ∧ HasKey s.heap p key
  · exact Or.inl h
  · exact Or.inr fun q hq hk => h ⟨q, hq, hk⟩

/-! ## `ht_remove` -/

theorem remove_absent {s : State} {c : Nat → List Ptr} (hr : Rep s c) {fuel : Nat}
    (hf : chain_total c s.ht.table.length ≤ fuel) {key : Int}
    (hk : ∀ q ∈ c (bucket s key), ¬ HasKey s.heap q key) :
    ht_remove fuel s.heap (some s.ht) key = some (false, s.heap, some s.ht) := by
  obtain ⟨head, hh, hd⟩ := hr.head _ (hr.bucket_lt key)
  have hnb : ¬ s.ht.num_buckets ≤ 0 := by have := hr.nb_pos; omega
  unfold bucket at hh
  simp only [ht_remove, hnb, if_false, hh, ht_remove_loop_eq,
    get_loop_absent hd hk (le_trans (hr.length_le _) hf)]

/-- What the unlink block does to the heap and the table. -/
theorem unlink_exec (h : Heap) (t : hash_table) (idx p : Nat) (n : hash_node)
    (hn : h.nodes p = some n)
    (hq : ∀ q, n.prev = some q → q ≠ p ∧ ∃ nq, h.nodes q = some nq)
    (hr : ∀ r, n.next = some r → r ≠ p ∧ some r ≠ n.prev ∧ ∃ nr, h.nodes r = some nr) :
    ∃ h1, ht_remove_unlink h t idx p =
        some (true, h1, some { t with
          table := if n.prev = none then t.table.set idx n.next else t.table,
          num_items := wrap_int (t.num_items - 1) }) ∧
      h1.text = h.text ∧ h1.nodes p = none ∧
      (∀ x, x ≠ p → some x ≠ n.prev → some x ≠ n.next → h1.nodes x = h.nodes x) ∧
      (∀ q, n.prev = some q →
        ∃ nq, h.nodes q = some nq ∧ h1.nodes q = some { nq with next := n.next }) ∧
      (∀ r, n.next = some r →
        ∃ nr, h.nodes r = some nr ∧ h1.nodes r = some { nr with prev := n.prev }) := by
  cases hpv : n.prev with
  | none =>
    cases hnx : n.next with
    | none =>
      refine ⟨{ h with nodes := fun x => if x = p then none else h.nodes x }, ?_, rfl, ?_, ?_, ?_, ?_⟩
      · simp [ht_remove_unlink, hn, hpv, hnx, Heap.free_node]
      · simp
      · intro x hx _ _; simp [hx]
      · intro q hq; cases hq
      · intro r hr; cases hr
    | some r =>
      obtain ⟨hrp, _, nr, hnr⟩ := hr r hnx
      refine ⟨{ h with nodes := fun x => if x = p then none else
          if x = r then some { nr with prev := none } else h.nodes x }, ?_, rfl, ?_, ?_, ?_, ?_⟩
      · have hpr : p ≠ r := fun e => hrp e.symm
        simp [ht_remove_unlink, hn, hpv, hnx, Heap.free_node, Heap.write, hnr, hpr]
      · simp
      · intro x hx _ hx2
        have : x ≠ r := fun e => hx2 (by rw [e])
        simp [hx, this]
      · intro q hq; cases hq
      · intro r1 hr1
        cases hr1
        exact ⟨nr, hnr, by simp [hrp]⟩
  | some q =>
    obtain ⟨hqp, nq, hnq⟩ := hq q hpv
    have hpq : p ≠ q := fun e => hqp e.symm
    cases hnx : n.next with
    | none =>
      refine ⟨{ h with nodes := fun x => if x = p then none else
          if x = q then some { nq with next := none } else h.nodes x }, ?_, rfl, ?_, ?_, ?_, ?_⟩
      · simp [ht_remove_unlink, hn, hpv, hnx, Heap.free_node, Heap.write, hnq, hpq]
      · simp
      · intro x hx hx1 _
        have : x ≠ q := fun e => hx1 (by rw [e])
        simp [hx, this]
      · intro q1 hq1
        cases hq1
        exact ⟨nq, hnq, by simp [hqp]⟩
      · intro r hr; cases hr
    | some r =>
      obtain ⟨hrp, hrq, nr, hnr⟩ := hr r hnx
      have hpr : p ≠ r := fun e => hrp e.symm
      have hrq1 : r ≠ q := fun e => hrq (by rw [e, hpv])
      refine ⟨{ h with nodes := fun x => if x = p then none else
          if x = r then some { nr with prev := some q } else
          if x = q then some { nq with next := some r } else h.nodes x }, ?_, rfl, ?_, ?_, ?_, ?_⟩
      · simp [ht_remove_unlink, hn, hpv, hnx, Heap.free_node, Heap.write, hnq, hpq, hnr, hpr,
          hrq1]
      · simp
      · intro x hx hx1 hx2
        have h1 : x ≠ q := fun e => hx1 (by rw [e])
        have h2 : x ≠ r := fun e => hx2 (by rw [e])
        simp [hx, h1, h2]
      · intro q1 hq1
        cases hq1
        have : q ≠ r := fun e => hrq1 e.symm
        exact ⟨nq, hnq, by simp [hqp, this]⟩
      · intro r1 hr1
        cases hr1
        exact ⟨nr, hnr, by simp [hrp]⟩

theorem key_of_write_links {h h1 : Heap} {q : Ptr} {nq nq1 : hash_node}
    (e : h.nodes q = some nq) (e1 : h1.nodes q = some nq1) (hk : nq1.key = nq.key) :
    key_of h1 q = key_of h q := by
  simp [key_of, e, e1, hk]

/-- The call `ht_remove` of a key that is present: the node that carries it leaves its chain and is
freed; everything else keeps its place. -/
theorem remove_present {s : State} {c : Nat → List Ptr} (hr : Rep s c) {fuel : Nat}
    (hf : chain_total c s.ht.table.length ≤ fuel) {key : Int} {p : Ptr}
    (hp : p ∈ c (bucket s key)) (hk : HasKey s.heap p key) :
    ∃ h1 t1, ht_remove fuel s.heap (some s.ht) key = some (true, h1, some t1) ∧
      Rep ⟨h1, t1⟩ (Function.update c (bucket s key) ((c (bucket s key)).erase p)) ∧
      t1.num_buckets = s.ht.num_buckets ∧ t1.num_items = wrap_int (s.ht.num_items - 1) ∧
      h1.text = s.heap.text ∧ h1.nodes p = none ∧
      (∀ q, q ≠ p → key_of h1 q = key_of s.heap q) ∧
      (∀ q, q ∉ c (bucket s key) → h1.nodes q = s.heap.nodes q) := by
  obtain ⟨head, hh, hd⟩ := hr.head _ (hr.bucket_lt key)
  have hlt := hr.bucket_lt key
  have hnb : ¬ s.ht.num_buckets ≤ 0 := by have := hr.nb_pos; omega
  have hfound : ht_remove_loop s.heap key fuel head = some (some p) := by
    rw [ht_remove_loop_eq]
    refine get_loop_found hk hd hp (fun q hq hqk => ?_) (le_trans (hr.length_le _) hf)
    exact hr.keys _ q p hq hp (by unfold HasKey at hqk hk; rw [hqk, hk])
  obtain ⟨n, hn, hnk⟩ := HasKey_iff.1 hk
  obtain ⟨l1, l2, hl⟩ := List.append_of_mem hp
  have hnd : (l1 ++ p :: l2).Nodup := hl ▸ hr.nodup (bucket s key)
  have hd1 : Dll s.heap.nodes none head (l1 ++ p :: l2) := hl ▸ hd
  obtain ⟨m1, m2, m3, _⟩ := Dll_mid l1 hd1 hn
  have hnd1 := List.nodup_append.1 hnd
  have hp1 : p ∉ l1 := fun e => hnd1.2.2 e (List.mem_cons_self _ _)
  have hp2 : p ∉ l2 := (List.nodup_cons.1 hnd1.2.1).1
  have hprevmem : ∀ q, n.prev = some q → q ∈ l1 := by
    intro q hq
    have hne : l1 ≠ [] := by
      intro e
      rw [m1 e] at hq
      cases hq
    obtain ⟨y, hy, hy2⟩ := m2 hne
    rw [hq] at hy2
    cases hy2
    exact hy
  have hq : ∀ q, n.prev = some q → q ≠ p ∧ ∃ nq, s.heap.nodes q = some nq := by
    intro q hq
    have hql := hprevmem q hq
    refine ⟨fun e => hp1 (e ▸ hql), Dll_live hd1 q (List.mem_append_left _ hql)⟩
  have hrr : ∀ r, n.next = some r →
      r ≠ p ∧ some r ≠ n.prev ∧ ∃ nr, s.heap.nodes r = some nr := by
    intro r hr1
    have hrl := m3 r hr1
    refine ⟨fun e => hp2 (e ▸ hrl), fun e => ?_,
      Dll_live hd1 r (List.mem_append_right _ (List.mem_cons_of_mem _ hrl))⟩
    exact hnd1.2.2 (hprevmem r e.symm) (List.mem_cons_of_mem _ hrl)
  obtain ⟨h1, e, htext, hfree, hoth, hprev, hnext⟩ :=
    unlink_exec s.heap s.ht (bucket s key) p n hn hq hrr
  have hD := Dll_unlink hn hoth hprev hnext l1 hd1 hnd (by intro x hx; cases hx)
  have herase : (c (bucket s key)).erase p = l1 ++ l2 := by
    rw [hl, List.erase_append_right _ hp1, List.erase_cons_head]
  have hframe : ∀ q, q ∉ c (bucket s key) → h1.nodes q = s.heap.nodes q := by
    intro q hqc
    rw [hl] at hqc
    apply hoth
    · rintro rfl; exact hqc (by simp)
    · intro e
      exact hqc (List.mem_append_left _ (hprevmem q e.symm))
    · intro e
      exact hqc (List.mem_append_right _ (List.mem_cons_of_mem _ (m3 q e.symm)))
  have hkeys : ∀ q, q ≠ p → key_of h1 q = key_of s.heap q := by
    intro q hqp
    by_cases h1q : some q = n.prev
    · obtain ⟨nq, a, b⟩ := hprev q h1q.symm
      exact key_of_write_links a b rfl
    · by_cases h2q : some q = n.next
      · obtain ⟨nr, a, b⟩ := hnext q h2q.symm
        exact key_of_write_links a b rfl
      · exact key_of_congr (hoth q hqp h1q h2q)
  have hmem : ∀ i x, x ∈ Function.update c (bucket s key) ((c (bucket s key)).erase p) i →
      x ∈ c i ∧ x ≠ p := by
    intro i x hx
    by_cases hi : i = bucket s key
    · subst hi
      rw [Function.update_same] at hx
      have := (List.Nodup.mem_erase_iff (hr.nodup _)).1 hx
      exact ⟨this.2, this.1⟩
    · rw [Function.update_noteq hi] at hx
      refine ⟨hx, ?_⟩
      rintro rfl
      exact hi (hr.disjoint hx hp)
  refine ⟨h1, { s.ht with
      table := if n.prev = none then s.ht.table.set (bucket s key) n.next else s.ht.table,
      num_items := wrap_int (s.ht.num_items - 1) }, ?_, ?_, rfl, rfl, htext, hfree, hkeys,
      hframe⟩
  · have hh1 := hh
    unfold bucket at hh1
    simp only [ht_remove, hnb, if_false, hh1, hfound]
    exact e
  · constructor
    · exact hr.nb_pos
    · show (if n.prev = none then s.ht.table.set (bucket s key) n.next
          else s.ht.table).length = _
      split
      · rw [List.length_set]; exact hr.len_table
      · exact hr.len_table
    · intro i head1 hh1
      by_cases hi : i = bucket s key
      · subst hi
        rw [Function.update_same, herase]
        by_cases hpv : n.prev = none
        · have hl1 : l1 = [] := by
            by_contra hne
            obtain ⟨y, _, hy2⟩ := m2 hne
            rw [hpv] at hy2
            cases hy2
          have : (if n.prev = none then s.ht.table.set (bucket s key) n.next
              else s.ht.table)[bucket s key]? = some n.next := by
            rw [if_pos hpv, List.getElem?_set_self hlt]
          rw [show (State.mk h1 _).ht.table = _ from rfl, this] at hh1
          cases hh1
          simpa [hl1] using hD
        · have hl1 : l1 ≠ [] := fun e => hpv (m1 e)
          have : (if n.prev = none then s.ht.table.set (bucket s key) n.next
              else s.ht.table)[bucket s key]? = some head := by
            rw [if_neg hpv, hh]
          rw [show (State.mk h1 _).ht.table = _ from rfl, this] at hh1
          cases hh1
          simpa [hl1] using hD
      · rw [Function.update_noteq hi]
        have : (if n.prev = none then s.ht.table.set (bucket s key) n.next
            else s.ht.table)[i]? = s.ht.table[i]? := by
          split
          · rw [List.getElem?_set_ne (Ne.symm hi)]
          · rfl
        rw [show (State.mk h1 _).ht.table = _ from rfl, this] at hh1
        refine Dll_frame (fun x hx => hframe x fun hxc => hi (hr.disjoint hx hxc)) (hr.dll i _ hh1)
    · intro i
      by_cases hi : i = bucket s key
      · subst hi
        rw [Function.update_same]
        exact (hr.nodup _).erase p
      · rw [Function.update_noteq hi]
        exact hr.nodup i
    · intro i x hx
      obtain ⟨hx1, hx2⟩ := hmem i x hx
      obtain ⟨k, hk1, hk2⟩ := hr.placed i x hx1
      exact ⟨k, by rw [show (State.mk h1 _).heap = h1 from rfl, hkeys x hx2]; exact hk1, hk2⟩
    · intro i x y hx hy e
      obtain ⟨hx1, hx2⟩ := hmem i x hx
      obtain ⟨hy1, hy2⟩ := hmem i y hy
      rw [show (State.mk h1 _).heap = h1 from rfl, hkeys x hx2, hkeys y hy2] at e
      exact hr.keys i x y hx1 hy1 e
    · have hlen : (if n.prev = none then s.ht.table.set (bucket s key) n.next
          else s.ht.table).length = s.ht.table.length := by
        split
        · rw [List.length_set]
        · rfl
      show wrap_int (s.ht.num_items - 1) = _
      rw [show (State.mk h1 _).ht.table = _ from rfl, hlen, hr.count, wrap_int_sub]
      have h1 := chain_total_update c ((c (bucket s key)).erase p) hlt
      have h2 := List.length_erase_of_mem hp
      have h3 : 0 < (c (bucket s key)).length := List.length_pos_of_mem hp
      congr 1
      omega

/-! ## `ht_add` -/

theorem insert_after_exec (h : Heap) (t p : Ptr) (nt np : hash_node) (htp : t ≠ p)
    (ht : h.nodes t = some nt) (hp : h.nodes p = some np) (hnt : nt.next = none) :
    ∃ h1, hn_insert_after h (some t) (some p) = some h1 ∧ h1.text = h.text ∧
      h1.nodes t = some { nt with next := some p } ∧
      h1.nodes p = some { np with next := none, prev := some t } ∧
      (∀ x, x ≠ t → x ≠ p → h1.nodes x = h.nodes x) := by
  refine ⟨{ h with nodes := fun x => if x = t then some { nt with next := some p } else
      if x = p then some { np with next := none, prev := some t } else h.nodes x },
    ?_, rfl, ?_, ?_, ?_⟩
  · simp only [hn_insert_after, ht, hp, Heap.write, Option.bind_eq_bind, Option.some_bind, htp,
      if_false, hnt, Option.pure_def, if_true, Option.some.injEq]
  · simp
  · simp [htp.symm]
  · intro x h1 h2
    simp [h1, h2]

/-- The invariant after a node has been appended to the chain of its bucket. -/
theorem Rep.append {s : State} {c : Nat → List Ptr} (hr : Rep s c) {key : Int} {p : Ptr}
    {h1 : Heap} {t1 : hash_table}
    (hnb : t1.num_buckets = s.ht.num_buckets)
    (hlen : t1.table.length = s.ht.table.length)
    (htab : ∀ i, i ≠ bucket s key → t1.table[i]? = s.ht.table[i]?)
    (hdll : ∀ head, t1.table[bucket s key]? = some head →
      Dll h1.nodes none head (c (bucket s key) ++ [p]))
    (hframe : ∀ q, q ∉ c (bucket s key) → q ≠ p → h1.nodes q = s.heap.nodes q)
    (hkeys : ∀ q, q ≠ p → key_of h1 q = key_of s.heap q)
    (hkp : key_of h1 p = some key)
    (hp : ∀ i, p ∉ c i)
    (habs : ∀ q ∈ c (bucket s key), ¬ HasKey s.heap q key)
    (hcount : t1.num_items = wrap_int (s.ht.num_items + 1)) :
    Rep ⟨h1, t1⟩ (Function.update c (bucket s key) (c (bucket s key) ++ [p])) := by
  have hmem : ∀ i x, x ∈ Function.update c (bucket s key) (c (bucket s key) ++ [p]) i →
      (x = p ∧ i = bucket s key) ∨ (x ∈ c i ∧ x ≠ p) := by
    intro i x hx
    by_cases hi : i = bucket s key
    · subst hi
      rw [Function.update_same] at hx
      rcases List.mem_append.1 hx with hx | hx
      · exact Or.inr ⟨hx, fun e => hp _ (e ▸ hx)⟩
      · exact Or.inl ⟨by simpa using hx, rfl⟩
    · rw [Function.update_noteq hi] at hx
      exact Or.inr ⟨hx, fun e => hp _ (e ▸ hx)⟩
  constructor
  · show 0 < t1.num_buckets
    rw [hnb]; exact hr.nb_pos
  · show t1.table.length = t1.num_buckets.toNat
    rw [hlen, hnb]; exact hr.len_table
  · intro i head hh
    by_cases hi : i = bucket s key
    · subst hi
      rw [Function.update_same]
      exact hdll head hh
    · rw [Function.update_noteq hi]
      have hh1 : s.ht.table[i]? = some head := by rw [← htab i hi]; exact hh
      refine Dll_frame (fun x hx => ?_) (hr.dll i head hh1)
      exact hframe x (fun hxc => hi (hr.disjoint hx hxc)) (fun e => hp i (e ▸ hx))
  · intro i
    by_cases hi : i = bucket s key
    · subst hi
      rw [Function.update_same]
      refine List.nodup_append.2 ⟨hr.nodup _, List.nodup_singleton p, ?_⟩
      intro x hx hx2
      have : x = p := by simpa using hx2
      exact hp _ (this ▸ hx)
    · rw [Function.update_noteq hi]
      exact hr.nodup i
  · intro i x hx
    rcases hmem i x hx with ⟨rfl, rfl⟩ | ⟨hx1, hx2⟩
    · exact ⟨key, hkp, by rw [show (State.mk h1 t1).ht.num_buckets = _ from hnb]; rfl⟩
    · obtain ⟨k, hk1, hk2⟩ := hr.placed i x hx1
      exact ⟨k, by rw [show (State.mk h1 t1).heap = h1 from rfl, hkeys x hx2]; exact hk1,
        by rw [show (State.mk h1 t1).ht.num_buckets = _ from hnb]; exact hk2⟩
  · intro i x y hx hy e
    rw [show (State.mk h1 t1).heap = h1 from rfl] at e
    rcases hmem i x hx with ⟨rfl, rfl⟩ | ⟨hx1, hx2⟩
    · rcases hmem _ y hy with ⟨rfl, _⟩ | ⟨hy1, hy2⟩
      · rfl
      · rw [hkp, hkeys y hy2] at e
        exact absurd e.symm (habs y hy1)
    · rcases hmem i y hy with ⟨rfl, rfl⟩ | ⟨hy1, hy2⟩
      · rw [hkp, hkeys x hx2] at e
        exact absurd e (habs x hx1)
      · rw [hkeys x hx2, hkeys y hy2] at e
        exact hr.keys i x y hx1 hy1 e
  · show t1.num_items = _
    rw [show (State.mk h1 t1).ht.table.length = _ from hlen, hcount, hr.count, wrap_int_add]
    have h2 := chain_total_update c (c (bucket s key) ++ [p]) (hr.bucket_lt key)
    have h3 : (c (bucket s key) ++ [p]).length = (c (bucket s key)).length + 1 := by simp
    congr 1
    omega

/-- Linking a fresh node whose key is not in the table. -/
theorem add_link_spec {s : State} {c : Nat → List Ptr} (hr : Rep s c) {fuel : Nat}
    (hf : chain_total c s.ht.table.length ≤ fuel) {key : Int} {p : Ptr} {np : hash_node}
    (hnp : s.heap.nodes p = some np) (hk : np.key = key) (hpv : np.prev = none)
    (hnx : np.next = none) (hp : ∀ i, p ∉ c i)
    (habs : ∀ q ∈ c (bucket s key), ¬ HasKey s.heap q key) :
    ∃ h1 t1, ht_add_link fuel s.heap s.ht key p = some (true, h1, some t1) ∧
      Rep ⟨h1, t1⟩ (Function.update c (bucket s key) (c (bucket s key) ++ [p])) ∧
      t1.num_buckets = s.ht.num_buckets ∧ t1.num_items = wrap_int (s.ht.num_items + 1) ∧
      h1.text = s.heap.text ∧
      (∀ q, key_of h1 q = key_of s.heap q) ∧
      (∀ q, q ∉ c (bucket s key) → q ≠ p → h1.nodes q = s.heap.nodes q) := by
  obtain ⟨head, hh, hd⟩ := hr.head _ (hr.bucket_lt key)
  have hlt := hr.bucket_lt key
  have hh0 := hh
  unfold bucket at hh0
  have hkp : key_of s.heap p = some key := by simp [key_of, hnp, hk]
  cases head with
  | none =>
    have hnil : c (bucket s key) = [] := Dll_head_none hd
    refine ⟨s.heap,
      { s.ht with
        table := s.ht.table.set (bucket s key) (some p),
        num_items := wrap_int (s.ht.num_items + 1) },
      ?_, ?_, rfl, rfl, rfl, fun _ => rfl, fun _ _ _ => rfl⟩
    · simp only [ht_add_link, hh0]
      rfl
    · refine hr.append rfl (List.length_set _ _ _) (fun i hi => ?_) (fun head hh1 => ?_)
        (fun _ _ _ => rfl) (fun _ _ => rfl) hkp hp habs rfl
      · exact List.getElem?_set_ne (Ne.symm hi)
      · rw [show (hash_table.mk _ _ _).table = _ from rfl, List.getElem?_set_self hlt] at hh1
        cases hh1
        rw [hnil]
        exact Dll_cons.2 ⟨rfl, np, hnp, hpv, by rw [hnx]; exact Dll_nil.2 rfl⟩
  | some hd0 =>
    have hne : c (bucket s key) ≠ [] := Dll_head_some hd
    obtain ⟨l0, t, hl⟩ : ∃ l0 t, c (bucket s key) = l0 ++ [t] := by
      rcases List.eq_nil_or_concat (c (bucket s key)) with e | ⟨l0, t, e⟩
      · exact absurd e hne
      · exact ⟨l0, t, by rw [e, List.concat_eq_append]⟩
    have hd1 : Dll s.heap.nodes none (some hd0) (l0 ++ [t]) := hl ▸ hd
    have htail : ht_add_find_tail s.heap fuel hd0 = some t := by
      refine find_tail_last l0 hd1 ?_
      rw [← hl]
      exact le_trans (hr.length_le _) hf
    have htmem : t ∈ c (bucket s key) := by rw [hl]; simp
    obtain ⟨nt, hnt⟩ := Dll_live hd1 t (by simp)
    obtain ⟨_, _, _, m4⟩ := Dll_mid l0 hd1 hnt
    have htp : t ≠ p := fun e => hp _ (e ▸ htmem)
    have hnd : (l0 ++ [t]).Nodup := hl ▸ hr.nodup _
    have ht0 : t ∉ l0 := fun e => (List.nodup_append.1 hnd).2.2 e (by simp)
    obtain ⟨h1, hins, htx, h1t, h1p, h1o⟩ :=
      insert_after_exec s.heap t p nt np htp hnt hnp (m4 rfl)
    have hkall : ∀ q, key_of h1 q = key_of s.heap q := by
      intro q
      by_cases e1 : q = t
      · subst e1
        simp [key_of, hnt, h1t]
      · by_cases e2 : q = p
        · subst e2
          simp [key_of, h1p, hnp]
        · exact key_of_congr (h1o q e1 e2)
    have hfr : ∀ q, q ∉ c (bucket s key) → q ≠ p → h1.nodes q = s.heap.nodes q :=
      fun q hq hqp => h1o q (fun e => hq (e ▸ htmem)) hqp
    refine ⟨h1, { s.ht with num_items := wrap_int (s.ht.num_items + 1) }, ?_, ?_, rfl, rfl, htx,
      hkall, hfr⟩
    · simp only [ht_add_link, hh0, htail, hins]
    · refine hr.append rfl rfl (fun i _ => rfl) (fun head hh1 => ?_) hfr
        (fun q _ => hkall q) (by rw [hkall]; exact hkp) hp habs rfl
      rw [show (hash_table.mk _ _ _).table = s.ht.table from rfl, hh] at hh1
      cases hh1
      rw [hl, List.append_assoc]
      refine Dll_snoc hnt h1t h1p rfl rfl l0 hd1 (fun q hq => ?_)
      exact h1o q (fun e => ht0 (e ▸ hq))
        (fun e => hp _ (e ▸ (hl ▸ List.mem_append_left _ hq)))

theorem filter_key_absent {s : State} {c : Nat → List Ptr} {key : Int}
    (habs : ∀ q ∈ c (bucket s key), ¬ HasKey s.heap q key) :
    (c (bucket s key)).filter (fun q => key_of s.heap q != some key) = c (bucket s key) := by
  rw [List.filter_eq_self]
  intro q hq
  have := habs q hq
  unfold HasKey at this
  simpa using this

theorem filter_key_present {s : State} {c : Nat → List Ptr} (hr : Rep s c) {key : Int}
    {old : Ptr} (hold : old ∈ c (bucket s key)) (hk : HasKey s.heap old key) :
    (c (bucket s key)).filter (fun q => key_of s.heap q != some key) =
      (c (bucket s key)).erase old := by
  rw [List.Nodup.erase_eq_filter (hr.nodup _)]
  apply List.filter_congr
  intro q hq
  unfold HasKey at hk
  by_cases e : q = old
  · subst e
    rw [hk, bne_self_eq_false, bne_self_eq_false]
  · have : key_of s.heap q ≠ some key := by
      intro e1
      exact e (hr.keys _ q old hq hold (by rw [e1, hk]))
    rw [bne_iff_ne.2 this, bne_iff_ne.2 e]

/-- The call `ht_remove` in terms of the chains. -/
theorem remove_spec {s : State} {c : Nat → List Ptr} (hr : Rep s c) {fuel : Nat}
    (hf : chain_total c s.ht.table.length ≤ fuel) (key : Int) :
    ∃ r h1 t1, ht_remove fuel s.heap (some s.ht) key = some (r, h1, some t1) ∧
      Rep ⟨h1, t1⟩ (chains_after_remove s c key) ∧
      t1.num_buckets = s.ht.num_buckets ∧ h1.text = s.heap.text ∧
      (∀ q, ¬ HasKey s.heap q key → key_of h1 q = key_of s.heap q) ∧
      (∀ q, (∀ i, q ∉ c i) → h1.nodes q = s.heap.nodes q) ∧
      ((∀ q ∈ c (bucket s key), ¬ HasKey s.heap q key) →
        r = false ∧ h1 = s.heap ∧ t1 = s.ht) ∧
      (∀ old ∈ c (bucket s key), HasKey s.heap old key →
        r = true ∧ t1.num_items = wrap_int (s.ht.num_items - 1) ∧ h1.nodes old = none) := by
  rcases hr.key_cases key with ⟨old, hold, hkold⟩ | habs
  · obtain ⟨h1, t1, e, hr1, a1, a2, a3, a4, a5, a6⟩ := remove_present hr hf hold hkold
    refine ⟨true, h1, t1, e, ?_, a1, a3, ?_, fun q hq => a6 q (hq _), ?_, ?_⟩
    · unfold chains_after_remove
      rw [filter_key_present hr hold hkold]
      exact hr1
    · intro q hq
      exact a5 q (fun e => hq (e ▸ hkold))
    · intro habs
      exact absurd hkold (habs old hold)
    · intro old1 hold1 hk1
      have : old1 = old := hr.keys _ old1 old hold1 hold (by
        unfold HasKey at hk1 hkold; rw [hk1, hkold])
      subst this
      exact ⟨rfl, a2, a4⟩
  · refine ⟨false, s.heap, s.ht, remove_absent hr hf habs, ?_, rfl, rfl, fun _ _ => rfl,
      fun _ _ => rfl, fun _ => ⟨rfl, rfl, rfl⟩, fun old hold hk => absurd hk (habs old hold)⟩
    unfold chains_after_remove
    rw [filter_key_absent habs, Function.update_eq_self]
    exact hr

/-- The call `ht_add` of a fresh node in terms of the chains. -/
theorem add_spec {s : State} {c : Nat → List Ptr} (hr : Rep s c) {fuel : Nat}
    (hf : chain_total c s.ht.table.length < fuel) (key : Int) {p : Ptr}
    (hlive : ∃ n, s.heap.nodes p = some n) (hp : ∀ i, p ∉ c i) :
    ∃ h1 t1, ht_add fuel s.heap (some s.ht) key (some p) = some (true, h1, some t1) ∧
      Rep ⟨h1, t1⟩ (chains_after_add s c key p) ∧
      t1.num_buckets = s.ht.num_buckets ∧ h1.text = s.heap.text ∧
      key_of h1 p = some key ∧
      (∀ q, q ≠ p → ¬ HasKey s.heap q key → key_of h1 q = key_of s.heap q) ∧
      (∀ q, q ≠ p → (∀ i, q ∉ c i) → h1.nodes q = s.heap.nodes q) ∧
      ((∀ q ∈ c (bucket s key), ¬ HasKey s.heap q key) →
        t1.num_items = wrap_int (s.ht.num_items + 1)) ∧
      (∀ old ∈ c (bucket s key), HasKey s.heap old key →
        t1.num_items = s.ht.num_items ∧ h1.nodes old = none) := by
  obtain ⟨n, hn⟩ := hlive
  have hnb : ¬ s.ht.num_buckets ≤ 0 := by have := hr.nb_pos; omega
  obtain ⟨h0, e0⟩ : ∃ h0 : Heap,
      h0 = s.heap.write p { n with key := key, next := none, prev := none } := ⟨_, rfl⟩
  have h0p : h0.nodes p = some { n with key := key, next := none, prev := none } := by
    simp [e0, Heap.write]
  have h0o : ∀ q, q ≠ p → h0.nodes q = s.heap.nodes q := by
    intro q hq
    simp [e0, Heap.write, hq]
  have h0t : h0.text = s.heap.text := by rw [e0]; rfl
  have hr0 : Rep ⟨h0, s.ht⟩ c := hr.frame h0 fun i q hq => h0o q fun e => hp i (e ▸ hq)
  have hk0 : ∀ q, q ≠ p → key_of h0 q = key_of s.heap q := fun q hq => key_of_congr (h0o q hq)
  rcases hr.key_cases key with ⟨old, hold, hkold⟩ | habs
  · have hop : old ≠ p := fun e => hp _ (e ▸ hold)
    have hkold0 : HasKey h0 old key := by
      unfold HasKey at hkold ⊢
      rw [hk0 old hop]; exact hkold
    have hget := get_found hr0 (le_of_lt hf) hold hkold0
    have hcont := contains_eq hr.nb_pos hget
    obtain ⟨h2, t2, e2, hr2, a1, a2, a3, a4, a5, a6⟩ :=
      remove_present hr0 (le_of_lt hf) (s := ⟨h0, s.ht⟩) hold hkold0
    have hb : bucket ⟨h2, t2⟩ key = bucket s key := by
      unfold bucket
      rw [show (State.mk h2 t2).ht.num_buckets = s.ht.num_buckets from a1]
    have hb0 : bucket ⟨h0, s.ht⟩ key = bucket s key := rfl
    rw [hb0] at hr2 a6
    have hpc : p ∉ c (bucket s key) := hp _
    have h2p : h2.nodes p = some { n with key := key, next := none, prev := none } := by
      rw [a6 p hpc]; exact h0p
    have hmem2 : ∀ i x, x ∈ Function.update c (bucket s key) ((c (bucket s key)).erase old) i →
        x ∈ c i ∧ x ≠ old := by
      intro i x hx
      by_cases hi : i = bucket s key
      · subst hi
        rw [Function.update_same] at hx
        have := (List.Nodup.mem_erase_iff (hr.nodup _)).1 hx
        exact ⟨this.2, this.1⟩
      · rw [Function.update_noteq hi] at hx
        refine ⟨hx, ?_⟩
        rintro rfl
        exact hi (hr.disjoint hx hold)
    have hlen2 : (State.mk h2 t2).ht.table.length = s.ht.table.length := by
      rw [hr2.len_table, show (State.mk h2 t2).ht.num_buckets = s.ht.num_buckets from a1,
        hr.len_table]
    obtain ⟨h3, t3, e3, hr3, b1, b2, b3, b4, b5⟩ :=
      @add_link_spec _ _ hr2 fuel
        (by rw [hlen2]
            have h1 := chain_total_update c ((c (bucket s key)).erase old) (hr.bucket_lt key)
            have h2 := List.length_erase_of_mem hold
            omega)
        key p _ h2p rfl rfl rfl (fun i hx => hp i (hmem2 i p hx).1)
        (by
          intro q hq hkq
          rw [hb] at hq
          obtain ⟨hq1, hq2⟩ := hmem2 _ q hq
          have hqp : q ≠ p := fun e => hp _ (e ▸ hq1)
          apply hq2
          refine hr.keys _ q old hq1 hold ?_
          unfold HasKey at hkq hkold
          rw [← hk0 q hqp, ← a5 q hq2]
          rw [hkold]
          exact hkq)
    rw [hb] at hr3 b5
    simp only [Function.update_same, Function.update_idem] at hr3 b5
    refine ⟨h3, t3, ?_, ?_, by rw [b1]; exact a1, by rw [b3, a3, h0t], ?_, ?_, ?_, ?_, ?_⟩
    · simp only [ht_add, hnb, if_false, hn, ← e0, hcont, Option.isSome_some, e2]
      exact e3
    · unfold chains_after_add
      rw [filter_key_present hr hold hkold]
      exact hr3
    · rw [b4]
      simp [key_of, h2p]
    · intro q hqp hqk
      have hqo : q ≠ old := fun e => hqk (e ▸ hkold)
      rw [b4, a5 q hqo]
      exact hk0 q hqp
    · intro q hqp hq
      rw [b5 q (by
        intro hx
        exact hq _ (List.mem_of_mem_erase hx)) hqp, a6 q (hq _)]
      exact h0o q hqp
    · intro habs
      exact absurd hkold (habs old hold)
    · intro old1 hold1 hk1
      have : old1 = old := hr.keys _ old1 old hold1 hold (by
        unfold HasKey at hk1 hkold; rw [hk1, hkold])
      subst this
      refine ⟨?_, ?_⟩
      · rw [b2]
        show wrap_int (t2.num_items + 1) = s.ht.num_items
        rw [a2]
        show wrap_int (wrap_int (s.ht.num_items - 1) + 1) = s.ht.num_items
        rw [wrap_int_add, show s.ht.num_items - 1 + 1 = s.ht.num_items by omega]
        exact wrap_int_of_range hr.num_items_range.1 hr.num_items_range.2
      · rw [b5 old1 (List.Nodup.not_mem_erase (hr.nodup _)) hop]
        exact a4
  · have habs0 : ∀ q ∈ c (bucket s key), ¬ HasKey h0 q key := by
      intro q hq hkq
      have hqp : q ≠ p := fun e => hp _ (e ▸ hq)
      apply habs q hq
      unfold HasKey at hkq ⊢
      rw [← hk0 q hqp]; exact hkq
    have hget := get_absent hr0 (le_of_lt hf) (s := ⟨h0, s.ht⟩) habs0
    have hcont := contains_eq hr.nb_pos hget
    obtain ⟨h3, t3, e3, hr3, b1, b2, b3, b4, b5⟩ :=
      @add_link_spec _ _ hr0 fuel (le_of_lt hf) key p _ h0p rfl rfl rfl hp habs0
    have hb0 : bucket ⟨h0, s.ht⟩ key = bucket s key := rfl
    rw [hb0] at hr3 b5
    refine ⟨h3, t3, ?_, ?_, b1, by rw [b3, h0t], ?_, ?_, ?_, ?_, ?_⟩
    · simp only [ht_add, hnb, if_false, hn, ← e0, hcont, Option.isSome_none]
      exact e3
    · unfold chains_after_add
      rw [filter_key_absent habs]
      exact hr3
    · rw [b4]
      simp [key_of, h0p]
    · intro q hqp _
      rw [b4]
      exact hk0 q hqp
    · intro q hqp hq
      rw [b5 q (hq _) hqp]
      exact h0o q hqp
    · intro _
      exact b2
    · intro old hold hk
      exact absurd hk (habs old hold)

/-! ## `ht_clear` -/

theorem clear_loop_spec (c : Nat → List Ptr) (fuel : Nat)
    (hnd : ∀ j, (c j).Nodup) (hdis : ∀ j k x, x ∈ c j → x ∈ c k → j = k)
    (hlen : ∀ j, (c j).length ≤ fuel) :
    ∀ (todo i : Nat) (h : Heap) (table : List (Option Ptr)), i + todo = table.length →
      (∀ j head, i ≤ j → table[j]? = some head → Dll h.nodes none head (c j)) →
      ∃ h1 table1, ht_clear_loop fuel todo i h table = some (h1, table1) ∧
        h1.text = h.text ∧ table1.length = table.length ∧
        (∀ j, j < i → table1[j]? = table[j]?) ∧
        (∀ j, i ≤ j → j < table.length → table1[j]? = some none) ∧
        (∀ q, (∀ j, i ≤ j → j < table.length → q ∉ c j) → h1.nodes q = h.nodes q) ∧
        (∀ j, i ≤ j → j < table.length → ∀ q ∈ c j, h1.nodes q = none) := by
  intro todo
  induction todo with
  | zero =>
    intro i h table hi _
    refine ⟨h, table, rfl, rfl, rfl, fun _ _ => rfl, ?_, fun _ _ => rfl, ?_⟩
    · intro j h1 h2; omega
    · intro j h1 h2; omega
  | succ todo ih =>
    intro i h table hi hd
    have hlt : i < table.length := by omega
    have hget : table[i]? = some table[i] := List.getElem?_eq_getElem hlt
    obtain ⟨h0, e0, t0, f0, g0⟩ :=
      clear_chain_spec (hd i _ (Nat.le_refl i) hget) (hnd i) (hlen i)
    obtain ⟨h1, table1, e1, t1, l1, a1, b1, f1, g1⟩ :=
      ih (i + 1) h0 (table.set i none) (by rw [List.length_set]; omega) (by
        intro j head hj hh
        have hne : i ≠ j := by omega
        rw [List.getElem?_set_ne hne] at hh
        refine Dll_frame (fun x hx => f0 x fun hxi => ?_) (hd j head (by omega) hh)
        exact hne (hdis i j x hxi hx))
    rw [List.length_set] at l1 b1 f1 g1
    refine ⟨h1, table1, ?_, by rw [t1, t0], l1, ?_, ?_, ?_, ?_⟩
    · simp only [ht_clear_loop, hget, e0]
      exact e1
    · intro j hj
      rw [a1 j (by omega), List.getElem?_set_ne (by omega)]
    · intro j h1j h2j
      by_cases hji : j = i
      · subst hji
        rw [a1 j (by omega), List.getElem?_set_self hlt]
      · exact b1 j (by omega) h2j
    · intro q hq
      rw [f1 q (fun j h1j h2j => hq j (by omega) h2j)]
      exact f0 q (hq i (Nat.le_refl i) hlt)
    · intro j h1j h2j q hqj
      by_cases hji : j = i
      · subst hji
        rw [f1 q (fun k h1k _ hqk => by have := hdis j k q hqj hqk; omega)]
        exact g0 q hqj
      · exact g1 j (by omega) h2j q hqj

theorem sum_range_nil (len : Nat) :
    ((List.range len).map fun _ => ([] : List Ptr).length).sum = 0 := by
  induction len with
  | zero => rfl
  | succ len ih =>
    simp only [List.range_succ, List.map_append, List.sum_append, List.map_cons, List.map_nil,
      List.sum_cons, List.sum_nil, List.length_nil]
    simp only [List.length_nil] at ih
    omega

/-- The invariant of a table whose bucket heads are all `NULL`. -/
theorem Rep.empty (h : Heap) (t : hash_table) (hnb : 0 < t.num_buckets)
    (hlen : t.table.length = t.num_buckets.toNat)
    (hnone : ∀ (i : Nat) (head : Option Ptr), t.table[i]? = some head → head = none)
    (hcount : t.num_items = 0) :
    Rep ⟨h, t⟩ (fun _ => []) where
  nb_pos := hnb
  len_table := hlen
  dll := fun i head hh => by rw [hnone i head hh]; exact Dll_nil.2 rfl
  nodup := fun _ => List.nodup_nil
  placed := fun i p hp => by cases hp
  keys := fun i p q hp => by cases hp
  count := by
    show t.num_items = wrap_int (chain_total (fun _ => []) t.table.length)
    rw [hcount, show chain_total (fun _ => ([] : List Ptr)) t.table.length = 0 from
      sum_range_nil _]
    rfl

/-- The call `ht_clear` frees every linked node and leaves every bucket empty. -/
theorem clear_spec {s : State} {c : Nat → List Ptr} (hr : Rep s c) {fuel : Nat}
    (hf : chain_total c s.ht.table.length ≤ fuel) :
    ∃ h1 t1, ht_clear fuel s.heap (some s.ht) = some (h1, some t1) ∧
      Rep ⟨h1, t1⟩ (fun _ => []) ∧
      t1.num_buckets = s.ht.num_buckets ∧ t1.num_items = 0 ∧ h1.text = s.heap.text ∧
      t1.table.length = s.ht.table.length ∧
      (∀ i, i < s.ht.table.length → t1.table[i]? = some none) ∧
      (∀ i, ∀ q ∈ c i, h1.nodes q = none) ∧
      (∀ q, (∀ i, q ∉ c i) → h1.nodes q = s.heap.nodes q) := by
  obtain ⟨h1, table1, e1, t1, l1, _, b1, f1, g1⟩ :=
    clear_loop_spec c fuel hr.nodup (fun j k x hj hk => hr.disjoint hj hk)
      (fun j => le_trans (hr.length_le j) hf) s.ht.num_buckets.toNat 0 s.heap s.ht.table
      (by rw [hr.len_table]; omega) (fun j head _ hh => hr.dll j head hh)
  refine ⟨h1, { s.ht with table := table1, num_items := 0 }, ?_, ?_, rfl, rfl, t1, l1,
    fun i hi => b1 i (Nat.zero_le i) hi, fun i q hq => g1 i (Nat.zero_le i) (hr.mem_lt hq) q hq,
    fun q hq => f1 q fun j _ _ => hq j⟩
  · simp only [ht_clear, e1]
  · refine Rep.empty h1 _ hr.nb_pos (by rw [← hr.len_table]; exact l1) (fun i head hh => ?_) rfl
    have hi : i < s.ht.table.length := by
      rw [← l1]
      exact (List.getElem?_eq_some.1 hh).1
    rw [show (hash_table.mk table1 _ _).table = table1 from rfl, b1 i (Nat.zero_le i) hi] at hh
    cases hh
    rfl

/-! ## More fuel does not change the result of an operation -/

theorem ht_get_node_mono {f g : Nat} {h : Heap} {ht : Option hash_table} {key : Int}
    {r : Option Ptr} (hfg : f ≤ g) (e : ht_get_node f h ht key = some r) :
    ht_get_node g h ht key = some r := by
  cases ht with
  | none => exact e
  | some t =>
    by_cases hnb : t.num_buckets ≤ 0
    · simp only [ht_get_node, hnb, if_true] at e ⊢
      exact e
    · simp only [ht_get_node, hnb, if_false] at e ⊢
      cases hh : t.table[(calc_hash_code key t.num_buckets).toNat]? with
      | none => simp only [hh] at e; cases e
      | some head =>
        simp only [hh] at e ⊢
        exact get_loop_mono h key f g head r hfg e

theorem ht_contains_mono {f g : Nat} {h : Heap} {ht : Option hash_table} {key : Int}
    {r : Bool} (hfg : f ≤ g) (e : ht_contains f h ht key = some r) :
    ht_contains g h ht key = some r := by
  cases ht with
  | none => exact e
  | some t =>
    by_cases hnb : 0 < t.num_buckets
    · simp only [ht_contains, hnb, if_true] at e ⊢
      cases hg : ht_get_node f h (some t) key with
      | none => rw [hg] at e; cases e
      | some x =>
        rw [hg] at e
        rw [ht_get_node_mono hfg hg]
        exact e
    · simp only [ht_contains, hnb, if_false] at e ⊢
      exact e

theorem ht_remove_mono {f g : Nat} {h : Heap} {ht : Option hash_table} {key : Int}
    {r : Bool × Heap × Option hash_table} (hfg : f ≤ g)
    (e : ht_remove f h ht key = some r) : ht_remove g h ht key = some r := by
  cases ht with
  | none => exact e
  | some t =>
    by_cases hnb : t.num_buckets ≤ 0
    · simp only [ht_remove, hnb, if_true] at e ⊢
      exact e
    · simp only [ht_remove, hnb, if_false] at e ⊢
      cases hh : t.table[(calc_hash_code key t.num_buckets).toNat]? with
      | none => simp only [hh] at e; cases e
      | some head =>
        simp only [hh] at e ⊢
        cases hl : ht_remove_loop h key f head with
        | none => simp only [hl] at e; cases e
        | some found =>
          have hl2 : ht_remove_loop h key g head = some found := by
            rw [ht_remove_loop_eq] at hl ⊢
            exact get_loop_mono h key f g head found hfg hl
          simp only [hl] at e
          simp only [hl2]
          exact e

theorem ht_add_link_mono {f g : Nat} {h : Heap} {t : hash_table} {key : Int} {p : Ptr}
    {r : Bool × Heap × Option hash_table} (hfg : f ≤ g)
    (e : ht_add_link f h t key p = some r) : ht_add_link g h t key p = some r := by
  simp only [ht_add_link] at e ⊢
  cases hh : t.table[(calc_hash_code key t.num_buckets).toNat]? with
  | none => simp only [hh] at e; cases e
  | some head =>
    cases head with
    | none =>
      simp only [hh] at e ⊢
      exact e
    | some hd =>
      simp only [hh] at e ⊢
      cases ht : ht_add_find_tail h f hd with
      | none => simp only [ht] at e; cases e
      | some tail =>
        simp only [ht] at e
        simp only [find_tail_mono h f g hd tail hfg ht]
        exact e

theorem ht_add_mono {f g : Nat} {h : Heap} {ht : Option hash_table} {key : Int}
    {node : Option Ptr} {r : Bool × Heap × Option hash_table} (hfg : f ≤ g)
    (e : ht_add f h ht key node = some r) : ht_add g h ht key node = some r := by
  cases ht with
  | none => exact e
  | some t =>
    cases node with
    | none => exact e
    | some p =>
      by_cases hnb : t.num_buckets ≤ 0
      · simp only [ht_add, hnb, if_true] at e ⊢
        exact e
      · simp only [ht_add, hnb, if_false] at e ⊢
        cases hn : h.nodes p with
        | none => simp only [hn] at e; cases e
        | some n =>
          simp only [hn] at e ⊢
          cases hc : ht_contains f
              (h.write p { n with key := key, next := none, prev := none }) (some t) key with
          | none => simp only [hc] at e; cases e
          | some b =>
            simp only [hc] at e
            simp only [ht_contains_mono hfg hc]
            cases b with
            | false => exact ht_add_link_mono hfg e
            | true =>
              simp only at e ⊢
              cases hrm : ht_remove f
                  (h.write p { n with key := key, next := none, prev := none }) (some t) key with
              | none => simp only [hrm] at e; cases e
              | some x =>
                obtain ⟨b1, h2, ht2⟩ := x
                simp only [hrm] at e
                simp only [ht_remove_mono hfg hrm]
                cases ht2 with
                | none => cases e
                | some t2 => exact ht_add_link_mono hfg e

theorem clear_loop_mono {f g : Nat} (hfg : f ≤ g) :
    ∀ (todo i : Nat) (h : Heap) (table : List (Option Ptr)) (r : Heap × List (Option Ptr)),
      ht_clear_loop f todo i h table = some r → ht_clear_loop g todo i h table = some r := by
  intro todo
  induction todo with
  | zero => intro i h table r e; exact e
  | succ todo ih =>
    intro i h table r e
    simp only [ht_clear_loop] at e ⊢
    cases hh : table[i]? with
    | none => simp only [hh] at e; cases e
    | some node =>
      simp only [hh] at e ⊢
      cases hc : ht_clear_chain f h node with
      | none => simp only [hc] at e; cases e
      | some h1 =>
        simp only [hc] at e
        simp only [clear_chain_mono f g h node h1 hfg hc]
        exact ih _ _ _ _ e

theorem ht_clear_mono {f g : Nat} {h : Heap} {ht : Option hash_table}
    {r : Heap × Option hash_table} (hfg : f ≤ g)
    (e : ht_clear f h ht = some r) : ht_clear g h ht = some r := by
  cases ht with
  | none => exact e
  | some t =>
    simp only [ht_clear] at e ⊢
    cases hl : ht_clear_loop f t.num_buckets.toNat 0 h t.table with
    | none => simp only [hl] at e; cases e
    | some x =>
      simp only [hl] at e
      simp only [clear_loop_mono hfg _ _ _ _ _ hl]
      exact e

/-! ## Every reachable state satisfies the invariant -/

theorem create_rep (h : Heap) (n : Int) (t : hash_table) (hn : 0 < n)
    (e : ht_create true true n = some t) : Rep ⟨h, t⟩ (fun _ => []) := by
  simp only [ht_create, Bool.not_true, Bool.false_eq_true, if_false, Option.some.injEq] at e
  subst e
  refine Rep.empty h _ hn (List.length_replicate _ _) (fun i head hh => ?_) rfl
  rw [show (hash_table.mk (List.replicate n.toNat none) n 0).table = _ from rfl,
    List.getElem?_replicate] at hh
  split at hh
  · cases hh; rfl
  · cases hh

theorem Rep.fresh {s : State} {c : Nat → List Ptr} (hr : Rep s c) {p : Ptr} (hp : Fresh s p) :
    (∃ n, s.heap.nodes p = some n) ∧ ∀ i, p ∉ c i :=
  ⟨hp.1, fun i hi => hp.2 ((hr.linked_iff p).2 ⟨i, hi⟩)⟩

theorem reachable_rep {s : State} (hs : Reachable s) : ∃ c, Rep s c := by
  induction hs with
  | create h n t hn e => exact ⟨_, create_rep h n t hn e⟩
  | add s fuel key p r h1 t1 _ hp e ih =>
    obtain ⟨c, hr⟩ := ih
    obtain ⟨hl, hpc⟩ := hr.fresh hp
    obtain ⟨h2, t2, e2, hr2, _⟩ :=
      add_spec hr
        (show chain_total c s.ht.table.length <
          max fuel (chain_total c s.ht.table.length + 1) by omega)
        key hl hpc
    have e3 := ht_add_mono (Nat.le_max_left fuel (chain_total c s.ht.table.length + 1)) e
    rw [e2] at e3
    cases e3
    exact ⟨_, hr2⟩
  | remove s fuel key r h1 t1 _ e ih =>
    obtain ⟨c, hr⟩ := ih
    obtain ⟨r2, h2, t2, e2, hr2, _⟩ :=
      remove_spec hr
        (show chain_total c s.ht.table.length ≤
          max fuel (chain_total c s.ht.table.length) by omega) key
    have e3 := ht_remove_mono (Nat.le_max_left fuel (chain_total c s.ht.table.length)) e
    rw [e2] at e3
    cases e3
    exact ⟨_, hr2⟩
  | clear s fuel h1 t1 _ e ih =>
    obtain ⟨c, hr⟩ := ih
    obtain ⟨h2, t2, e2, hr2, _⟩ :=
      clear_spec hr
        (show chain_total c s.ht.table.length ≤
          max fuel (chain_total c s.ht.table.length) by omega)
    have e3 := ht_clear_mono (Nat.le_max_left fuel (chain_total c s.ht.table.length)) e
    rw [e2] at e3
    cases e3
    exact ⟨_, hr2⟩
  | caller s h1 _ hf ih =>
    obtain ⟨c, hr⟩ := ih
    exact ⟨c, hr.frame h1 fun i q hq => hf q ((hr.linked_iff q).2 ⟨i, hq⟩)⟩

theorem count_nodes_eq {s : State} {c : Nat → List Ptr} (hr : Rep s c) {fuel : Nat}
    (hf : chain_total c s.ht.table.length ≤ fuel) :
    ∀ i, i ≤ s.ht.table.length →
      count_nodes fuel s.heap s.ht.table i = some (chain_total c i) := by
  intro i
  induction i with
  | zero => intro _; rfl
  | succ i ih =>
    intro hi
    obtain ⟨head, hh, hd⟩ := hr.head i (by omega)
    simp only [count_nodes, ih (by omega), hh,
      chain_length_eq hd (le_trans (hr.length_le i) hf), Option.bind_eq_bind, Option.some_bind,
      Option.pure_def, chain_total, List.range_succ, List.map_append, List.sum_append,
      List.map_cons, List.map_nil, List.sum_cons, List.sum_nil, Nat.add_zero]

theorem chain_length_unique {h : Heap} {l : List Ptr} :
    ∀ {prev cur : Option Ptr} {fuel k : Nat}, Dll h.nodes prev cur l →
      chain_length h fuel cur = some k → k = l.length := by
  induction l with
  | nil =>
    intro prev cur fuel k hd e
    rw [Dll_nil.1 hd] at e
    cases fuel <;> (simp only [chain_length] at e; cases e; rfl)
  | cons x l ih =>
    intro prev cur fuel k hd e
    obtain ⟨hc, n, hn, _, hd2⟩ := Dll_cons.1 hd
    subst hc
    cases fuel with
    | zero => simp only [chain_length] at e; cases e
    | succ f =>
      simp only [chain_length, hn] at e
      cases hcl : chain_length h f n.next with
      | none => rw [hcl] at e; cases e
      | some k1 =>
        rw [hcl] at e
        simp only [Option.map_some', Option.some.injEq] at e
        subst e
        rw [ih hd2 hcl]
        rfl

theorem count_nodes_unique {s : State} {c : Nat → List Ptr} (hr : Rep s c) {fuel : Nat} :
    ∀ (i k : Nat), i ≤ s.ht.table.length →
      count_nodes fuel s.heap s.ht.table i = some k → k = chain_total c i := by
  intro i
  induction i with
  | zero =>
    intro k _ e
    simp only [count_nodes, Option.some.injEq] at e
    subst e
    rfl
  | succ i ih =>
    intro k hi e
    obtain ⟨head, hh, hd⟩ := hr.head i (by omega)
    simp only [count_nodes, hh, Option.bind_eq_bind, Option.some_bind, Option.pure_def] at e
    cases ha : count_nodes fuel s.heap s.ht.table i with
    | none => rw [ha] at e; cases e
    | some a =>
      rw [ha] at e
      simp only [Option.some_bind] at e
      cases hb : chain_length s.heap fuel head with
      | none => rw [hb] at e; cases e
      | some b =>
        rw [hb] at e
        simp only [Option.some_bind, Option.some.injEq] at e
        subst e
        rw [ih a (by omega) ha, chain_length_unique hd hb]
        simp only [chain_total, List.range_succ, List.map_append, List.sum_append,
          List.map_cons, List.map_nil, List.sum_cons, List.sum_nil, Nat.add_zero]

/-- The nodes listed by the invariant are the nodes counted by traversal. -/
theorem Rep.nodeCount {s : State} {c : Nat → List Ptr} (hr : Rep s c) :
    NodeCount s (chain_total c s.ht.table.length) :=
  ⟨chain_total c s.ht.table.length, by
    rw [← hr.len_table]
    exact count_nodes_eq hr (Nat.le_refl _) _ (Nat.le_refl _)⟩

theorem Rep.nodeCount_eq {s : State} {c : Nat → List Ptr} (hr : Rep s c) {n : Nat}
    (hn : NodeCount s n) : n = chain_total c s.ht.table.length := by
  obtain ⟨fuel, e⟩ := hn
  rw [← hr.len_table] at e
  exact count_nodes_unique hr _ n (Nat.le_refl _) e

theorem Rep.len_eq {s s1 : State} {c c1 : Nat → List Ptr} (hr : Rep s c) (hr1 : Rep s1 c1)
    (hnb : s1.ht.num_buckets = s.ht.num_buckets) : s1.ht.table.length = s.ht.table.length := by
  rw [hr1.len_table, hnb, hr.len_table]

/-- The number of listed nodes after `ht_add`: one more when the key was absent, the same when
a node carried the key. -/
theorem Rep.total_after_add {s : State} {c : Nat → List Ptr} (hr : Rep s c) (key : Int)
    (p : Ptr) :
    ((∀ q ∈ c (bucket s key), ¬ HasKey s.heap q key) →
      chain_total (chains_after_add s c key p) s.ht.table.length =
        chain_total c s.ht.table.length + 1) ∧
    (∀ old ∈ c (bucket s key), HasKey s.heap old key →
      chain_total (chains_after_add s c key p) s.ht.table.length =
        chain_total c s.ht.table.length) := by
  have h1 := chain_total_update c
    ((c (bucket s key)).filter (fun q => key_of s.heap q != some key) ++ [p]) (hr.bucket_lt key)
  rw [List.length_append, List.length_singleton] at h1
  refine ⟨fun habs => ?_, fun old hold hk => ?_⟩
  · have h0 := congrArg List.length (filter_key_absent habs)
    unfold chains_after_add
    omega
  · have h0 := congrArg List.length (filter_key_present hr hold hk)
    have h2 := List.length_erase_of_mem hold
    have h3 : 0 < (c (bucket s key)).length := List.length_pos_of_mem hold
    unfold chains_after_add
    omega

/-- The number of listed nodes after `ht_remove`: the same when the key was absent, one less
when a node carried the key. -/
theorem Rep.total_after_remove {s : State} {c : Nat → List Ptr} (hr : Rep s c) (key : Int) :
    ((∀ q ∈ c (bucket s key), ¬ HasKey s.heap q key) →
      chain_total (chains_after_remove s c key) s.ht.table.length =
        chain_total c s.ht.table.length) ∧
    (∀ old ∈ c (bucket s key), HasKey s.heap old key →
      chain_total (chains_after_remove s c key) s.ht.table.length + 1 =
        chain_total c s.ht.table.length) := by
  have h1 := chain_total_update c
    ((c (bucket s key)).filter (fun q => key_of s.heap q != some key)) (hr.bucket_lt key)
  refine ⟨fun habs => ?_, fun old hold hk => ?_⟩
  · have h0 := congrArg List.length (filter_key_absent habs)
    unfold chains_after_remove
    omega
  · have h0 := congrArg List.length (filter_key_present hr hold hk)
    have h2 := List.length_erase_of_mem hold
    have h3 : 0 < (c (bucket s key)).length := List.length_pos_of_mem hold
    unfold chains_after_remove
    omega

theorem Rep.total_after_add_le {s : State} {c : Nat → List Ptr} (hr : Rep s c) (key : Int)
    (p : Ptr) :
    chain_total (chains_after_add s c key p) s.ht.table.length ≤
      chain_total c s.ht.table.length + 1 := by
  rcases hr.key_cases key with ⟨old, hold, hk⟩ | habs
  · rw [(hr.total_after_add key p).2 old hold hk]
    omega
  · rw [(hr.total_after_add key p).1 habs]

theorem Rep.total_after_remove_le {s : State} {c : Nat → List Ptr} (hr : Rep s c)
    (key : Int) :
    chain_total (chains_after_remove s c key) s.ht.table.length ≤
      chain_total c s.ht.table.length := by
  rcases hr.key_cases key with ⟨old, hold, hk⟩ | habs
  · have := (hr.total_after_remove key).2 old hold hk
    omega
  · rw [(hr.total_after_remove key).1 habs]

theorem Rep.fuel_after_add {s : State} {c : Nat → List Ptr} (hr : Rep s c) {fuel : Nat}
    (hf : chain_total c s.ht.table.length < fuel) (key : Int) (p : Ptr) {h1 : Heap}
    {t1 : hash_table} (hlen : t1.table.length = s.ht.table.length) :
    chain_total (chains_after_add s c key p) (State.mk h1 t1).ht.table.length ≤ fuel := by
  rw [show (State.mk h1 t1).ht.table.length = s.ht.table.length from hlen]
  have := hr.total_after_add_le key p
  omega

theorem Rep.fuel_after_remove {s : State} {c : Nat → List Ptr} (hr : Rep s c) {fuel : Nat}
    (hf : chain_total c s.ht.table.length ≤ fuel) (key : Int) {h1 : Heap}
    {t1 : hash_table} (hlen : t1.table.length = s.ht.table.length) :
    chain_total (chains_after_remove s c key) (State.mk h1 t1).ht.table.length ≤ fuel := by
  rw [show (State.mk h1 t1).ht.table.length = s.ht.table.length from hlen]
  exact le_trans (hr.total_after_remove_le key) hf

/-- What `ht_get_node` returns in a state that satisfies the invariant. -/
theorem get_spec {s : State} {c : Nat → List Ptr} (hr : Rep s c) {fuel : Nat}
    (hf : chain_total c s.ht.table.length ≤ fuel) (key : Int) :
    ∃ g, ht_get_node fuel s.heap (some s.ht) key = some g ∧
      (∀ p, g = some p ↔ p ∈ c (bucket s key) ∧ HasKey s.heap p key) := by
  rcases hr.key_cases key with ⟨p, hp, hk⟩ | habs
  · refine ⟨some p, get_found hr hf hp hk, fun q => ⟨?_, ?_⟩⟩
    · intro e; cases e; exact ⟨hp, hk⟩
    · rintro ⟨hq, hkq⟩
      rw [hr.keys _ q p hq hp (by unfold HasKey at hkq hk; rw [hkq, hk])]
  · refine ⟨none, get_absent hr hf habs, fun q => ⟨?_, ?_⟩⟩
    · intro e; cases e
    · rintro ⟨hq, hkq⟩
      exact absurd hkq (habs q hq)

theorem add_link_true {f : Nat} {h : Heap} {t : hash_table} {key : Int} {p : Ptr}
    {r : Bool × Heap × Option hash_table} (e : ht_add_link f h t key p = some r) :
    r.1 = true := by
  simp only [ht_add_link] at e
  cases hh : t.table[(calc_hash_code key t.num_buckets).toNat]? with
  | none => simp only [hh] at e; cases e
  | some head =>
    cases head with
    | none =>
      simp only [hh] at e
      cases e
      rfl
    | some hd =>
      simp only [hh] at e
      cases ht : ht_add_find_tail h f hd with
      | none => simp only [ht] at e; cases e
      | some tail =>
        simp only [ht] at e
        cases hi : hn_insert_after h (some tail) (some p) with
        | none => simp only [hi] at e; cases e
        | some h1 =>
          simp only [hi] at e
          cases e
          rfl

theorem not_linked_of_empty {s : State} (p : Ptr)
    (hnone : ∀ (i : Nat) (head : Option Ptr), s.ht.table[i]? = some head → head = none) :
    ¬ Linked s p := by
  rintro ⟨i, head, hh, hc⟩
  rw [hnone i head hh] at hc
  cases hc

/-- A fresh node stays fresh when another node is added. -/
theorem fresh_after_add {s : State} (hs : Reachable s) {fuel : Nat} {key : Int} {p q : Ptr}
    {r : Bool} {h1 : Heap} {t1 : hash_table} (hp : Fresh s p) (hq : Fresh s q) (hqp : q ≠ p)
    (e : ht_add fuel s.heap (some s.ht) key (some p) = some (r, h1, some t1)) :
    Fresh ⟨h1, t1⟩ q := by
  obtain ⟨c, hr⟩ := reachable_rep hs
  obtain ⟨hl, hpc⟩ := hr.fresh hp
  obtain ⟨hlq, hqc⟩ := hr.fresh hq
  obtain ⟨h2, t2, e2, hr2, _, _, _, _, a5, _⟩ :=
    add_spec hr
        (show chain_total c s.ht.table.length <
          max fuel (chain_total c s.ht.table.length + 1) by omega)
      key hl hpc
  have e3 := ht_add_mono (Nat.le_max_left fuel (chain_total c s.ht.table.length + 1)) e
  rw [e2] at e3
  cases e3
  refine ⟨?_, fun hlk => ?_⟩
  · show ∃ n, h1.nodes q = some n
    rw [a5 q hqp hqc]
    exact hlq
  · obtain ⟨i, hi⟩ := (hr2.linked_iff q).1 hlk
    unfold chains_after_add at hi
    by_cases hib : i = bucket s key
    · subst hib
      rw [Function.update_same] at hi
      rcases List.mem_append.1 hi with hi | hi
      · exact hqc _ (List.mem_of_mem_filter hi)
      · exact hqp (by simpa using hi)
    · rw [Function.update_noteq hib] at hi
      exact hqc i hi

/-! ## Effect of the operations on lookups -/

theorem Rep.not_key_of_ne_bucket {s : State} {c : Nat → List Ptr} (hr : Rep s c) {i : Nat}
    {q : Ptr} {key : Int} (hq : q ∈ c i) (hi : i ≠ bucket s key) : ¬ HasKey s.heap q key :=
  fun hk => hi (hr.mem_bucket hq hk)

theorem mem_filter_key {h : Heap} {l : List Ptr} {key : Int} {q : Ptr} :
    q ∈ l.filter (fun x => key_of h x != some key) ↔ q ∈ l ∧ ¬ HasKey h q key := by
  rw [List.mem_filter, bne_iff_ne]
  rfl

theorem mem_chains_after_add {s : State} {c : Nat → List Ptr} (hr : Rep s c) {key : Int}
    {p q : Ptr} {i : Nat} :
    q ∈ chains_after_add s c key p i ↔
      (q = p ∧ i = bucket s key) ∨ (q ∈ c i ∧ ¬ HasKey s.heap q key) := by
  unfold chains_after_add
  by_cases hi : i = bucket s key
  · subst hi
    rw [Function.update_same, List.mem_append, mem_filter_key, List.mem_singleton]
    constructor
    · rintro (h | h)
      · exact Or.inr h
      · exact Or.inl ⟨h, rfl⟩
    · rintro (⟨h, _⟩ | h)
      · exact Or.inr h
      · exact Or.inl h
  · rw [Function.update_noteq hi]
    constructor
    · intro h
      exact Or.inr ⟨h, hr.not_key_of_ne_bucket h hi⟩
    · rintro (⟨_, h⟩ | h)
      · exact absurd h hi
      · exact h.1

theorem mem_chains_after_remove {s : State} {c : Nat → List Ptr} (hr : Rep s c) {key : Int}
    {q : Ptr} {i : Nat} :
    q ∈ chains_after_remove s c key i ↔ q ∈ c i ∧ ¬ HasKey s.heap q key := by
  unfold chains_after_remove
  by_cases hi : i = bucket s key
  · subst hi
    rw [Function.update_same, mem_filter_key]
  · rw [Function.update_noteq hi]
    exact ⟨fun h => ⟨h, hr.not_key_of_ne_bucket h hi⟩, fun h => h.1⟩

theorem option_eq_of_iff {g1 g2 : Option Ptr} (h : ∀ q, g1 = some q ↔ g2 = some q) :
    g1 = g2 := by
  cases g1 with
  | none =>
    cases g2 with
    | none => rfl
    | some b => exact ((h b).2 rfl).symm ▸ rfl
  | some a => exact ((h a).1 rfl).symm

theorem hasKey_unique {h : Heap} {q : Ptr} {k1 k2 : Int} (h1 : HasKey h q k1)
    (h2 : HasKey h q k2) : k1 = k2 := by
  unfold HasKey at h1 h2
  rw [h1] at h2
  cases h2
  rfl

/-- The call `ht_add` of a fresh node: the new state, its chains, and the lookups in it. -/
theorem add_effect {s : State} {c : Nat → List Ptr} (hr : Rep s c) {fuel : Nat}
    (hf : chain_total c s.ht.table.length < fuel) (key : Int) {p : Ptr} (hp : Fresh s p) :
    ∃ h1 t1, ht_add fuel s.heap (some s.ht) key (some p) = some (true, h1, some t1) ∧
      Rep ⟨h1, t1⟩ (chains_after_add s c key p) ∧
      t1.table.length = s.ht.table.length ∧ HasKey h1 p key ∧
      ht_get_node fuel h1 (some t1) key = some (some p) ∧
      (∀ k2, k2 ≠ key →
        ht_get_node fuel h1 (some t1) k2 = ht_get_node fuel s.heap (some s.ht) k2) ∧
      ((∀ q ∈ c (bucket s key), ¬ HasKey s.heap q key) →
        t1.num_items = wrap_int (s.ht.num_items + 1)) ∧
      (∀ old ∈ c (bucket s key), HasKey s.heap old key →
        t1.num_items = s.ht.num_items ∧ h1.nodes old = none) := by
  obtain ⟨hl, hpc⟩ := hr.fresh hp
  obtain ⟨h1, t1, e, hr1, a1, _, a3, a4, _, a6, a7⟩ := add_spec hr hf key hl hpc
  have hlen : t1.table.length = s.ht.table.length := hr.len_eq hr1 a1
  have hle : chain_total (chains_after_add s c key p) (State.mk h1 t1).ht.table.length ≤
      fuel := by
    rw [show (State.mk h1 t1).ht.table.length = s.ht.table.length from hlen]
    have := hr.total_after_add_le key p
    omega
  have hb : ∀ k, bucket ⟨h1, t1⟩ k = bucket s k := by
    intro k
    unfold bucket
    rw [show (State.mk h1 t1).ht.num_buckets = s.ht.num_buckets from a1]
  have hpm : p ∈ chains_after_add s c key p (bucket s key) :=
    (mem_chains_after_add hr).2 (Or.inl ⟨rfl, rfl⟩)
  refine ⟨h1, t1, e, hr1, hlen, a3, get_found hr1 hle hpm a3, ?_, a6, a7⟩
  intro k2 hk2
  obtain ⟨g1, e1, c1⟩ := get_spec hr1 hle k2
  obtain ⟨g0, e0, c0⟩ := get_spec hr (le_of_lt hf) k2
  rw [show (State.mk h1 t1).heap = h1 from rfl, show (State.mk h1 t1).ht = t1 from rfl] at e1
  rw [e1, e0]
  congr 1
  apply option_eq_of_iff
  intro q
  rw [c1, c0, hb, mem_chains_after_add hr]
  constructor
  · rintro ⟨⟨rfl, _⟩ | ⟨hq, hnk⟩, hk⟩
    · exact absurd (hasKey_unique hk a3) hk2
    · have hqp : q ≠ p := fun e => hpc _ (e ▸ hq)
      refine ⟨hq, ?_⟩
      unfold HasKey at hk ⊢
      rw [← a4 q hqp hnk]
      exact hk
  · rintro ⟨hq, hk⟩
    have hqp : q ≠ p := fun e => hpc _ (e ▸ hq)
    have hnk : ¬ HasKey s.heap q key := fun h => hk2 (hasKey_unique hk h)
    refine ⟨Or.inr ⟨hq, hnk⟩, ?_⟩
    unfold HasKey at hk ⊢
    rw [show (State.mk h1 t1).heap = h1 from rfl, a4 q hqp hnk]
    exact hk

/-- The call `ht_remove`: the new state, its chains, and the lookups in it. -/
theorem remove_effect {s : State} {c : Nat → List Ptr} (hr : Rep s c) {fuel : Nat}
    (hf : chain_total c s.ht.table.length ≤ fuel) (key : Int) :
    ∃ r h1 t1, ht_remove fuel s.heap (some s.ht) key = some (r, h1, some t1) ∧
      Rep ⟨h1, t1⟩ (chains_after_remove s c key) ∧
      t1.table.length = s.ht.table.length ∧
      ht_get_node fuel h1 (some t1) key = some none ∧
      (∀ k2, k2 ≠ key →
        ht_get_node fuel h1 (some t1) k2 = ht_get_node fuel s.heap (some s.ht) k2) ∧
      ((∀ q ∈ c (bucket s key), ¬ HasKey s.heap q key) →
        r = false ∧ h1 = s.heap ∧ t1 = s.ht) ∧
      (∀ old ∈ c (bucket s key), HasKey s.heap old key →
        r = true ∧ t1.num_items = wrap_int (s.ht.num_items - 1) ∧ h1.nodes old = none) := by
  obtain ⟨r, h1, t1, e, hr1, a1, _, a3, _, a5, a6⟩ := remove_spec hr hf key
  have hlen : t1.table.length = s.ht.table.length := hr.len_eq hr1 a1
  have hle : chain_total (chains_after_remove s c key) (State.mk h1 t1).ht.table.length ≤
      fuel := by
    rw [show (State.mk h1 t1).ht.table.length = s.ht.table.length from hlen]
    exact le_trans (hr.total_after_remove_le key) hf
  have hb : ∀ k, bucket ⟨h1, t1⟩ k = bucket s k := by
    intro k
    unfold bucket
    rw [show (State.mk h1 t1).ht.num_buckets = s.ht.num_buckets from a1]
  refine ⟨r, h1, t1, e, hr1, hlen, ?_, ?_, a5, a6⟩
  · refine get_absent hr1 hle (s := ⟨h1, t1⟩) fun q hq hk => ?_
    rw [hb, mem_chains_after_remove hr] at hq
    apply hq.2
    unfold HasKey at hk ⊢
    rw [← a3 q hq.2]
    exact hk
  · intro k2 hk2
    obtain ⟨g1, e1, c1⟩ := get_spec hr1 hle k2
    obtain ⟨g0, e0, c0⟩ := get_spec hr hf k2
    rw [show (State.mk h1 t1).heap = h1 from rfl, show (State.mk h1 t1).ht = t1 from rfl] at e1
    rw [e1, e0]
    congr 1
    apply option_eq_of_iff
    intro q
    rw [c1, c0, hb, mem_chains_after_remove hr]
    constructor
    · rintro ⟨⟨hq, hnk⟩, hk⟩
      refine ⟨hq, ?_⟩
      unfold HasKey at hk ⊢
      rw [← a3 q hnk]
      exact hk
    · rintro ⟨hq, hk⟩
      have hnk : ¬ HasKey s.heap q key := fun h => hk2 (hasKey_unique hk h)
      refine ⟨⟨hq, hnk⟩, ?_⟩
      unfold HasKey at hk ⊢
      rw [show (State.mk h1 t1).heap = h1 from rfl, a3 q hnk]
      exact hk

theorem Rep.fuel_lt {s : State} {c : Nat → List Ptr} (hr : Rep s c) {n fuel : Nat}
    (hn : NodeCount s n) (hf : n < fuel) : chain_total c s.ht.table.length < fuel := by
  rw [← hr.nodeCount_eq hn]
  exact hf

/-! ## The example states are reachable -/

theorem demo_reachable : Reachable demo_state :=
  Reachable.create demo_heap 5 demo_table (by decide) rfl

theorem demo_fresh (p : Ptr) (hp : p < 10) : Fresh demo_state p := by
  refine ⟨?_, not_linked_of_empty p fun i head hh => ?_⟩
  · simp [demo_state, demo_heap, hp]
  · rw [show demo_state.ht.table = List.replicate 5 none from rfl, List.getElem?_replicate] at hh
    split at hh
    · cases hh; rfl
    · cases hh

theorem demo_add1 :
    ht_add 1 demo_state.heap (some demo_state.ht) 1 (some 1) =
      some (true, demo_state1.heap, some demo_state1.ht) := rfl

theorem demo_reachable1 : Reachable demo_state1 :=
  Reachable.add demo_state 1 1 1 true _ _ demo_reachable (demo_fresh 1 (by decide)) demo_add1

theorem demo_fresh1 (p : Ptr) (hp : p < 10) (h1 : p ≠ 1) : Fresh demo_state1 p :=
  fresh_after_add demo_reachable (demo_fresh 1 (by decide)) (demo_fresh p hp) h1 demo_add1

theorem demo_add2 :
    ht_add 2 demo_state1.heap (some demo_state1.ht) 6 (some 2) =
      some (true, demo_state2.heap, some demo_state2.ht) := rfl

theorem demo_reachable2 : Reachable demo_state2 :=
  Reachable.add demo_state1 2 6 2 true _ _ demo_reachable1
    (demo_fresh1 2 (by decide) (by decide)) demo_add2

theorem demo_fresh2 (p : Ptr) (hp : p < 10) (h1 : p ≠ 1) (h2 : p ≠ 2) : Fresh demo_state2 p :=
  fresh_after_add demo_reachable1 (demo_fresh1 2 (by decide) (by decide)) (demo_fresh1 p hp h1)
    h2 demo_add2

theorem demo_count1 : NodeCount demo_state1 1 := ⟨1, rfl⟩

theorem demo_count2 : NodeCount demo_state2 2 := ⟨2, rfl⟩

/-! ## The claims -/

/-- C1: in every reachable table, for every key and every fresh node, `ht_add` (with more fuel
than the table has nodes) returns `true`, an immediately following `ht_get_node` of the same
key returns that very node, and the key field of the node is now the key it was added under. -/
theorem C1_add_then_get_roundtrip (s : State) (hs : Reachable s) (key : Int) (p : Ptr)
    (hp : Fresh s p) (n : Nat) (hn : NodeCount s n) (fuel : Nat) (hf : n < fuel) :
    ∃ h1 t1, ht_add fuel s.heap (some s.ht) key (some p) = some (true, h1, some t1) ∧
      ht_get_node fuel h1 (some t1) key = some (some p) ∧
      ∃ n, h1.nodes p = some n ∧ n.key = key := by
  obtain ⟨c, hr⟩ := reachable_rep hs
  obtain ⟨h1, t1, e, _, _, hk, hg, _⟩ := add_effect hr (hr.fuel_lt hn hf) key hp
  exact ⟨h1, t1, e, hg, HasKey_iff.1 hk⟩

theorem C1_witness :
    ∃ h1 t1, ht_add 2 demo_state1.heap (some demo_state1.ht) 6 (some 2) =
        some (true, h1, some t1) ∧
      ht_get_node 2 h1 (some t1) 6 = some (some 2) ∧
      ∃ n, h1.nodes 2 = some n ∧ n.key = 6 :=
  C1_add_then_get_roundtrip demo_state1 demo_reachable1 6 2
    (demo_fresh1 2 (by decide) (by decide)) 1 demo_count1 2 (by decide)

/-- C2: in every reachable table in which `ht_get_node` finds a node `old` for `key`, `ht_add`
of a fresh node under the same key returns `true`, leaves `num_items` unchanged, makes
`ht_get_node` return the new node, and leaves `old` on no bucket chain. -/
theorem C2_add_replaces_duplicate (s : State) (hs : Reachable s) (key : Int) (old p : Ptr)
    (n : Nat) (hn : NodeCount s n) (fuel : Nat) (hf : n < fuel)
    (hold : ht_get_node fuel s.heap (some s.ht) key = some (some old)) (hp : Fresh s p) :
    ∃ h1 t1, ht_add fuel s.heap (some s.ht) key (some p) = some (true, h1, some t1) ∧
      t1.num_items = s.ht.num_items ∧
      ht_get_node fuel h1 (some t1) key = some (some p) ∧
      ¬ Linked ⟨h1, t1⟩ old := by
  obtain ⟨c, hr⟩ := reachable_rep hs
  have hf := hr.fuel_lt hn hf
  obtain ⟨g, eg, hg⟩ := get_spec hr (le_of_lt hf) key
  rw [eg] at hold
  cases hold
  obtain ⟨hoc, hok⟩ := (hg old).1 rfl
  obtain ⟨h1, t1, e, hr1, _, _, hget, _, _, a7⟩ := add_effect hr hf key hp
  refine ⟨h1, t1, e, (a7 old hoc hok).1, hget, fun hl => ?_⟩
  obtain ⟨i, hi⟩ := (hr1.linked_iff old).1 hl
  rcases (mem_chains_after_add hr).1 hi with ⟨e1, _⟩ | ⟨_, hnk⟩
  · exact (hr.fresh hp).2 _ (e1 ▸ hoc)
  · exact hnk hok

theorem C2_witness :
    ∃ h1 t1, ht_add 3 demo_state2.heap (some demo_state2.ht) 1 (some 3) =
        some (true, h1, some t1) ∧
      t1.num_items = demo_state2.ht.num_items ∧
      ht_get_node 3 h1 (some t1) 1 = some (some 3) ∧
      ¬ Linked ⟨h1, t1⟩ 1 :=
  C2_add_replaces_duplicate demo_state2 demo_reachable2 1 1 3 2 demo_count2 3 (by decide)
    (by decide)
    (demo_fresh2 3 (by decide) (by decide) (by decide))

/-- C3: in every reachable table, for every key, `ht_remove` (with more fuel than the table has
nodes) returns, and
whatever flag it returned, `ht_get_node` of that key then reports not-found and `ht_contains`
is false. -/
theorem C3_remove_then_get (s : State) (hs : Reachable s) (key : Int) (n : Nat)
    (hn : NodeCount s n) (fuel : Nat) (hf : n < fuel) :
    ∃ r h1 t1, ht_remove fuel s.heap (some s.ht) key = some (r, h1, some t1) ∧
      ht_get_node fuel h1 (some t1) key = some none ∧
      ht_contains fuel h1 (some t1) key = some false := by
  obtain ⟨c, hr⟩ := reachable_rep hs
  obtain ⟨r, h1, t1, e, hr1, _, hg, _⟩ := remove_effect hr (le_of_lt (hr.fuel_lt hn hf)) key
  exact ⟨r, h1, t1, e, hg, contains_eq hr1.nb_pos hg⟩

theorem C3_witness :
    ∃ r h1 t1, ht_remove 3 demo_state2.heap (some demo_state2.ht) 1 = some (r, h1, some t1) ∧
      ht_get_node 3 h1 (some t1) 1 = some none ∧
      ht_contains 3 h1 (some t1) 1 = some false :=
  C3_remove_then_get demo_state2 demo_reachable2 1 2 demo_count2 3 (by decide)

/-- C4, as amended: in every state reachable from `ht_create` with a positive bucket count by
`ht_add` (of fresh nodes), `ht_remove` and `ht_clear`, the bucket chains hold a definite number
`n` of nodes (counting them by traversal gives `n`, with any fuel from `n` on, and never another
number); `num_items` equals `n` as long as `n` is at most `INT_MAX`, and in general `num_items`
is `n` wrapped into the `int` range. -/
theorem C4_num_items_counts_chain_nodes (s : State) (hs : Reachable s) :
    ∃ n : Nat, NodeCount s n ∧ (∀ m, NodeCount s m → m = n) ∧
      (∀ fuel, n ≤ fuel →
        count_nodes fuel s.heap s.ht.table s.ht.num_buckets.toNat = some n) ∧
      s.ht.num_items = wrap_int (n : Int) ∧
      ((n : Int) ≤ INT_MAX → s.ht.num_items = (n : Int)) := by
  obtain ⟨c, hr⟩ := reachable_rep hs
  refine ⟨_, hr.nodeCount, fun m hm => hr.nodeCount_eq hm, fun fuel hf => ?_, hr.count,
    fun hle => ?_⟩
  · rw [← hr.len_table]
    exact count_nodes_eq hr hf _ (Nat.le_refl _)
  · rw [hr.count]
    refine wrap_int_of_range ?_ hle
    simp only [INT_MIN]
    omega

theorem C4_witness :
    ∃ n : Nat, NodeCount demo_state2 n ∧ (∀ m, NodeCount demo_state2 m → m = n) ∧
      (∀ fuel, n ≤ fuel →
        count_nodes fuel demo_state2.heap demo_state2.ht.table
          demo_state2.ht.num_buckets.toNat = some n) ∧
      demo_state2.ht.num_items = wrap_int (n : Int) ∧
      ((n : Int) ≤ INT_MAX → demo_state2.ht.num_items = (n : Int)) :=
  C4_num_items_counts_chain_nodes demo_state2 demo_reachable2

/-- C5: in every reachable table, adding a fresh node under `k1` does not change what
`ht_get_node` returns for any other key `k2`, whether or not the two keys share a bucket; and
when a second fresh node is then added under `k2`, each of the two keys is found with its own
node. -/
theorem C5_add_keeps_other_keys (s : State) (hs : Reachable s) (k1 k2 : Int) (hne : k1 ≠ k2)
    (p : Ptr) (hp : Fresh s p) (n : Nat) (hn : NodeCount s n) (fuel : Nat) (hf : n < fuel) :
    ∃ h1 t1 g, ht_add fuel s.heap (some s.ht) k1 (some p) = some (true, h1, some t1) ∧
      ht_get_node fuel s.heap (some s.ht) k2 = some g ∧
      ht_get_node fuel h1 (some t1) k2 = some g ∧
      ∀ p2, Fresh ⟨h1, t1⟩ p2 →
        ∃ h2 t2, ht_add (fuel + 1) h1 (some t1) k2 (some p2) = some (true, h2, some t2) ∧
          ht_get_node (fuel + 1) h2 (some t2) k1 = some (some p) ∧
          ht_get_node (fuel + 1) h2 (some t2) k2 = some (some p2) := by
  obtain ⟨c, hr⟩ := reachable_rep hs
  have hf := hr.fuel_lt hn hf
  obtain ⟨h1, t1, e, hr1, hlen, _, hg1, hfr, _⟩ := add_effect hr hf k1 hp
  obtain ⟨g, eg, _⟩ := get_spec hr (le_of_lt hf) k2
  refine ⟨h1, t1, g, e, eg, by rw [hfr k2 (Ne.symm hne)]; exact eg, fun p2 hp2 => ?_⟩
  obtain ⟨h2, t2, e2, _, _, _, hg2, hfr2, _⟩ :=
    add_effect hr1 (show chain_total (chains_after_add s c k1 p)
        (State.mk h1 t1).ht.table.length < fuel + 1 by
      rw [show (State.mk h1 t1).ht.table.length = s.ht.table.length from hlen]
      have := hr.total_after_add_le k1 p
      omega) k2 hp2
  refine ⟨h2, t2, e2, ?_, hg2⟩
  rw [hfr2 k1 hne]
  exact ht_get_node_mono (Nat.le_succ fuel) hg1

theorem C5_witness :
    ∃ h1 t1 g, ht_add 2 demo_state1.heap (some demo_state1.ht) 6 (some 2) =
        some (true, h1, some t1) ∧
      ht_get_node 2 demo_state1.heap (some demo_state1.ht) 1 = some g ∧
      ht_get_node 2 h1 (some t1) 1 = some g ∧
      ∀ p2, Fresh ⟨h1, t1⟩ p2 →
        ∃ h2 t2, ht_add (2 + 1) h1 (some t1) 1 (some p2) = some (true, h2, some t2) ∧
          ht_get_node (2 + 1) h2 (some t2) 6 = some (some 2) ∧
          ht_get_node (2 + 1) h2 (some t2) 1 = some (some p2) :=
  C5_add_keeps_other_keys demo_state1 demo_reachable1 6 1 (by decide) 2
    (demo_fresh1 2 (by decide) (by decide)) 1 demo_count1 2 (by decide)

/-- C6: in every reachable table, removing `k1` does not change what `ht_get_node` returns for
any other key `k2`, wherever the removed node stood in its chain. -/
theorem C6_remove_keeps_other_keys (s : State) (hs : Reachable s) (k1 k2 : Int)
    (hne : k1 ≠ k2) (n : Nat) (hn : NodeCount s n) (fuel : Nat) (hf : n < fuel) :
    ∃ r h1 t1 g, ht_remove fuel s.heap (some s.ht) k1 = some (r, h1, some t1) ∧
      ht_get_node fuel s.heap (some s.ht) k2 = some g ∧
      ht_get_node fuel h1 (some t1) k2 = some g := by
  obtain ⟨c, hr⟩ := reachable_rep hs
  have hf := hr.fuel_lt hn hf
  obtain ⟨r, h1, t1, e, _, _, _, hfr, _⟩ := remove_effect hr (le_of_lt hf) k1
  obtain ⟨g, eg, _⟩ := get_spec hr (le_of_lt hf) k2
  exact ⟨r, h1, t1, g, e, eg, by rw [hfr k2 (Ne.symm hne)]; exact eg⟩

theorem C6_witness :
    ∃ r h1 t1 g, ht_remove 3 demo_state2.heap (some demo_state2.ht) 1 =
        some (r, h1, some t1) ∧
      ht_get_node 3 demo_state2.heap (some demo_state2.ht) 6 = some g ∧
      ht_get_node 3 h1 (some t1) 6 = some g :=
  C6_remove_keeps_other_keys demo_state2 demo_reachable2 1 6 (by decide) 2 demo_count2 3
    (by decide)

/-- C7, as amended: in every reachable table, `ht_remove` returns exactly what `ht_contains`
returned for the key before the call; when it returns `true`, `num_items` has gone down by
exactly one provided it was not `INT_MIN` (in general it is the old value minus one, wrapped
into the `int` range), and when it returns `false`, the heap and the table struct (bucket array
and `num_items`) are unchanged. -/
theorem C7_remove_succeeds_iff_present (s : State) (hs : Reachable s) (key : Int)
    (n : Nat) (hn : NodeCount s n) (fuel : Nat) (hf : n < fuel) :
    ∃ r h1 t1, ht_remove fuel s.heap (some s.ht) key = some (r, h1, some t1) ∧
      ht_contains fuel s.heap (some s.ht) key = some r ∧
      (r = true → t1.num_items = wrap_int (s.ht.num_items - 1) ∧
        (INT_MIN < s.ht.num_items → t1.num_items = s.ht.num_items - 1)) ∧
      (r = false → h1 = s.heap ∧ t1 = s.ht) := by
  obtain ⟨c, hr⟩ := reachable_rep hs
  have hf := hr.fuel_lt hn hf
  obtain ⟨r, h1, t1, e, _, _, _, _, a5, a6⟩ := remove_effect hr (le_of_lt hf) key
  rcases hr.key_cases key with ⟨old, hold, hk⟩ | habs
  · obtain ⟨b1, b2, _⟩ := a6 old hold hk
    subst b1
    refine ⟨true, h1, t1, e, ?_, fun _ => ⟨b2, fun hmin => ?_⟩, fun h => (by cases h)⟩
    · exact contains_eq hr.nb_pos (get_found hr (le_of_lt hf) hold hk)
    · rw [b2]
      have := hr.num_items_range
      simp only [INT_MIN, INT_MAX] at this hmin
      refine wrap_int_of_range ?_ ?_
      · simp only [INT_MIN]
        omega
      · simp only [INT_MAX]
        omega
  · obtain ⟨b1, b2, b3⟩ := a5 habs
    subst b1
    refine ⟨false, h1, t1, e, ?_, fun h => (by cases h), fun _ => ⟨b2, b3⟩⟩
    exact contains_eq hr.nb_pos (get_absent hr (le_of_lt hf) habs)

theorem C7_witness :
    ∃ r h1 t1, ht_remove 3 demo_state2.heap (some demo_state2.ht) 6 = some (r, h1, some t1) ∧
      ht_contains 3 demo_state2.heap (some demo_state2.ht) 6 = some r ∧
      (r = true → t1.num_items = wrap_int (demo_state2.ht.num_items - 1) ∧
        (INT_MIN < demo_state2.ht.num_items →
          t1.num_items = demo_state2.ht.num_items - 1)) ∧
      (r = false → h1 = demo_state2.heap ∧ t1 = demo_state2.ht) :=
  C7_remove_succeeds_iff_present demo_state2 demo_reachable2 6 2 demo_count2 3 (by decide)

theorem add_invalid {fuel : Nat} {h : Heap} {ht : Option hash_table} {key : Int}
    {node : Option Ptr} (hi : InvalidAdd ht node) :
    ht_add fuel h ht key node = some (false, h, ht) := by
  rcases hi with rfl | ⟨t, rfl, hnb⟩ | rfl
  · rfl
  · cases node with
    | none => rfl
    | some p => simp only [ht_add, hnb, if_true]
  · cases ht <;> rfl

theorem add_valid_true {fuel : Nat} {h : Heap} {t : hash_table} {key : Int} {p : Ptr}
    {r : Bool × Heap × Option hash_table} (hnb : 0 < t.num_buckets)
    (e : ht_add fuel h (some t) key (some p) = some r) : r.1 = true := by
  have hnb1 : ¬ t.num_buckets ≤ 0 := by omega
  simp only [ht_add, hnb1, if_false] at e
  cases hn : h.nodes p with
  | none => simp only [hn] at e; cases e
  | some n =>
    simp only [hn] at e
    cases hc : ht_contains fuel
        (h.write p { n with key := key, next := none, prev := none }) (some t) key with
    | none => simp only [hc] at e; cases e
    | some b =>
      simp only [hc] at e
      cases b with
      | false => exact add_link_true e
      | true =>
        simp only at e
        cases hrm : ht_remove fuel
            (h.write p { n with key := key, next := none, prev := none }) (some t) key with
        | none => simp only [hrm] at e; cases e
        | some x =>
          obtain ⟨b1, h2, ht2⟩ := x
          simp only [hrm] at e
          cases ht2 with
          | none => cases e
          | some t2 => exact add_link_true e

/-- C8: `ht_add` called with a null table, a table whose bucket count is not positive, or a null
node returns `false` and leaves the heap (hence the node) and the table struct as they were;
whenever `ht_add` returns, it returns `false` exactly in those cases; and in every other case
it returns `true` (for a reachable table, a fresh node and more fuel than the table has nodes
it does return). -/
theorem C8_add_fails_iff_invalid (fuel : Nat) (h : Heap) (ht : Option hash_table) (key : Int)
    (node : Option Ptr) :
    (InvalidAdd ht node → ht_add fuel h ht key node = some (false, h, ht)) ∧
    (∀ r h1 ht1, ht_add fuel h ht key node = some (r, h1, ht1) →
      (r = false ↔ InvalidAdd ht node)) ∧
    (∀ s p n, Reachable s → Fresh s p → NodeCount s n → n < fuel →
      h = s.heap → ht = some s.ht → node = some p →
      ¬ InvalidAdd ht node ∧
        ∃ h1 t1, ht_add fuel h ht key node = some (true, h1, some t1)) := by
  refine ⟨add_invalid, fun r h1 ht1 e => ⟨fun hr => ?_, fun hi => ?_⟩, ?_⟩
  · by_contra hni
    cases ht with
    | none => exact hni (Or.inl rfl)
    | some t =>
      cases node with
      | none => exact hni (Or.inr (Or.inr rfl))
      | some p =>
        have hnb : 0 < t.num_buckets := by
          by_contra hnb
          exact hni (Or.inr (Or.inl ⟨t, rfl, by omega⟩))
        have := add_valid_true hnb e
        rw [hr] at this
        cases this
  · rw [add_invalid hi] at e
    cases e
    rfl
  · rintro s p n hs hp hn hf rfl rfl rfl
    obtain ⟨c, hr⟩ := reachable_rep hs
    obtain ⟨h1, t1, e, _⟩ := add_effect hr (hr.fuel_lt hn hf) key hp
    refine ⟨?_, h1, t1, e⟩
    rintro (h | ⟨t, ht, hnb⟩ | h)
    · cases h
    · cases ht
      have := hr.nb_pos
      omega
    · cases h

theorem C8_witness :
    ht_add 0 demo_heap none 7 (some 1) = some (false, demo_heap, none) ∧
    ht_add 5 demo_heap (some demo_table) 7 none = some (false, demo_heap, some demo_table) ∧
    (¬ InvalidAdd (some demo_state2.ht) (some 3) ∧
      ∃ h1 t1, ht_add 3 demo_state2.heap (some demo_state2.ht) 7 (some 3) =
        some (true, h1, some t1)) :=
  ⟨(C8_add_fails_iff_invalid 0 demo_heap none 7 (some 1)).1 (Or.inl rfl),
    (C8_add_fails_iff_invalid 5 demo_heap (some demo_table) 7 none).1 (Or.inr (Or.inr rfl)),
    (C8_add_fails_iff_invalid 3 demo_state2.heap (some demo_state2.ht) 7 (some 3)).2.2
      demo_state2 3 2 demo_reachable2 (demo_fresh2 3 (by decide) (by decide) (by decide))
      demo_count2 (by decide) rfl rfl rfl⟩

/-- C9: on a table that is null or whose bucket count is not positive, for every key and every
amount of fuel, `ht_get_node` returns not-found, `ht_contains` returns `false`, `ht_remove`
returns `false` and changes nothing, and `ht_clear` frees nothing, keeps the bucket array and
leaves `num_items` at 0.  No bucket slot is read: the same holds when the bucket array is
empty, where reading any slot would be out of bounds. -/
theorem C9_invalid_table_refused (fuel : Nat) (h : Heap) (ht : Option hash_table) (key : Int)
    (hinv : InvalidTable ht) :
    ht_get_node fuel h ht key = some none ∧
    ht_contains fuel h ht key = some false ∧
    ht_remove fuel h ht key = some (false, h, ht) ∧
    (ht = none → ht_clear fuel h ht = some (h, none)) ∧
    (∀ t, ht = some t → ht_clear fuel h ht = some (h, some { t with num_items := 0 })) ∧
    (∀ t, ht = some t →
      ht_get_node fuel h (some { t with table := [] }) key = some none ∧
      ht_contains fuel h (some { t with table := [] }) key = some false ∧
      ht_remove fuel h (some { t with table := [] }) key =
        some (false, h, some { t with table := [] }) ∧
      ht_clear fuel h (some { t with table := [] }) =
        some (h, some { t with table := [], num_items := 0 })) := by
  rcases hinv with rfl | ⟨t, rfl, hnb⟩
  · refine ⟨rfl, rfl, rfl, fun _ => rfl, fun t e => (by cases e), fun t e => (by cases e)⟩
  · have hnb1 : ¬ 0 < t.num_buckets := by omega
    have htn : t.num_buckets.toNat = 0 := by omega
    refine ⟨?_, ?_, ?_, fun e => (by cases e), ?_, ?_⟩
    · simp only [ht_get_node, hnb, if_true]
    · simp only [ht_contains, hnb1, if_false]
    · simp only [ht_remove, hnb, if_true]
    · intro t1 e
      cases e
      simp only [ht_clear, htn, ht_clear_loop]
    · intro t1 e
      cases e
      refine ⟨?_, ?_, ?_, ?_⟩
      · simp only [ht_get_node, hnb, if_true]
      · simp only [ht_contains, hnb1, if_false]
      · simp only [ht_remove, hnb, if_true]
      · simp only [ht_clear, htn, ht_clear_loop]

theorem C9_witness :
    ht_get_node 0 demo_heap (ht_create true true 0) 1 = some none ∧
    ht_contains 0 demo_heap (ht_create true true 0) 1 = some false ∧
    ht_remove 0 demo_heap (ht_create true true 0) 1 =
      some (false, demo_heap, ht_create true true 0) :=
  have h := C9_invalid_table_refused 0 demo_heap (ht_create true true 0) 1
    (Or.inr ⟨⟨[], 0, 0⟩, rfl, by decide⟩)
  ⟨h.1, h.2.1, h.2.2.1⟩

/-- C10: for every `int` key and every bucket count `n > 0` in the `int` range,
`calc_hash_code key n` lies in `[0, n)` and is the Euclidean remainder of `key` by `n`
(hence congruent to `key` modulo `n`); the intermediate results, the truncating `key % n` and,
when that is negative, `key % n + n`, stay inside the `int` range; and
`calc_hash_code (-1) 10 = 9`, `calc_hash_code (-11) 10 = 9`. -/
theorem C10_calc_hash_code_is_euclidean_mod (key n : Int) (_hlo : INT_MIN ≤ key)
    (_hhi : key ≤ INT_MAX) (hn : 0 < n) (hn2 : n ≤ INT_MAX) :
    (0 ≤ calc_hash_code key n ∧ calc_hash_code key n < n) ∧
    calc_hash_code key n = key % n ∧
    (n ∣ key - calc_hash_code key n) ∧
    (INT_MIN ≤ Int.tmod key n ∧ Int.tmod key n ≤ INT_MAX) ∧
    (Int.tmod key n < 0 → INT_MIN ≤ Int.tmod key n + n ∧ Int.tmod key n + n ≤ INT_MAX) ∧
    calc_hash_code (-1) 10 = 9 ∧ calc_hash_code (-11) 10 = 9 := by
  obtain ⟨b1, b2, _, _⟩ := tmod_bounds key n hn
  simp only [INT_MIN, INT_MAX] at *
  refine ⟨calc_hash_code_range key n hn, calc_hash_code_eq_emod key n hn, ?_, by omega,
    fun _ => by omega, by decide, by decide⟩
  rw [calc_hash_code_eq_emod key n hn]
  exact Int.dvd_sub_of_emod_eq rfl

theorem C10_witness :
    (0 ≤ calc_hash_code INT_MIN 7 ∧ calc_hash_code INT_MIN 7 < 7) ∧
    calc_hash_code INT_MIN 7 = INT_MIN % 7 ∧
    ((7 : Int) ∣ INT_MIN - calc_hash_code INT_MIN 7) ∧
    (INT_MIN ≤ Int.tmod INT_MIN 7 ∧ Int.tmod INT_MIN 7 ≤ INT_MAX) ∧
    (Int.tmod INT_MIN 7 < 0 →
      INT_MIN ≤ Int.tmod INT_MIN 7 + 7 ∧ Int.tmod INT_MIN 7 + 7 ≤ INT_MAX) ∧
    calc_hash_code (-1) 10 = 9 ∧ calc_hash_code (-11) 10 = 9 :=
  C10_calc_hash_code_is_euclidean_mod INT_MIN 7 (by decide) (by decide) (by decide) (by decide)

theorem reachableFrom_reachable {n : Int} {s : State} (hs : ReachableFrom n s) :
    Reachable s ∧ s.ht.num_buckets = n := by
  induction hs with
  | create h t hn e =>
    refine ⟨Reachable.create h n t hn e, ?_⟩
    simp only [ht_create, Bool.not_true, Bool.false_eq_true, if_false, Option.some.injEq] at e
    subst e
    rfl
  | add s fuel key p r h1 t1 _ hp e ih =>
    obtain ⟨hr0, hn⟩ := ih
    refine ⟨Reachable.add s fuel key p r h1 t1 hr0 hp e, ?_⟩
    obtain ⟨c, hr⟩ := reachable_rep hr0
    obtain ⟨hl, hpc⟩ := hr.fresh hp
    obtain ⟨h2, t2, e2, _, hnb, _⟩ :=
      add_spec hr
        (show chain_total c s.ht.table.length <
          max fuel (chain_total c s.ht.table.length + 1) by omega)
        key hl hpc
    have e3 := ht_add_mono (Nat.le_max_left fuel (chain_total c s.ht.table.length + 1)) e
    rw [e2] at e3
    cases e3
    exact hnb.trans hn
  | remove s fuel key r h1 t1 _ e ih =>
    obtain ⟨hr0, hn⟩ := ih
    refine ⟨Reachable.remove s fuel key r h1 t1 hr0 e, ?_⟩
    obtain ⟨c, hr⟩ := reachable_rep hr0
    obtain ⟨r2, h2, t2, e2, _, hnb, _⟩ :=
      remove_spec hr
        (show chain_total c s.ht.table.length ≤
          max fuel (chain_total c s.ht.table.length) by omega) key
    have e3 := ht_remove_mono (Nat.le_max_left fuel (chain_total c s.ht.table.length)) e
    rw [e2] at e3
    cases e3
    exact hnb.trans hn
  | clear s fuel h1 t1 _ e ih =>
    obtain ⟨hr0, hn⟩ := ih
    refine ⟨Reachable.clear s fuel h1 t1 hr0 e, ?_⟩
    obtain ⟨c, hr⟩ := reachable_rep hr0
    obtain ⟨h2, t2, e2, _, hnb, _⟩ :=
      clear_spec hr
        (show chain_total c s.ht.table.length ≤
          max fuel (chain_total c s.ht.table.length) by omega)
    have e3 := ht_clear_mono (Nat.le_max_left fuel (chain_total c s.ht.table.length)) e
    rw [e2] at e3
    cases e3
    exact hnb.trans hn
  | caller s h1 _ hf ih =>
    exact ⟨Reachable.caller s h1 ih.1 hf, ih.2⟩

theorem demo_reachableFrom2 : ReachableFrom 5 demo_state2 :=
  ReachableFrom.add demo_state1 2 6 2 true _ _
    (ReachableFrom.add demo_state 1 1 1 true _ _
      (ReachableFrom.create demo_heap demo_table (by decide) rfl)
      (demo_fresh 1 (by decide)) demo_add1)
    (demo_fresh1 2 (by decide) (by decide)) demo_add2

/-- C13: in every state reachable from `ht_create(n)`, `n > 0`, by `ht_add` (of fresh nodes),
`ht_remove` and `ht_clear`, the bucket count is still `n`, and every node on the chain of
bucket `i` is live and carries a key whose `calc_hash_code` is `i`. -/
theorem C13_bucket_placement (n : Int) (s : State) (hs : ReachableFrom n s) :
    s.ht.num_buckets = n ∧
    ∀ (i : Nat) (head : Option Ptr) (p : Ptr), s.ht.table[i]? = some head →
      OnChain s.heap.nodes head p →
      ∃ nd, s.heap.nodes p = some nd ∧ calc_hash_code nd.key s.ht.num_buckets = (i : Int) := by
  obtain ⟨hr0, hn⟩ := reachableFrom_reachable hs
  obtain ⟨c, hr⟩ := reachable_rep hr0
  refine ⟨hn, fun i head p hh hc => ?_⟩
  have hp : p ∈ c i := onchain_Dll hc (hr.dll i head hh)
  obtain ⟨k, hk1, hk2⟩ := hr.placed i p hp
  obtain ⟨nd, hnd, hkey⟩ := HasKey_iff.1 hk1
  refine ⟨nd, hnd, ?_⟩
  rw [hkey]
  have := calc_hash_code_range k s.ht.num_buckets hr.nb_pos
  omega

theorem C13_witness :
    demo_state2.ht.num_buckets = 5 ∧
    ∀ (i : Nat) (head : Option Ptr) (p : Ptr), demo_state2.ht.table[i]? = some head →
      OnChain demo_state2.heap.nodes head p →
      ∃ nd, demo_state2.heap.nodes p = some nd ∧
        calc_hash_code nd.key demo_state2.ht.num_buckets = (i : Int) :=
  C13_bucket_placement 5 demo_state2 demo_reachableFrom2

/-- C14: in every reachable state no two distinct nodes linked into the table carry the same
key, so at most one linked node matches a key in the scan of `ht_get_node`. -/
theorem C14_linked_keys_unique (s : State) (hs : Reachable s) (p q : Ptr)
    (hp : Linked s p) (hq : Linked s q) (hk : key_of s.heap p = key_of s.heap q) :
    p = q ∧ ∃ k, key_of s.heap p = some k := by
  obtain ⟨c, hr⟩ := reachable_rep hs
  obtain ⟨i, hi⟩ := (hr.linked_iff p).1 hp
  obtain ⟨j, hj⟩ := (hr.linked_iff q).1 hq
  obtain ⟨k, hk1, hk2⟩ := hr.placed i p hi
  obtain ⟨k1, hk3, hk4⟩ := hr.placed j q hj
  rw [hk1, hk3] at hk
  cases hk
  have hij : i = j := by rw [← hk2, ← hk4]
  subst hij
  exact ⟨hr.keys i p q hi hj (by rw [hk1, hk3]), k, hk1⟩

theorem linked_of_get {s : State} (hs : Reachable s) {n fuel : Nat}
    (hn : NodeCount s n) (hf : n < fuel) {key : Int} {p : Ptr}
    (hg : ht_get_node fuel s.heap (some s.ht) key = some (some p)) :
    Linked s p ∧ HasKey s.heap p key := by
  obtain ⟨c, hr⟩ := reachable_rep hs
  obtain ⟨g, eg, hgs⟩ := get_spec hr (le_of_lt (hr.fuel_lt hn hf)) key
  rw [eg] at hg
  cases hg
  obtain ⟨h1, h2⟩ := (hgs p).1 rfl
  exact ⟨(hr.linked_iff p).2 ⟨_, h1⟩, h2⟩

theorem C14_witness : (1 : Ptr) = 1 ∧ ∃ k, key_of demo_state2.heap 1 = some k :=
  C14_linked_keys_unique demo_state2 demo_reachable2 1 1
    (linked_of_get demo_reachable2 demo_count2 (show 2 < 3 by decide)
      (show ht_get_node 3 demo_state2.heap (some demo_state2.ht) 1 = some (some 1) by
        decide)).1
    (linked_of_get demo_reachable2 demo_count2 (show 2 < 3 by decide)
      (show ht_get_node 3 demo_state2.heap (some demo_state2.ht) 1 = some (some 1) by
        decide)).1
    rfl

/-- C15: for every size `>= 0`, when both allocations succeed `ht_create(size)` returns a
non-null table with `num_buckets == size`, `num_items == 0` and `size` bucket heads, all
empty; `ht_create(0)` returns a table with no bucket and `num_buckets == 0`. -/
theorem C15_create_postcondition (size : Int) (hsz : 0 ≤ size) :
    (∃ t, ht_create true true size = some t ∧ t.num_buckets = size ∧ t.num_items = 0 ∧
      (t.table.length : Int) = size ∧ ∀ i, i < t.table.length → t.table[i]? = some none) ∧
    ht_create true true 0 = some ⟨[], 0, 0⟩ := by
  refine ⟨⟨_, rfl, rfl, rfl, ?_, fun i hi => ?_⟩, rfl⟩
  · simp only [List.length_replicate]
    omega
  · simp only [List.length_replicate] at hi
    simp only [List.getElem?_replicate, hi, if_true]

theorem C15_witness :
    (∃ t, ht_create true true 3 = some t ∧ t.num_buckets = 3 ∧ t.num_items = 0 ∧
      (t.table.length : Int) = 3 ∧ ∀ i, i < t.table.length → t.table[i]? = some none) ∧
    ht_create true true 0 = some ⟨[], 0, 0⟩ :=
  C15_create_postcondition 3 (by decide)

/-- C17: `ht_destroy`, `ht_clear`, `ht_remove` and a replacing `ht_add` free the node at
address 1 of `payload_state` but leave its two text buffers (addresses 100 and 101) allocated,
whereas `hn_destroy` of the same node frees the buffers with the node. -/
theorem C17_payload_text_not_freed :
    (∃ h1, ht_destroy 1 payload_state.heap (some payload_state.ht) = some (h1, none) ∧
      h1.nodes 1 = none ∧ h1.text 100 = true ∧ h1.text 101 = true) ∧
    (∃ h1 t1, ht_clear 1 payload_state.heap (some payload_state.ht) = some (h1, some t1) ∧
      h1.nodes 1 = none ∧ h1.text 100 = true ∧ h1.text 101 = true) ∧
    (∃ h1 t1, ht_remove 1 payload_state.heap (some payload_state.ht) 7 =
        some (true, h1, some t1) ∧
      h1.nodes 1 = none ∧ h1.text 100 = true ∧ h1.text 101 = true) ∧
    (∃ h1 t1, ht_add 2 payload_state.heap (some payload_state.ht) 7 (some 2) =
        some (true, h1, some t1) ∧
      h1.nodes 1 = none ∧ h1.text 100 = true ∧ h1.text 101 = true) ∧
    (∃ h1, hn_destroy payload_state.heap (some 1) = some (h1, none) ∧
      h1.nodes 1 = none ∧ h1.text 100 = false ∧ h1.text 101 = false) :=
  ⟨⟨_, rfl, rfl, rfl, rfl⟩, ⟨_, _, rfl, rfl, rfl, rfl⟩, ⟨_, _, rfl, rfl, rfl, rfl⟩,
    ⟨_, _, rfl, rfl, rfl, rfl⟩, ⟨_, rfl, rfl, rfl, rfl⟩⟩

theorem chain_nodes_eq {h : Heap} {l : List Ptr} :
    ∀ {prev cur : Option Ptr} {fuel : Nat}, Dll h.nodes prev cur l → l.length ≤ fuel →
      chain_nodes h fuel cur = some l := by
  induction l with
  | nil =>
    intro prev cur fuel hd _
    rw [Dll_nil.1 hd]
    cases fuel <;> rfl
  | cons x l ih =>
    intro prev cur fuel hd hf
    obtain ⟨hc, n, hn, _, hd2⟩ := Dll_cons.1 hd
    subst hc
    cases fuel with
    | zero => simp at hf
    | succ f =>
      simp only [chain_nodes, hn]
      rw [ih hd2 (show l.length ≤ f by simp at hf; omega)]
      rfl

theorem Rep.chain_nodes {s : State} {c : Nat → List Ptr} (hr : Rep s c) {fuel : Nat}
    (hf : chain_total c s.ht.table.length ≤ fuel) {i : Nat} (hi : i < s.ht.table.length) :
    ∃ head, s.ht.table[i]? = some head ∧ CHashtable.chain_nodes s.heap fuel head = some (c i) := by
  obtain ⟨head, hh, hd⟩ := hr.head i hi
  exact ⟨head, hh, chain_nodes_eq hd (le_trans (hr.length_le i) hf)⟩

/-- C11: in every reachable state `ht_clear` (with more fuel than the table has nodes) returns; afterwards every bucket
head is `NULL`, `num_items` is 0, the bucket count and the length of the bucket array are
unchanged, `ht_contains` is false for every key, and `ht_add` of any fresh node under any key
returns `true` and makes `num_items` 1.  On a table created with a size that is not positive,
`ht_clear` changes nothing and `ht_contains` stays false. -/
theorem C11_clear_empties_and_stays_usable (s : State) (hs : Reachable s) (n : Nat)
    (hn : NodeCount s n) (fuel : Nat) (hf : n < fuel) :
    (∃ h1 t1, ht_clear fuel s.heap (some s.ht) = some (h1, some t1) ∧
      (∀ i, i < t1.table.length → t1.table[i]? = some none) ∧
      t1.table.length = s.ht.table.length ∧
      t1.num_items = 0 ∧ t1.num_buckets = s.ht.num_buckets ∧
      (∀ key, ht_contains fuel h1 (some t1) key = some false) ∧
      (∀ key p, Fresh ⟨h1, t1⟩ p →
        ∃ h2 t2, ht_add fuel h1 (some t1) key (some p) = some (true, h2, some t2) ∧
          t2.num_items = 1)) ∧
    (∀ (h : Heap) (n : Int) (t : hash_table), n ≤ 0 → ht_create true true n = some t →
      ht_clear fuel h (some t) = some (h, some t) ∧
      ∀ key, ht_contains fuel h (some t) key = some false) := by
  obtain ⟨c, hr⟩ := reachable_rep hs
  have hf := hr.fuel_lt hn hf
  obtain ⟨h1, t1, e, hr1, a1, a2, _, a4, a5, _⟩ := clear_spec hr (le_of_lt hf)
  have hf1 : chain_total (fun _ => ([] : List Ptr)) (State.mk h1 t1).ht.table.length <
      fuel := by
    rw [show chain_total (fun _ => ([] : List Ptr)) (State.mk h1 t1).ht.table.length = 0 from
      sum_range_nil _]
    exact Nat.lt_of_le_of_lt (Nat.zero_le _) hf
  refine ⟨⟨h1, t1, e, fun i hi => a5 i (a4 ▸ hi), a4, a2, a1, fun key => ?_, fun key p hp => ?_⟩,
    fun h n t hn ht => ?_⟩
  · exact contains_eq hr1.nb_pos (get_absent hr1 (le_of_lt hf1) (fun q hq => by cases hq))
  · obtain ⟨h2, t2, e2, _, _, _, _, _, b7, _⟩ := add_effect hr1 hf1 key hp
    refine ⟨h2, t2, e2, ?_⟩
    rw [b7 (fun q hq => by cases hq)]
    show wrap_int (t1.num_items + 1) = 1
    rw [a2]
    rfl
  · simp only [ht_create, Bool.not_true, Bool.false_eq_true, if_false, Option.some.injEq] at ht
    subst ht
    have hn1 : ¬ (0 : Int) < n := by omega
    have hn2 : n.toNat = 0 := by omega
    refine ⟨?_, fun key => ?_⟩
    · simp only [ht_clear, hn2, ht_clear_loop]
    · simp only [ht_contains, hn1, if_false]

theorem C11_witness :
    (∃ h1 t1, ht_clear 3 demo_state2.heap (some demo_state2.ht) = some (h1, some t1) ∧
      (∀ i, i < t1.table.length → t1.table[i]? = some none) ∧
      t1.table.length = demo_state2.ht.table.length ∧
      t1.num_items = 0 ∧ t1.num_buckets = demo_state2.ht.num_buckets ∧
      (∀ key, ht_contains 3 h1 (some t1) key = some false) ∧
      (∀ key p, Fresh ⟨h1, t1⟩ p →
        ∃ h2 t2, ht_add 3 h1 (some t1) key (some p) = some (true, h2, some t2) ∧
          t2.num_items = 1)) ∧
    (∀ (h : Heap) (n : Int) (t : hash_table), n ≤ 0 → ht_create true true n = some t →
      ht_clear 3 h (some t) = some (h, some t) ∧
      ∀ key, ht_contains 3 h (some t) key = some false) :=
  C11_clear_empties_and_stays_usable demo_state2 demo_reachable2 2 demo_count2 3 (by decide)

/-- C12: in every reachable state, after `ht_add` of a fresh node under `key` the chain of the
bucket of `key` is the old chain without the nodes that carried `key`, the others in their old
order, followed by the new node as last element; the chain of every other bucket is the same
list of nodes as before. -/
theorem C12_add_appends_at_tail (s : State) (hs : Reachable s) (key : Int) (p : Ptr)
    (hp : Fresh s p) (n : Nat) (hn : NodeCount s n) (fuel : Nat) (hf : n < fuel) :
    ∃ h1 t1, ht_add fuel s.heap (some s.ht) key (some p) = some (true, h1, some t1) ∧
      ∀ i, i < s.ht.num_buckets.toNat →
        ∃ head head1 l, s.ht.table[i]? = some head ∧ t1.table[i]? = some head1 ∧
          chain_nodes s.heap fuel head = some l ∧
          chain_nodes h1 fuel head1 =
            some (if i = (calc_hash_code key s.ht.num_buckets).toNat then
              l.filter (fun q => key_of s.heap q != some key) ++ [p] else l) := by
  obtain ⟨c, hr⟩ := reachable_rep hs
  have hf := hr.fuel_lt hn hf
  obtain ⟨h1, t1, e, hr1, hlen, _⟩ := add_effect hr hf key hp
  have hle : chain_total (chains_after_add s c key p) (State.mk h1 t1).ht.table.length ≤
      fuel := hr.fuel_after_add hf key p hlen
  refine ⟨h1, t1, e, fun i hi => ?_⟩
  have hi0 : i < s.ht.table.length := by rw [hr.len_table]; exact hi
  have hi1 : i < (State.mk h1 t1).ht.table.length := by
    rw [hr1.len_table]
    obtain ⟨h2, t2, e2, _, hnb2, _⟩ := add_spec hr hf key (hr.fresh hp).1 (hr.fresh hp).2
    rw [e] at e2
    cases e2
    rw [show (State.mk h1 t1).ht.num_buckets = s.ht.num_buckets from hnb2]
    exact hi
  obtain ⟨head, hh, hc⟩ := hr.chain_nodes (le_of_lt hf) hi0
  obtain ⟨head1, hh1, hc1⟩ := hr1.chain_nodes hle hi1
  refine ⟨head, head1, c i, hh, hh1, hc, ?_⟩
  rw [show (State.mk h1 t1).heap = h1 from rfl] at hc1
  rw [hc1]
  congr 1
  unfold chains_after_add bucket
  by_cases hib : i = (calc_hash_code key s.ht.num_buckets).toNat
  · rw [if_pos hib, hib, Function.update_same]
  · rw [if_neg hib, Function.update_noteq hib]

theorem C12_witness :
    ∃ h1 t1, ht_add 3 demo_state2.heap (some demo_state2.ht) 1 (some 3) =
        some (true, h1, some t1) ∧
      ∀ i, i < demo_state2.ht.num_buckets.toNat →
        ∃ head head1 l, demo_state2.ht.table[i]? = some head ∧ t1.table[i]? = some head1 ∧
          chain_nodes demo_state2.heap 3 head = some l ∧
          chain_nodes h1 3 head1 =
            some (if i = (calc_hash_code 1 demo_state2.ht.num_buckets).toNat then
              l.filter (fun q => key_of demo_state2.heap q != some 1) ++ [3] else l) :=
  C12_add_appends_at_tail demo_state2 demo_reachable2 1 3
    (demo_fresh2 3 (by decide) (by decide) (by decide)) 2 demo_count2 3 (by decide)

/-- The links along a chain, read off the chain predicate. -/
theorem Dll_links {nodes : Ptr → Option hash_node} {l : List Ptr} :
    ∀ {prev cur : Option Ptr}, Dll nodes prev cur l →
      cur = l.head? ∧
      (∀ p, l.head? = some p → ∃ n, nodes p = some n ∧ n.prev = prev) ∧
      (∀ p, l.getLast? = some p → ∃ n, nodes p = some n ∧ n.next = none) ∧
      (∀ (j : Nat) (a b : Ptr), l[j]? = some a → l[j + 1]? = some b →
        ∃ na nb, nodes a = some na ∧ nodes b = some nb ∧
          na.next = some b ∧ nb.prev = some a) := by
  induction l with
  | nil =>
    intro prev cur h
    refine ⟨Dll_nil.1 h, fun p hp => ?_, fun p hp => ?_, fun j a b ha => ?_⟩
    · cases hp
    · cases hp
    · cases ha
  | cons x l ih =>
    intro prev cur h
    obtain ⟨hc, n, hn, hpv, hd⟩ := Dll_cons.1 h
    obtain ⟨i1, i2, i3, i4⟩ := ih hd
    refine ⟨hc, fun p hp => ?_, fun p hp => ?_, fun j a b ha hb => ?_⟩
    · simp only [List.head?_cons, Option.some.injEq] at hp
      subst hp
      exact ⟨n, hn, hpv⟩
    · cases l with
      | nil =>
        simp only [List.getLast?_singleton, Option.some.injEq] at hp
        subst hp
        exact ⟨n, hn, i1⟩
      | cons y l =>
        rw [List.getLast?_cons_cons] at hp
        exact i3 p hp
    · cases j with
      | zero =>
        simp only [List.getElem?_cons_zero, Option.some.injEq] at ha
        subst ha
        simp only [Nat.zero_add, List.getElem?_cons_succ] at hb
        have hb1 : l.head? = some b := by
          cases l with
          | nil => cases hb
          | cons y l => simpa using hb
        obtain ⟨nb, hnb, hnbp⟩ := i2 b hb1
        exact ⟨n, nb, hn, hnb, by rw [i1, hb1], hnbp⟩
      | succ j =>
        simp only [List.getElem?_cons_succ] at ha hb
        exact i4 j a b ha hb

theorem Dll_wellLinked {h : Heap} {head : Option Ptr} {l : List Ptr}
    (hd : Dll h.nodes none head l) : WellLinked h head l :=
  Dll_links hd

/-- C19: in every reachable state the chain of every bucket is well linked: the bucket head is
the first node and has no `prev`, the last node has no `next`, and consecutive nodes point at
each other.  Removing the key of a chain head that has a successor makes the successor the
bucket head, with `prev` unset; removing the key of a chain head without successor leaves the
bucket empty. -/
theorem C19_chain_links_well_formed (s : State) (hs : Reachable s) (n : Nat)
    (hn : NodeCount s n) (fuel : Nat) (hf : n < fuel) :
    (∀ (i : Nat) (head : Option Ptr), s.ht.table[i]? = some head →
      ∃ l, chain_nodes s.heap fuel head = some l ∧ WellLinked s.heap head l) ∧
    (∀ (key : Int) (p q : Ptr) (n : hash_node),
      s.ht.table[(calc_hash_code key s.ht.num_buckets).toNat]? = some (some p) →
      s.heap.nodes p = some n → n.key = key → n.next = some q →
      ∃ h1 t1, ht_remove fuel s.heap (some s.ht) key = some (true, h1, some t1) ∧
        t1.table[(calc_hash_code key s.ht.num_buckets).toNat]? = some (some q) ∧
        ∃ nq, h1.nodes q = some nq ∧ nq.prev = none) ∧
    (∀ (key : Int) (p : Ptr) (n : hash_node),
      s.ht.table[(calc_hash_code key s.ht.num_buckets).toNat]? = some (some p) →
      s.heap.nodes p = some n → n.key = key → n.next = none →
      ∃ h1 t1, ht_remove fuel s.heap (some s.ht) key = some (true, h1, some t1) ∧
        t1.table[(calc_hash_code key s.ht.num_buckets).toNat]? = some none) := by
  obtain ⟨c, hr⟩ := reachable_rep hs
  have hf := hr.fuel_lt hn hf
  have hhead : ∀ (key : Int) (p : Ptr) (n : hash_node),
      s.ht.table[(calc_hash_code key s.ht.num_buckets).toNat]? = some (some p) →
      s.heap.nodes p = some n → n.key = key →
      ∃ rest h1 t1 head1, ht_remove fuel s.heap (some s.ht) key = some (true, h1, some t1) ∧
        Dll s.heap.nodes (some p) n.next rest ∧
        t1.table[(calc_hash_code key s.ht.num_buckets).toNat]? = some head1 ∧
        Dll h1.nodes none head1 rest := by
    intro key p n hh hn hk
    have hd := hr.dll _ _ hh
    cases hc : c (calc_hash_code key s.ht.num_buckets).toNat with
    | nil =>
      rw [hc] at hd
      cases Dll_nil.1 hd
    | cons x rest =>
      rw [hc] at hd
      obtain ⟨hx, m, hm, _, hd2⟩ := Dll_cons.1 hd
      cases hx
      rw [hn] at hm
      cases hm
      have hpc : p ∈ c (bucket s key) := by
        unfold bucket
        rw [hc]
        exact List.mem_cons_self _ _
      obtain ⟨h1, t1, e, hr1, hnb, _⟩ :=
        remove_present hr (le_of_lt hf) hpc (HasKey_iff.2 ⟨n, hn, hk⟩)
      have hlt : (calc_hash_code key s.ht.num_buckets).toNat < (State.mk h1 t1).ht.table.length := by
        rw [hr1.len_table, show (State.mk h1 t1).ht.num_buckets = s.ht.num_buckets from hnb,
          ← hr.len_table]
        exact hr.bucket_lt key
      obtain ⟨head1, hh1, hd1⟩ := hr1.head _ hlt
      refine ⟨rest, h1, t1, head1, e, hd2, hh1, ?_⟩
      have : Function.update c (bucket s key) ((c (bucket s key)).erase p)
          (calc_hash_code key s.ht.num_buckets).toNat = rest := by
        unfold bucket
        rw [Function.update_same, hc, List.erase_cons_head]
      rw [this] at hd1
      exact hd1
  refine ⟨fun i head hh => ?_, fun key p q n hh hn hk hnx => ?_, fun key p n hh hn hk hnx => ?_⟩
  · have hi : i < s.ht.table.length := (List.getElem?_eq_some.1 hh).1
    exact ⟨c i, chain_nodes_eq (hr.dll i head hh) (le_trans (hr.length_le i) (le_of_lt hf)),
      Dll_wellLinked (hr.dll i head hh)⟩
  · obtain ⟨rest, h1, t1, head1, e, hd2, hh1, hd1⟩ := hhead key p n hh hn hk
    rw [hnx] at hd2
    cases rest with
    | nil => cases Dll_nil.1 hd2
    | cons y rest =>
      obtain ⟨hy, _⟩ := Dll_cons.1 hd2
      cases hy
      obtain ⟨hc1, nq, hnq, hpv, _⟩ := Dll_cons.1 hd1
      subst hc1
      exact ⟨h1, t1, e, hh1, nq, hnq, hpv⟩
  · obtain ⟨rest, h1, t1, head1, e, hd2, hh1, hd1⟩ := hhead key p n hh hn hk
    rw [hnx] at hd2
    have hrest : rest = [] := Dll_head_none hd2
    subst hrest
    rw [Dll_nil.1 hd1] at hh1
    exact ⟨h1, t1, e, hh1⟩

theorem C19_witness :
    (∀ (i : Nat) (head : Option Ptr), demo_state2.ht.table[i]? = some head →
      ∃ l, chain_nodes demo_state2.heap 3 head = some l ∧
        WellLinked demo_state2.heap head l) ∧
    (∀ (key : Int) (p q : Ptr) (n : hash_node),
      demo_state2.ht.table[(calc_hash_code key demo_state2.ht.num_buckets).toNat]? =
        some (some p) →
      demo_state2.heap.nodes p = some n → n.key = key → n.next = some q →
      ∃ h1 t1, ht_remove 3 demo_state2.heap (some demo_state2.ht) key =
          some (true, h1, some t1) ∧
        t1.table[(calc_hash_code key demo_state2.ht.num_buckets).toNat]? = some (some q) ∧
        ∃ nq, h1.nodes q = some nq ∧ nq.prev = none) ∧
    (∀ (key : Int) (p : Ptr) (n : hash_node),
      demo_state2.ht.table[(calc_hash_code key demo_state2.ht.num_buckets).toNat]? =
        some (some p) →
      demo_state2.heap.nodes p = some n → n.key = key → n.next = none →
      ∃ h1 t1, ht_remove 3 demo_state2.heap (some demo_state2.ht) key =
          some (true, h1, some t1) ∧
        t1.table[(calc_hash_code key demo_state2.ht.num_buckets).toNat]? = some none) :=
  C19_chain_links_well_formed demo_state2 demo_reachable2 2 demo_count2 3 (by decide)

/-! ## The splice primitives -/

theorem insert_after_spliced (h : Heap) (p q : Ptr) (n m : hash_node) (hpq : p ≠ q)
    (hn : h.nodes p = some n) (hm : h.nodes q = some m)
    (hsucc : ∀ r, n.next = some r → r ≠ p ∧ r ≠ q ∧ ∃ nr, h.nodes r = some nr) :
    ∃ h1, hn_insert_after h (some p) (some q) = some h1 ∧ h1.text = h.text ∧
      h1.nodes p = some { n with next := some q } ∧
      h1.nodes q = some { m with next := n.next, prev := some p } ∧
      (∀ r nr, n.next = some r → h.nodes r = some nr →
        h1.nodes r = some { nr with prev := some q }) ∧
      (∀ x, x ≠ p → x ≠ q → some x ≠ n.next → h1.nodes x = h.nodes x) := by
  have hqp : q ≠ p := fun e => hpq e.symm
  cases hnx : n.next with
  | none =>
    refine ⟨{ h with nodes := fun x => if x = p then some { n with next := some q } else
        if x = q then some { m with next := none, prev := some p } else h.nodes x },
      ?_, rfl, ?_, ?_, ?_, ?_⟩
    · simp only [hn_insert_after, hn, hm, Heap.write, Option.bind_eq_bind, Option.some_bind, hpq,
        if_false, hnx, Option.pure_def, if_true, Option.some.injEq]
    · simp
    · simp [hqp]
    · intro r nr hr; cases hr
    · intro x h1 h2 _
      simp [h1, h2]
  | some r =>
    obtain ⟨hrp, hrq, nr, hnr⟩ := hsucc r hnx
    have hpr : p ≠ r := fun e => hrp e.symm
    refine ⟨{ h with nodes := fun x => if x = p then some { n with next := some q } else
        if x = r then some { nr with prev := some q } else
        if x = q then some { m with next := some r, prev := some p } else h.nodes x },
      ?_, rfl, ?_, ?_, ?_, ?_⟩
    · simp [hn_insert_after, hn, hm, Heap.write, hpq, hnx, hrq, hnr, hpr]
    · simp
    · simp [hqp, Ne.symm hrq]
    · intro r1 nr1 hr1 hnr1
      cases hr1
      rw [hnr] at hnr1
      cases hnr1
      simp [hrp]
    · intro x h1 h2 h3
      have h4 : x ≠ r := fun e => h3 (by rw [e])
      simp [h1, h2, h4]

theorem insert_before_spliced (h : Heap) (p q : Ptr) (n m : hash_node) (hpq : p ≠ q)
    (hn : h.nodes p = some n) (hm : h.nodes q = some m)
    (hpred : ∀ r, n.prev = some r → r ≠ p ∧ r ≠ q ∧ ∃ nr, h.nodes r = some nr) :
    ∃ h1, hn_insert_before h (some p) (some q) = some h1 ∧ h1.text = h.text ∧
      h1.nodes p = some { n with prev := some q } ∧
      h1.nodes q = some { m with prev := n.prev, next := some p } ∧
      (∀ r nr, n.prev = some r → h.nodes r = some nr →
        h1.nodes r = some { nr with next := some q }) ∧
      (∀ x, x ≠ p → x ≠ q → some x ≠ n.prev → h1.nodes x = h.nodes x) := by
  have hqp : q ≠ p := fun e => hpq e.symm
  cases hnx : n.prev with
  | none =>
    refine ⟨{ h with nodes := fun x => if x = p then some { n with prev := some q } else
        if x = q then some { m with prev := none, next := some p } else h.nodes x },
      ?_, rfl, ?_, ?_, ?_, ?_⟩
    · simp only [hn_insert_before, hn, hm, Heap.write, Option.bind_eq_bind, Option.some_bind,
        hpq, if_false, hnx, Option.pure_def, if_true, Option.some.injEq]
    · simp
    · simp [hqp]
    · intro r nr hr; cases hr
    · intro x h1 h2 _
      simp [h1, h2]
  | some r =>
    obtain ⟨hrp, hrq, nr, hnr⟩ := hpred r hnx
    have hpr : p ≠ r := fun e => hrp e.symm
    refine ⟨{ h with nodes := fun x => if x = p then some { n with prev := some q } else
        if x = r then some { nr with next := some q } else
        if x = q then some { m with prev := some r, next := some p } else h.nodes x },
      ?_, rfl, ?_, ?_, ?_, ?_⟩
    · simp [hn_insert_before, hn, hm, Heap.write, hpq, hnx, hrq, hnr, hpr]
    · simp
    · simp [hqp, Ne.symm hrq]
    · intro r1 nr1 hr1 hnr1
      cases hr1
      rw [hnr] at hnr1
      cases hnr1
      simp [hrp]
    · intro x h1 h2 h3
      have h4 : x ≠ r := fun e => h3 (by rw [e])
      simp [h1, h2, h4]

/-- C20, as amended: for live, distinct `node` and `new_node`, when the old successor of `node`
(if any) is a live node other than `node` and `new_node`, `hn_insert_after` returns and has
spliced `new_node` in right after `node`, touching no other link; under the mirrored condition
on the old predecessor `hn_insert_before` splices `new_node` in right before `node`; with a
null argument either function leaves the heap as it is. -/
theorem C20_insert_after_splices (h : Heap) (p q : Ptr) (n m : hash_node) (hpq : p ≠ q)
    (hn : h.nodes p = some n) (hm : h.nodes q = some m) :
    ((∀ r, n.next = some r → r ≠ p ∧ r ≠ q ∧ ∃ nr, h.nodes r = some nr) →
      ∃ h1, hn_insert_after h (some p) (some q) = some h1 ∧ SplicedAfter h h1 p q) ∧
    ((∀ r, n.prev = some r → r ≠ p ∧ r ≠ q ∧ ∃ nr, h.nodes r = some nr) →
      ∃ h1, hn_insert_before h (some p) (some q) = some h1 ∧ SplicedBefore h h1 p q) ∧
    (∀ x, hn_insert_after h none x = some h ∧ hn_insert_after h x none = some h ∧
      hn_insert_before h none x = some h ∧ hn_insert_before h x none = some h) := by
  refine ⟨fun hs => ?_, fun hs => ?_, fun x => ?_⟩
  · obtain ⟨h1, e, _, a1, a2, a3, a4⟩ := insert_after_spliced h p q n m hpq hn hm hs
    refine ⟨h1, e, n, m, _, _, hn, hm, a1, a2, rfl, rfl, rfl, rfl, fun r nr hr hnr => ?_, a4⟩
    exact ⟨_, a3 r nr hr hnr, rfl, rfl⟩
  · obtain ⟨h1, e, _, a1, a2, a3, a4⟩ := insert_before_spliced h p q n m hpq hn hm hs
    refine ⟨h1, e, n, m, _, _, hn, hm, a1, a2, rfl, rfl, rfl, rfl, fun r nr hr hnr => ?_, a4⟩
    exact ⟨_, a3 r nr hr hnr, rfl, rfl⟩
  · cases x <;> exact ⟨rfl, rfl, rfl, rfl⟩

theorem C20_witness :
    (∃ h1, hn_insert_after demo_state2.heap (some 1) (some 3) = some h1 ∧
      SplicedAfter demo_state2.heap h1 1 3) ∧
    (∃ h1, hn_insert_before demo_state2.heap (some 2) (some 3) = some h1 ∧
      SplicedBefore demo_state2.heap h1 2 3) :=
  ⟨(C20_insert_after_splices demo_state2.heap 1 3
      ⟨1, 0, none, none, none, none, none, none, some 2⟩
      ⟨103, 0, none, none, none, none, none, none, none⟩ (by decide) rfl rfl).1
      (fun r hr => by cases hr; exact ⟨by decide, by decide, _, rfl⟩),
    (C20_insert_after_splices demo_state2.heap 2 3
      ⟨6, 0, none, none, none, none, none, some 1, none⟩
      ⟨103, 0, none, none, none, none, none, none, none⟩ (by decide) rfl rfl).2.1
      (fun r hr => by cases hr; exact ⟨by decide, by decide, _, rfl⟩)⟩

/-- C20 as stated fails: when `new_node` already is the successor of `node`, `new_node` ends up
as its own predecessor, not with `node` as predecessor; when `node` is its own successor, its
`prev` link is changed; and likewise for `hn_insert_before` with `prev` and `next`
exchanged. -/
theorem C20_counterexample :
    (∃ h1, hn_insert_after splice_heap (some 1) (some 2) = some h1 ∧
      (∃ m1, h1.nodes 2 = some m1 ∧ m1.prev = some 2) ∧ ¬ SplicedAfter splice_heap h1 1 2) ∧
    (∃ h1, hn_insert_after splice_heap (some 3) (some 2) = some h1 ∧
      (∃ n1, h1.nodes 3 = some n1 ∧ n1.prev = some 2) ∧ ¬ SplicedAfter splice_heap h1 3 2) ∧
    (∃ h1, hn_insert_before splice_heap (some 5) (some 2) = some h1 ∧
      (∃ m1, h1.nodes 2 = some m1 ∧ m1.next = some 2) ∧ ¬ SplicedBefore splice_heap h1 5 2) ∧
    (∃ h1, hn_insert_before splice_heap (some 4) (some 2) = some h1 ∧
      (∃ n1, h1.nodes 4 = some n1 ∧ n1.next = some 2) ∧
      ¬ SplicedBefore splice_heap h1 4 2) := by
  refine ⟨⟨_, rfl, ⟨_, rfl, rfl⟩, ?_⟩, ⟨_, rfl, ⟨_, rfl, rfl⟩, ?_⟩, ⟨_, rfl, ⟨_, rfl, rfl⟩, ?_⟩,
    ⟨_, rfl, ⟨_, rfl, rfl⟩, ?_⟩⟩
  · rintro ⟨n, m, n1, m1, _, _, _, e4, _, b2, _⟩
    cases e4
    cases b2
  · rintro ⟨n, m, n1, m1, e1, _, e3, _, _, _, _, b4, _⟩
    cases e1
    cases e3
    cases b4
  · rintro ⟨n, m, n1, m1, _, _, _, e4, _, b2, _⟩
    cases e4
    cases b2
  · rintro ⟨n, m, n1, m1, e1, _, e3, _, _, _, _, b4, _⟩
    cases e1
    cases e3
    cases b4

/-! ## The reference map -/

theorem ref_lookup_erase (m : RefMap) (k k1 : Int) :
    ref_lookup (ref_erase m k) k1 = if k = k1 then none else ref_lookup m k1 := by
  induction m with
  | nil => simp [ref_erase, ref_lookup]
  | cons e m ih =>
    obtain ⟨a, p⟩ := e
    unfold ref_erase at ih ⊢
    by_cases hak : a = k
    · subst hak
      have : ((a, p).1 != a) = false := by simp
      rw [List.filter_cons_of_neg (by simp), ih]
      by_cases h1 : a = k1
      · simp [h1]
      · simp [h1, ref_lookup]
    · have : (a != k) = true := by simpa using hak
      simp only [List.filter_cons, this, if_true]
      simp only [ref_lookup, ih]
      by_cases h1 : a = k1
      · have : ¬ k = k1 := fun e => hak (h1.trans e.symm)
        simp [h1, this]
      · simp [h1]

theorem ref_lookup_insert (m : RefMap) (k k1 : Int) (p : Ptr) :
    ref_lookup (ref_insert m k p) k1 = if k = k1 then some p else ref_lookup m k1 := by
  unfold ref_insert
  simp only [ref_lookup, ref_lookup_erase]
  by_cases h : k = k1 <;> simp [h]

theorem ref_erase_keys (m : RefMap) (k : Int) :
    (ref_erase m k).map Prod.fst = (m.map Prod.fst).filter fun a => a != k := by
  unfold ref_erase
  rw [List.filter_map]
  rfl

theorem ref_lookup_none_iff (m : RefMap) (k : Int) :
    ref_lookup m k = none ↔ k ∉ m.map Prod.fst := by
  induction m with
  | nil => simp [ref_lookup]
  | cons e m ih =>
    obtain ⟨a, p⟩ := e
    simp only [ref_lookup, List.map_cons, List.mem_cons, not_or]
    by_cases h : a = k
    · simp [h]
    · simp only [h, if_false, ih]
      constructor
      · intro h1
        exact ⟨fun e => h e.symm, h1⟩
      · intro h1
        exact h1.2

theorem ref_erase_nodup {m : RefMap} (hm : (m.map Prod.fst).Nodup) (k : Int) :
    ((ref_erase m k).map Prod.fst).Nodup := by
  rw [ref_erase_keys]
  exact hm.filter _

theorem ref_insert_nodup {m : RefMap} (hm : (m.map Prod.fst).Nodup) (k : Int) (p : Ptr) :
    ((ref_insert m k p).map Prod.fst).Nodup := by
  unfold ref_insert
  rw [List.map_cons, List.nodup_cons]
  refine ⟨?_, ref_erase_nodup hm k⟩
  rw [ref_erase_keys, List.mem_filter]
  simp

theorem ref_size_erase {m : RefMap} (hm : (m.map Prod.fst).Nodup) (k : Int) :
    ref_size (ref_erase m k) + (if (ref_lookup m k).isSome then 1 else 0) = ref_size m := by
  induction m with
  | nil => simp [ref_erase, ref_lookup, ref_size]
  | cons e m ih =>
    obtain ⟨a, p⟩ := e
    rw [List.map_cons, List.nodup_cons] at hm
    have ih1 := ih hm.2
    unfold ref_erase ref_size at ih1 ⊢
    by_cases hak : a = k
    · subst hak
      rw [List.filter_cons_of_neg (by simp)]
      have hnone : ref_lookup m a = none := (ref_lookup_none_iff m a).2 hm.1
      rw [hnone] at ih1
      simp only [ref_lookup, if_true, Option.isSome_some, List.length_cons]
      simp only [Option.isSome_none, Bool.false_eq_true, if_false] at ih1
      omega
    · have : (a != k) = true := by simpa using hak
      simp only [List.filter_cons, this, if_true]
      simp only [ref_lookup, hak, if_false, List.length_cons]
      omega

theorem ref_size_insert {m : RefMap} (hm : (m.map Prod.fst).Nodup) (k : Int) (p : Ptr) :
    ref_size (ref_insert m k p) + (if (ref_lookup m k).isSome then 1 else 0) =
      ref_size m + 1 := by
  have := ref_size_erase hm k
  unfold ref_insert ref_size at *
  simp only [List.length_cons]
  omega

/-! ## The table refines the reference map -/

theorem fresh_after_remove {s : State} {c : Nat → List Ptr} (hr : Rep s c) {fuel : Nat}
    (hf : chain_total c s.ht.table.length ≤ fuel) {key : Int} {q : Ptr} {r : Bool} {h1 : Heap}
    {t1 : hash_table} (hq : Fresh s q)
    (e : ht_remove fuel s.heap (some s.ht) key = some (r, h1, some t1)) :
    Fresh ⟨h1, t1⟩ q := by
  obtain ⟨hlq, hqc⟩ := hr.fresh hq
  obtain ⟨r2, h2, t2, e2, hr2, _, _, _, a5, _⟩ := remove_spec hr hf key
  rw [e] at e2
  cases e2
  refine ⟨?_, fun hlk => ?_⟩
  · show ∃ n, h1.nodes q = some n
    rw [a5 q hqc]
    exact hlq
  · obtain ⟨i, hi⟩ := (hr2.linked_iff q).1 hlk
    exact hqc i ((mem_chains_after_remove hr).1 hi).1

theorem fresh_after_clear {s : State} {c : Nat → List Ptr} (hr : Rep s c) {fuel : Nat}
    (hf : chain_total c s.ht.table.length ≤ fuel) {q : Ptr} {h1 : Heap} {t1 : hash_table}
    (hq : Fresh s q) (e : ht_clear fuel s.heap (some s.ht) = some (h1, some t1)) :
    Fresh ⟨h1, t1⟩ q := by
  obtain ⟨hlq, hqc⟩ := hr.fresh hq
  obtain ⟨h2, t2, e2, hr2, _, _, _, _, _, _, a9⟩ := clear_spec hr hf
  rw [e] at e2
  cases e2
  refine ⟨?_, fun hlk => ?_⟩
  · show ∃ n, h1.nodes q = some n
    rw [a9 q hqc]
    exact hlq
  · obtain ⟨i, hi⟩ := (hr2.linked_iff q).1 hlk
    cases hi

/-- Simulation: when the table of `s` holds the map `m` (every lookup agrees and the number of
linked nodes is the size), running a sequence of operations on `s` ends in a table that holds
the map obtained by replaying the sequence on `m`; the counter is the size of that map wrapped
into the `int` range. -/
theorem sim_run (fuel : Nat) :
    ∀ (ops : List TableOp) (s : State) (m : RefMap) (c : Nat → List Ptr), Reachable s →
      Rep s c →
      (∀ k, ht_get_node fuel s.heap (some s.ht) k = some (ref_lookup m k)) →
      chain_total c s.ht.table.length = ref_size m → (m.map Prod.fst).Nodup →
      (added_nodes ops).Nodup → (∀ p ∈ added_nodes ops, Fresh s p) →
      ref_size m + ops.length < fuel →
      ∃ s1, run_ops fuel s ops = some s1 ∧ Reachable s1 ∧
        (∀ k, ht_get_node fuel s1.heap (some s1.ht) k = some (ref_lookup (ref_run m ops) k)) ∧
        NodeCount s1 (ref_size (ref_run m ops)) ∧
        s1.ht.num_items = wrap_int (ref_size (ref_run m ops) : Nat) := by
  intro ops
  induction ops with
  | nil =>
    intro s m c hs hr hg hsz _ _ _ _
    refine ⟨s, rfl, hs, hg, ?_, ?_⟩
    · show NodeCount s (ref_size m)
      rw [← hsz]
      exact hr.nodeCount
    · show s.ht.num_items = wrap_int (ref_size m : Nat)
      rw [← hsz]
      exact hr.count
  | cons op ops ih =>
    intro s m c hs hr hg hsz hm hnd hfr hf
    simp only [List.length_cons] at hf
    have hf0 : chain_total c s.ht.table.length < fuel := by omega
    cases op with
    | add key p =>
      have hp : Fresh s p := hfr p (List.mem_cons_self _ _)
      have hnd1 : (p :: added_nodes ops).Nodup := hnd
      obtain ⟨h1, t1, e, hr1, hlen, _, hget, hfrm, _, _⟩ := add_effect hr hf0 key hp
      have hs1 : Reachable ⟨h1, t1⟩ := Reachable.add s fuel key p true h1 t1 hs hp e
      have hcount : chain_total (chains_after_add s c key p) s.ht.table.length +
          (if (ref_lookup m key).isSome then 1 else 0) =
          chain_total c s.ht.table.length + 1 := by
        rcases hr.key_cases key with ⟨old, hold, hk⟩ | habs
        · have := get_found hr (le_of_lt hf0) hold hk
          rw [hg key] at this
          rw [(hr.total_after_add key p).2 old hold hk, (Option.some.inj this)]
          simp
        · have := get_absent hr (le_of_lt hf0) habs
          rw [hg key] at this
          have hnone : ref_lookup m key = none := by
            cases hl : ref_lookup m key with
            | none => rfl
            | some x => rw [hl] at this; cases this
          rw [(hr.total_after_add key p).1 habs, hnone]
          simp
      have hsz1 : chain_total (chains_after_add s c key p) (State.mk h1 t1).ht.table.length =
          ref_size (ref_insert m key p) := by
        rw [show (State.mk h1 t1).ht.table.length = s.ht.table.length from hlen]
        have h2 := ref_size_insert hm key p
        cases hb : (ref_lookup m key).isSome <;>
          simp only [hb, if_true, if_false, Bool.false_eq_true] at hcount h2 <;> omega
      obtain ⟨s1, e1, hs2, hg1, hsz2⟩ := ih ⟨h1, t1⟩ (ref_insert m key p) _ hs1 hr1
        (fun k => by
          show ht_get_node fuel h1 (some t1) k = _
          rw [ref_lookup_insert]
          by_cases hk : key = k
          · subst hk
            rw [if_pos rfl]
            exact hget
          · rw [if_neg hk, hfrm k (Ne.symm hk)]
            exact hg k)
        hsz1 (ref_insert_nodup hm key p) (List.nodup_cons.1 hnd1).2
        (fun q hq => fresh_after_add hs hp (hfr q (List.mem_cons_of_mem _ hq))
          (fun e1 => (List.nodup_cons.1 hnd1).1 (e1 ▸ hq)) e)
        (by
          have h2 := ref_size_insert hm key p
          cases hb : (ref_lookup m key).isSome <;>
            simp only [hb, if_true, if_false, Bool.false_eq_true] at h2 <;> omega)
      refine ⟨s1, ?_, hs2, hg1, hsz2⟩
      simp only [run_ops, apply_op, e]
      exact e1
    | remove key =>
      obtain ⟨r, h1, t1, e, hr1, hlen, hget, hfrm, _, _⟩ :=
        remove_effect hr (le_of_lt hf0) key
      have hs1 : Reachable ⟨h1, t1⟩ := Reachable.remove s fuel key r h1 t1 hs e
      have hcount : chain_total (chains_after_remove s c key) s.ht.table.length +
          (if (ref_lookup m key).isSome then 1 else 0) =
          chain_total c s.ht.table.length := by
        rcases hr.key_cases key with ⟨old, hold, hk⟩ | habs
        · have := get_found hr (le_of_lt hf0) hold hk
          rw [hg key] at this
          rw [← (hr.total_after_remove key).2 old hold hk, (Option.some.inj this)]
          simp
        · have := get_absent hr (le_of_lt hf0) habs
          rw [hg key] at this
          have hnone : ref_lookup m key = none := by
            cases hl : ref_lookup m key with
            | none => rfl
            | some x => rw [hl] at this; cases this
          rw [(hr.total_after_remove key).1 habs, hnone]
          simp
      have hsz1 : chain_total (chains_after_remove s c key) (State.mk h1 t1).ht.table.length =
          ref_size (ref_erase m key) := by
        rw [show (State.mk h1 t1).ht.table.length = s.ht.table.length from hlen]
        have h2 := ref_size_erase hm key
        cases hb : (ref_lookup m key).isSome <;>
          simp only [hb, if_true, if_false, Bool.false_eq_true] at hcount h2 <;> omega
      obtain ⟨s1, e1, hs2, hg1, hsz2⟩ := ih ⟨h1, t1⟩ (ref_erase m key) _ hs1 hr1
        (fun k => by
          show ht_get_node fuel h1 (some t1) k = _
          rw [ref_lookup_erase]
          by_cases hk : key = k
          · subst hk
            rw [if_pos rfl]
            exact hget
          · rw [if_neg hk, hfrm k (Ne.symm hk)]
            exact hg k)
        hsz1 (ref_erase_nodup hm key) hnd
        (fun q hq => fresh_after_remove hr (le_of_lt hf0) (hfr q hq) e)
        (by
          have h2 := ref_size_erase hm key
          cases hb : (ref_lookup m key).isSome <;>
            simp only [hb, if_true, if_false, Bool.false_eq_true] at h2 <;> omega)
      refine ⟨s1, ?_, hs2, hg1, hsz2⟩
      simp only [run_ops, apply_op, e]
      exact e1
    | clear =>
      obtain ⟨h1, t1, e, hr1, _, a2, _⟩ := clear_spec hr (le_of_lt hf0)
      have hs1 : Reachable ⟨h1, t1⟩ := Reachable.clear s fuel h1 t1 hs e
      have hz0 : chain_total (fun _ => ([] : List Ptr)) (State.mk h1 t1).ht.table.length =
          0 := sum_range_nil _
      have hz : chain_total (fun _ => ([] : List Ptr)) (State.mk h1 t1).ht.table.length ≤
          fuel := by
        rw [hz0]
        exact Nat.zero_le _
      obtain ⟨s1, e1, hs2, hg1, hsz2⟩ := ih ⟨h1, t1⟩ [] _ hs1 hr1
        (fun k => get_absent hr1 hz (fun q hq => by cases hq))
        hz0 List.nodup_nil hnd
        (fun q hq => fresh_after_clear hr (le_of_lt hf0) (hfr q hq) e)
        (by
          show 0 + ops.length < fuel
          omega)
      refine ⟨s1, ?_, hs2, hg1, hsz2⟩
      simp only [run_ops, apply_op, e]
      exact e1

/-! ## A table with `2^31` nodes -/

theorem added_nodes_map_add (l : List Nat) :
    added_nodes (l.map fun (p : Nat) => TableOp.add (p : Int) p) = l := by
  induction l with
  | nil => rfl
  | cons a l ih => simp only [List.map_cons, added_nodes, ih]

theorem ref_run_append (l1 l2 : List TableOp) :
    ∀ m : RefMap, ref_run m (l1 ++ l2) = ref_run (ref_run m l1) l2 := by
  induction l1 with
  | nil => intro m; rfl
  | cons op l1 ih =>
    intro m
    exact ih (ref_apply m op)

theorem add_range_succ (k : Nat) :
    add_range (k + 1) = add_range k ++ [TableOp.add (k : Int) k] := by
  simp only [add_range, List.range_succ, List.map_append, List.map_cons, List.map_nil]

/-- The reference map after `add_range k` has the `k` entries `(0, 0)`, ..., `(k - 1, k - 1)`. -/
theorem ref_run_add_range (k : Nat) :
    ((ref_run [] (add_range k)).map Prod.fst).Nodup ∧
    ref_size (ref_run [] (add_range k)) = k ∧
    ∀ j : Int, ref_lookup (ref_run [] (add_range k)) j =
      if 0 ≤ j ∧ j < (k : Int) then some j.toNat else none := by
  induction k with
  | zero =>
    refine ⟨List.nodup_nil, rfl, fun j => ?_⟩
    have : ¬ (0 ≤ j ∧ j < ((0 : Nat) : Int)) := by omega
    rw [if_neg this]
    rfl
  | succ k ih =>
    obtain ⟨h1, h2, h3⟩ := ih
    have e : ref_run [] (add_range (k + 1)) =
        ref_insert (ref_run [] (add_range k)) (k : Int) k := by
      rw [add_range_succ, ref_run_append]
      rfl
    have hnone : ref_lookup (ref_run [] (add_range k)) (k : Int) = none := by
      rw [h3]
      have : ¬ (0 ≤ (k : Int) ∧ (k : Int) < (k : Int)) := by omega
      rw [if_neg this]
    rw [e]
    refine ⟨ref_insert_nodup h1 _ _, ?_, fun j => ?_⟩
    · have := ref_size_insert h1 (k : Int) k
      rw [hnone] at this
      simp only [Option.isSome_none, Bool.false_eq_true, if_false] at this
      omega
    · rw [ref_lookup_insert, h3]
      by_cases hkj : (k : Int) = j
      · subst hkj
        have : 0 ≤ (k : Int) ∧ (k : Int) < ((k + 1 : Nat) : Int) := by omega
        rw [if_pos rfl, if_pos this, Int.toNat_ofNat]
      · rw [if_neg hkj]
        by_cases hj : 0 ≤ j ∧ j < (k : Int)
        · have : 0 ≤ j ∧ j < ((k + 1 : Nat) : Int) := by omega
          rw [if_pos hj, if_pos this]
        · have : ¬ (0 ≤ j ∧ j < ((k + 1 : Nat) : Int)) := by omega
          rw [if_neg hj, if_neg this]

/-- Running `add_range k` on a fresh table next to `full_heap`: the run returns a reachable
state whose chains hold `k` nodes, whose counter is `k` wrapped into the `int` range, and in
which key 0 is found when `k > 0`. -/
theorem add_range_run (k fuel : Nat) (hf : k < fuel) (n : Int) (hn : 0 < n) (t0 : hash_table)
    (ht0 : ht_create true true n = some t0) :
    ∃ s, run_ops fuel ⟨full_heap, t0⟩ (add_range k) = some s ∧ Reachable s ∧
      NodeCount s k ∧ s.ht.num_items = wrap_int ((k : Nat) : Int) ∧
      (0 < k → ht_get_node fuel s.heap (some s.ht) 0 = some (some 0)) := by
  have hr0 := create_rep full_heap n t0 hn ht0
  have hs0 : Reachable ⟨full_heap, t0⟩ := Reachable.create full_heap n t0 hn ht0
  have hz0 : chain_total (fun _ => ([] : List Ptr)) (State.mk full_heap t0).ht.table.length =
      0 := sum_range_nil _
  obtain ⟨h1, h2, h3⟩ := ref_run_add_range k
  have hlen : (add_range k).length = k := by
    simp only [add_range, List.length_map, List.length_range]
  obtain ⟨s, e, hs, hg, hcnt, hsz⟩ := sim_run fuel (add_range k) ⟨full_heap, t0⟩ [] _ hs0 hr0
    (fun key => get_absent hr0 (by rw [hz0]; exact Nat.zero_le _) (fun q hq => by cases hq))
    hz0 List.nodup_nil
    (by
      show (added_nodes (add_range k)).Nodup
      unfold add_range
      rw [added_nodes_map_add]
      exact List.nodup_range k)
    (fun p _ => ⟨⟨_, rfl⟩, fun hl => by
      obtain ⟨i, hi⟩ := (hr0.linked_iff p).1 hl
      cases hi⟩)
    (by
      show 0 + (add_range k).length < fuel
      rw [hlen]
      omega)
  rw [h2] at hcnt hsz
  refine ⟨s, e, hs, hcnt, hsz, fun hk => ?_⟩
  rw [hg 0, h3 0]
  have : (0 : Int) ≤ 0 ∧ (0 : Int) < (k : Int) := by omega
  rw [if_pos this]
  rfl

/-- C18, as amended: run any sequence of `ht_add`, `ht_remove` and `ht_clear` calls on
`ht_create(n)`, `n > 0`, the added nodes being pairwise distinct, live and unlinked at the
start.  With more fuel than the sequence is long the run returns a state in which
`ht_get_node` of every key is the lookup of the key in the reference map obtained by replaying
the sequence as insert-or-overwrite, erase and empty, `ht_contains` is true exactly when that
lookup succeeds, and the bucket chains hold as many nodes as the reference map has entries;
`num_items` is the size of the reference map as long as that size is at most `INT_MAX`, and in
general the size wrapped into the `int` range. -/
theorem C18_table_refines_finite_map (n : Int) (hn : 0 < n) (h0 : Heap) (t0 : hash_table)
    (ht0 : ht_create true true n = some t0) (ops : List TableOp)
    (hnd : (added_nodes ops).Nodup)
    (hlive : ∀ p ∈ added_nodes ops, ∃ nd, h0.nodes p = some nd)
    (fuel : Nat) (hf : ops.length < fuel) :
    ∃ s, run_ops fuel ⟨h0, t0⟩ ops = some s ∧
      (∀ k, ht_get_node fuel s.heap (some s.ht) k = some (ref_lookup (ref_run [] ops) k)) ∧
      (∀ k, ht_contains fuel s.heap (some s.ht) k =
        some (ref_lookup (ref_run [] ops) k).isSome) ∧
      NodeCount s (ref_size (ref_run [] ops)) ∧
      s.ht.num_items = wrap_int ((ref_size (ref_run [] ops) : Nat) : Int) ∧
      (((ref_size (ref_run [] ops) : Nat) : Int) ≤ INT_MAX →
        s.ht.num_items = ((ref_size (ref_run [] ops) : Nat) : Int)) := by
  have hr0 := create_rep h0 n t0 hn ht0
  have hs0 : Reachable ⟨h0, t0⟩ := Reachable.create h0 n t0 hn ht0
  have hz0 : chain_total (fun _ => ([] : List Ptr)) (State.mk h0 t0).ht.table.length = 0 :=
    sum_range_nil _
  obtain ⟨s, e, hs, hg, hcnt, hsz⟩ := sim_run fuel ops ⟨h0, t0⟩ [] _ hs0 hr0
    (fun k => get_absent hr0 (by rw [hz0]; exact Nat.zero_le _) (fun q hq => by cases hq))
    hz0 List.nodup_nil hnd
    (fun p hp => ⟨hlive p hp, fun hl => by
      obtain ⟨i, hi⟩ := (hr0.linked_iff p).1 hl
      cases hi⟩)
    (by
      show 0 + ops.length < fuel
      omega)
  obtain ⟨c, hr⟩ := reachable_rep hs
  refine ⟨s, e, hg, fun k => contains_eq hr.nb_pos (hg k), hcnt, hsz, fun hle => ?_⟩
  rw [hsz]
  refine wrap_int_of_range ?_ hle
  simp only [INT_MIN]
  omega

theorem C18_witness :
    ∃ s, run_ops 6 ⟨demo_heap, demo_table⟩
        [TableOp.add 1 1, TableOp.add 6 2, TableOp.add 1 3, TableOp.remove 6,
          TableOp.add 11 4] = some s ∧
      (∀ k, ht_get_node 6 s.heap (some s.ht) k =
        some (ref_lookup (ref_run [] [TableOp.add 1 1, TableOp.add 6 2, TableOp.add 1 3,
          TableOp.remove 6, TableOp.add 11 4]) k)) ∧
      (∀ k, ht_contains 6 s.heap (some s.ht) k =
        some (ref_lookup (ref_run [] [TableOp.add 1 1, TableOp.add 6 2, TableOp.add 1 3,
          TableOp.remove 6, TableOp.add 11 4]) k).isSome) ∧
      NodeCount s (ref_size (ref_run [] [TableOp.add 1 1, TableOp.add 6 2,
        TableOp.add 1 3, TableOp.remove 6, TableOp.add 11 4])) ∧
      s.ht.num_items = wrap_int ((ref_size (ref_run [] [TableOp.add 1 1, TableOp.add 6 2,
        TableOp.add 1 3, TableOp.remove 6, TableOp.add 11 4]) : Nat) : Int) ∧
      (((ref_size (ref_run [] [TableOp.add 1 1, TableOp.add 6 2,
        TableOp.add 1 3, TableOp.remove 6, TableOp.add 11 4]) : Nat) : Int) ≤ INT_MAX →
        s.ht.num_items = ((ref_size (ref_run [] [TableOp.add 1 1, TableOp.add 6 2,
          TableOp.add 1 3, TableOp.remove 6, TableOp.add 11 4]) : Nat) : Int)) :=
  C18_table_refines_finite_map 5 (by decide) demo_heap demo_table rfl
    [TableOp.add 1 1, TableOp.add 6 2, TableOp.add 1 3, TableOp.remove 6, TableOp.add 11 4]
    (by decide)
    (fun p hp => by
      have : p = 1 ∨ p = 2 ∨ p = 3 ∨ p = 4 := by simpa [added_nodes] using hp
      rcases this with rfl | rfl | rfl | rfl <;> exact ⟨_, rfl⟩)
    6 (by decide)

/-- C18 as stated fails: after `2^31` calls of `ht_add` with different nodes under different
keys on `ht_create(1)` the reference map has `2^31` entries, but `num_items` has wrapped around
to `INT_MIN`. -/
theorem C18_counterexample :
    (added_nodes (add_range 2147483648)).Nodup ∧
    (∀ p ∈ added_nodes (add_range 2147483648), ∃ nd, full_heap.nodes p = some nd) ∧
    ∃ t0 s, ht_create true true 1 = some t0 ∧
      run_ops 2147483649 ⟨full_heap, t0⟩ (add_range 2147483648) = some s ∧
      ref_size (ref_run [] (add_range 2147483648)) = 2147483648 ∧
      s.ht.num_items = -2147483648 ∧
      s.ht.num_items ≠ ((ref_size (ref_run [] (add_range 2147483648)) : Nat) : Int) := by
  obtain ⟨s, e, _, _, hi, _⟩ :=
    add_range_run 2147483648 2147483649 (by omega) 1 (by decide) ⟨[none], 1, 0⟩ rfl
  have hw : wrap_int ((2147483648 : Nat) : Int) = -2147483648 := by
    simp only [wrap_int, INT_MIN]
    omega
  rw [hw] at hi
  refine ⟨?_, fun p _ => ⟨_, rfl⟩, ⟨[none], 1, 0⟩, s, rfl, e, (ref_run_add_range _).2.1, hi, ?_⟩
  · unfold add_range
    rw [added_nodes_map_add]
    exact List.nodup_range _
  · rw [hi, (ref_run_add_range _).2.1]
    omega

/-- C4 as stated fails: there is a reachable state whose bucket chains hold `2^31` nodes while
`num_items` is `INT_MIN`. -/
theorem C4_counterexample :
    ∃ s, Reachable s ∧ NodeCount s 2147483648 ∧ s.ht.num_items = -2147483648 ∧
      s.ht.num_items ≠ ((2147483648 : Nat) : Int) := by
  obtain ⟨s, _, hs, hc, hi, _⟩ :=
    add_range_run 2147483648 2147483649 (by omega) 1 (by decide) ⟨[none], 1, 0⟩ rfl
  have hw : wrap_int ((2147483648 : Nat) : Int) = -2147483648 := by
    simp only [wrap_int, INT_MIN]
    omega
  rw [hw] at hi
  refine ⟨s, hs, hc, hi, ?_⟩
  rw [hi]
  omega

/-- C7 as stated fails: in a reachable state whose bucket chains hold `2^31` nodes `num_items`
is `INT_MIN`, and a successful `ht_remove` leaves it at `INT_MAX`, which is not one less. -/
theorem C7_counterexample :
    ∃ s h1 t1, Reachable s ∧ NodeCount s 2147483648 ∧
      ht_contains 2147483649 s.heap (some s.ht) 0 = some true ∧
      ht_remove 2147483649 s.heap (some s.ht) 0 = some (true, h1, some t1) ∧
      s.ht.num_items = -2147483648 ∧ t1.num_items = 2147483647 ∧
      t1.num_items ≠ s.ht.num_items - 1 := by
  obtain ⟨s, _, hs, hc, hi, hg⟩ :=
    add_range_run 2147483648 2147483649 (by omega) 1 (by decide) ⟨[none], 1, 0⟩ rfl
  have hw : wrap_int ((2147483648 : Nat) : Int) = -2147483648 := by
    simp only [wrap_int, INT_MIN]
    omega
  rw [hw] at hi
  have hg0 := hg (by omega)
  obtain ⟨c, hr⟩ := reachable_rep hs
  have hf : chain_total c s.ht.table.length ≤ 2147483649 := by
    rw [← hr.nodeCount_eq hc]
    omega
  obtain ⟨g, eg, hgs⟩ := get_spec hr hf 0
  rw [hg0] at eg
  obtain ⟨hmem, hk⟩ := (hgs 0).1 (Option.some.inj eg).symm
  obtain ⟨r, h1, t1, e, _, _, _, _, _, a6⟩ := remove_effect hr hf 0
  obtain ⟨b1, b2, _⟩ := a6 0 hmem hk
  subst b1
  have hw2 : wrap_int (-2147483648 - 1) = 2147483647 := by
    simp only [wrap_int, INT_MIN]
    omega
  rw [hi, hw2] at b2
  refine ⟨s, h1, t1, hs, hc, contains_eq hr.nb_pos hg0, e, hi, b2, ?_⟩
  rw [b2, hi]
  omega

/-! ## Removing a node from its chain -/

/-- What `hn_remove` does to a node whose neighbours are live nodes other than itself. -/
theorem remove_unlinks (h : Heap) (x : Ptr) (n : hash_node) (hn : h.nodes x = some n)
    (hprev : ∀ a, n.prev = some a → a ≠ x ∧ ∃ na, h.nodes a = some na)
    (hnext : ∀ b, n.next = some b → b ≠ x ∧ ∃ nb, h.nodes b = some nb) :
    ∃ h1, hn_remove h (some x) = some h1 ∧ h1.text = h.text ∧
      h1.nodes x = some { n with next := none, prev := none } ∧
      (∀ a, n.prev = some a → ∃ na1, h1.nodes a = some na1 ∧ na1.next = n.next) ∧
      (∀ b, n.next = some b → ∃ nb1, h1.nodes b = some nb1 ∧ nb1.prev = n.prev) ∧
      (∀ y, y ≠ x → some y ≠ n.prev → some y ≠ n.next → h1.nodes y = h.nodes y) := by
  cases hpv : n.prev with
  | none =>
    cases hnx : n.next with
    | none =>
      refine ⟨{ h with nodes := (fun y =>
          if y = x then some { n with next := none, prev := none } else
          (h.nodes y)) },
        ?_, rfl, ?_, ?_, ?_, ?_⟩
      · simp [hn_remove, hn, hpv, hnx, Heap.write]
      · simp
      · intro a ha; cases ha
      · intro b hb; cases hb
      · intro y h1 _ _
        simp [h1]
    | some b =>
      obtain ⟨hbx, nb, hnb⟩ := hnext b hnx
      have hxb : x ≠ b := fun e => hbx e.symm
      refine ⟨{ h with nodes := (fun y =>
          if y = x then some { n with next := none, prev := none } else
          if y = b then some { nb with prev := none } else
          (h.nodes y)) },
        ?_, rfl, ?_, ?_, ?_, ?_⟩
      · simp [hn_remove, hn, hpv, hnx, Heap.write, hnb, hxb]
      · simp
      · intro a ha; cases ha
      · intro b1 hb1
        cases hb1
        exact ⟨{ nb with prev := none }, by simp [hbx], rfl⟩
      · intro y h1 _ h3
        have h4 : y ≠ b := fun e => h3 (by rw [e])
        simp [h1, h4]
  | some a =>
    obtain ⟨hax, na, hna⟩ := hprev a hpv
    have hxa : x ≠ a := fun e => hax e.symm
    cases hnx : n.next with
    | none =>
      refine ⟨{ h with nodes := (fun y =>
          if y = x then some { n with next := none, prev := none } else
          if y = a then some { na with next := none } else
          (h.nodes y)) },
        ?_, rfl, ?_, ?_, ?_, ?_⟩
      · simp [hn_remove, hn, hpv, hnx, Heap.write, hna, hxa]
      · simp
      · intro a1 ha1
        cases ha1
        exact ⟨{ na with next := none }, by simp [hax], rfl⟩
      · intro b hb; cases hb
      · intro y h1 h2 _
        have h4 : y ≠ a := fun e => h2 (by rw [e])
        simp [h1, h4]
    | some b =>
      obtain ⟨hbx, nb, hnb⟩ := hnext b hnx
      have hxb : x ≠ b := fun e => hbx e.symm
      by_cases hab : b = a
      · subst hab
        refine ⟨{ h with nodes := (fun y =>
          if y = x then some { n with next := none, prev := none } else
          if y = b then some { nb with next := some b, prev := some b } else
          (h.nodes y)) },
        ?_, rfl, ?_, ?_, ?_, ?_⟩
        · rw [hnb] at hna
          cases hna
          simp only [hn_remove, hn, hpv, hnx, Heap.write, hnb, hxb, Option.bind_eq_bind,
            Option.some_bind, Option.pure_def, if_false, if_true, Option.some.injEq]
          congr 1
          funext q
          by_cases h1 : q = x
          · simp [h1]
          · by_cases h2 : q = b
            · simp [h1, h2]
            · simp [h1, h2]
        · simp
        · intro a1 ha1
          cases ha1
          exact ⟨{ nb with next := some b, prev := some b }, by simp [hbx], rfl⟩
        · intro b1 hb1
          cases hb1
          exact ⟨{ nb with next := some b, prev := some b }, by simp [hbx], rfl⟩
        · intro y h1 h2 _
          have h4 : y ≠ b := fun e => h2 (by rw [e])
          simp [h1, h4]
      · have hba : a ≠ b := fun e => hab e.symm
        refine ⟨{ h with nodes := (fun y =>
          if y = x then some { n with next := none, prev := none } else
          if y = b then some { nb with prev := some a } else
          if y = a then some { na with next := some b } else
          (h.nodes y)) },
        ?_, rfl, ?_, ?_, ?_, ?_⟩
        · simp [hn_remove, hn, hpv, hnx, Heap.write, hnb, hna, hxb, hxa, hab]
        · simp
        · intro a1 ha1
          cases ha1
          exact ⟨{ na with next := some b }, by simp [hax, hba], rfl⟩
        · intro b1 hb1
          cases hb1
          exact ⟨{ nb with prev := some a }, by simp [hbx], rfl⟩
        · intro y h1 h2 h3
          have h4 : y ≠ a := fun e => h2 (by rw [e])
          have h5 : y ≠ b := fun e => h3 (by rw [e])
          simp [h1, h4, h5]

theorem write_nodes (h : Heap) (p : Ptr) (v : hash_node) (x : Ptr) :
    (h.write p v).nodes x = if x = p then some v else h.nodes x := rfl

/-- Inserting an unlinked node after a node and removing it again gives back the heap, when the
successor of the node (if any) is the inserted node or names the node as its predecessor. -/
theorem splice_undone (h : Heap) (p q : Ptr) (n m : hash_node) (hpq : p ≠ q)
    (hn : h.nodes p = some n) (hm : h.nodes q = some m)
    (hmp : m.prev = none) (hmn : m.next = none)
    (hsucc : ∀ r, n.next = some r → r = q ∨ ∃ nr, h.nodes r = some nr ∧ nr.prev = some p) :
    ∃ h1 h2, hn_insert_after h (some p) (some q) = some h1 ∧
      hn_remove h1 (some q) = some h2 ∧ h2.text = h.text ∧ ∀ x, h2.nodes x = h.nodes x := by
  have hqp : q ≠ p := fun e => hpq e.symm
  have hm0 : ({ m with next := none, prev := none } : hash_node) = m := by
    cases m
    simp only at hmp hmn
    subst hmp hmn
    rfl
  have fin : ∀ H1, hn_insert_after h (some p) (some q) = some H1 →
      (∃ h2, hn_remove H1 (some q) = some h2 ∧ h2.text = h.text ∧
        ∀ x, h2.nodes x = h.nodes x) →
      ∃ h1 h2, hn_insert_after h (some p) (some q) = some h1 ∧
        hn_remove h1 (some q) = some h2 ∧ h2.text = h.text ∧ ∀ x, h2.nodes x = h.nodes x :=
    fun H1 e1 ⟨h2, a, b, c⟩ => ⟨H1, h2, e1, a, b, c⟩
  cases hnx : n.next with
  | none =>
    have hn0 : ({ n with next := none } : hash_node) = n := by
      cases n
      simp only at hnx
      subst hnx
      rfl
    have e1 : hn_insert_after h (some p) (some q) =
        some ((h.write q { m with next := none, prev := some p }).write p
          { n with next := some q }) := by
      simp only [hn_insert_after, hn, hm, write_nodes, Option.bind_eq_bind, Option.some_bind, hpq,
        if_false, hnx, Option.pure_def, if_true, Option.some.injEq]
    refine fin _ e1 ?_
    simp only [hn_remove, write_nodes, Option.bind_eq_bind, Option.some_bind, hpq, hqp,
      if_false, Option.pure_def, if_true, Option.some.injEq]
    refine ⟨_, rfl, rfl, fun x => ?_⟩
    simp only [write_nodes, hm0, hn0]
    by_cases h1 : x = q
    · rw [if_pos h1, h1, hm]
    · by_cases h2 : x = p
      · rw [if_neg h1, if_pos h2, h2, hn]
      · simp only [if_neg h1, if_neg h2]
  | some r =>
    by_cases hrq : r = q
    · subst hrq
      have hn0 : ({ n with next := some r } : hash_node) = n := by
        cases n
        simp only at hnx
        subst hnx
        rfl
      have e1 : hn_insert_after h (some p) (some r) =
          some (((h.write r { m with next := some r, prev := some p }).write r
            { m with next := some r, prev := some r }).write p { n with next := some r }) := by
        simp only [hn_insert_after, hn, hm, write_nodes, Option.bind_eq_bind, Option.some_bind,
          hpq, if_false, hnx, Option.pure_def, if_true, Option.some.injEq]
      refine fin _ e1 ?_
      simp only [hn_remove, write_nodes, Option.bind_eq_bind, Option.some_bind, hpq, hqp,
        if_false, Option.pure_def, if_true, Option.some.injEq]
      refine ⟨_, rfl, rfl, fun x => ?_⟩
      simp only [write_nodes, hm0, hn0]
      by_cases h1 : x = r
      · rw [if_pos h1, h1, hm]
      · by_cases h2 : x = p
        · subst h2
          simp [h1, hn]
        · simp only [if_neg h1, if_neg h2]
    · rcases hsucc r hnx with e | ⟨nr, hnr, hnrp⟩
      · exact absurd e hrq
      · have hqr : q ≠ r := fun e => hrq e.symm
        have hr0 : ({ nr with prev := some p } : hash_node) = nr := by
          cases nr
          simp only at hnrp
          subst hnrp
          rfl
        by_cases hrp : r = p
        · subst hrp
          rw [hn] at hnr
          cases hnr
          have hn0 : ({ n with prev := some r, next := some r } : hash_node) = n := by
            cases n
            simp only at hnx hnrp
            subst hnx hnrp
            rfl
          have e1 : hn_insert_after h (some r) (some q) =
              some (((h.write q { m with next := some r, prev := some r }).write r
                { n with prev := some q }).write r { n with prev := some q, next := some q }) := by
            simp only [hn_insert_after, hn, hm, write_nodes, Option.bind_eq_bind,
              Option.some_bind, hpq, if_false, hnx, Option.pure_def, if_true, Option.some.injEq]
          refine fin _ e1 ?_
          simp only [hn_remove, write_nodes, Option.bind_eq_bind, Option.some_bind, hpq, hqp,
            if_false, Option.pure_def, if_true, Option.some.injEq]
          refine ⟨_, rfl, rfl, fun x => ?_⟩
          simp only [write_nodes, hm0, hn0]
          by_cases h1 : x = q
          · rw [if_pos h1, h1, hm]
          · by_cases h2 : x = r
            · subst h2
              simp [h1, hn]
            · simp only [if_neg h1, if_neg h2]
        · have hpr : p ≠ r := fun e => hrp e.symm
          have hn0 : ({ n with next := some r } : hash_node) = n := by
            cases n
            simp only at hnx
            subst hnx
            rfl
          have e1 : hn_insert_after h (some p) (some q) =
              some (((h.write q { m with next := some r, prev := some p }).write r
                { nr with prev := some q }).write p { n with next := some q }) := by
            simp only [hn_insert_after, hn, hm, hnr, write_nodes, Option.bind_eq_bind,
              Option.some_bind, hpq, hrq, if_false, hnx, Option.pure_def, if_true,
              Option.some.injEq, hpr]
          refine fin _ e1 ?_
          simp only [hn_remove, write_nodes, Option.bind_eq_bind, Option.some_bind, hpq, hqp,
            hrq, hqr, hrp, hpr, if_false, Option.pure_def, if_true, Option.some.injEq]
          refine ⟨_, rfl, rfl, fun x => ?_⟩
          simp only [write_nodes, hm0, hn0, hr0]
          by_cases h1 : x = q
          · rw [if_pos h1, h1, hm]
          · by_cases h2 : x = r
            · subst h2
              simp [h1, hnr]
            · by_cases h3 : x = p
              · subst h3
                simp [h1, h2, hn]
              · simp only [if_neg h1, if_neg h2, if_neg h3]

/-- C21, as amended: for live, distinct `node` and `new_node`, with `new_node` unlinked, when
the old successor of `node` (if any) is `new_node` itself or a live node whose `prev` is `node`,
`hn_insert_after (node, new_node)` followed by `hn_remove (new_node)` returns and gives back
every node of the heap as it was, so the splice is undone; and for a live node `x` whose
neighbours (if any) are live nodes other than `x`, `hn_remove (x)` returns, has set the `next`
of the old predecessor to the old `next` of `x` and the `prev` of the old successor to the old
`prev` of `x`, and has cleared both links of `x`. -/
theorem C21_remove_undoes_splice (h : Heap) :
    (∀ p q n m, p ≠ q → h.nodes p = some n → h.nodes q = some m →
      m.prev = none → m.next = none →
      (∀ r, n.next = some r → r = q ∨ ∃ nr, h.nodes r = some nr ∧ nr.prev = some p) →
      ∃ h1 h2, hn_insert_after h (some p) (some q) = some h1 ∧
        hn_remove h1 (some q) = some h2 ∧ SpliceUndone h h2 p q ∧
        ∀ x, h2.nodes x = h.nodes x) ∧
    (∀ x n, h.nodes x = some n →
      (∀ a, n.prev = some a → a ≠ x ∧ ∃ na, h.nodes a = some na) →
      (∀ b, n.next = some b → b ≠ x ∧ ∃ nb, h.nodes b = some nb) →
      ∃ h1, hn_remove h (some x) = some h1 ∧ Unlinked h h1 x) := by
  refine ⟨fun p q n m hpq hn hm hmp hmn hs => ?_, fun x n hn hp hx => ?_⟩
  · obtain ⟨h1, h2, e1, e2, _, a⟩ := splice_undone h p q n m hpq hn hm hmp hmn hs
    refine ⟨h1, h2, e1, e2, ⟨n, n, m, hn, (a p).trans hn, rfl, rfl, fun r nr _ hnr => ?_,
      (a q).trans hm, hmp, hmn⟩, a⟩
    exact ⟨nr, (a r).trans hnr, rfl, rfl⟩
  · obtain ⟨h1, e, _, a1, a2, a3, _⟩ := remove_unlinks h x n hn hp hx
    exact ⟨h1, e, n, _, hn, a1, rfl, rfl, a2, a3⟩

theorem C21_witness :
    (∃ h1 h2, hn_insert_after demo_state2.heap (some 1) (some 3) = some h1 ∧
      hn_remove h1 (some 3) = some h2 ∧ SpliceUndone demo_state2.heap h2 1 3 ∧
      ∀ x, h2.nodes x = demo_state2.heap.nodes x) ∧
    (∃ h1, hn_remove demo_state2.heap (some 2) = some h1 ∧ Unlinked demo_state2.heap h1 2) :=
  ⟨(C21_remove_undoes_splice demo_state2.heap).1 1 3
      ⟨1, 0, none, none, none, none, none, none, some 2⟩
      ⟨103, 0, none, none, none, none, none, none, none⟩ (by decide) rfl rfl rfl rfl
      (fun r hr => by cases hr; exact Or.inr ⟨_, rfl, rfl⟩),
    (C21_remove_undoes_splice demo_state2.heap).2 2
      ⟨6, 0, none, none, none, none, none, some 1, none⟩ rfl
      (fun a ha => by cases ha; exact ⟨by decide, _, rfl⟩)
      (fun b hb => by cases hb)⟩

/-- C21 as stated fails: when the successor of `node` does not name `node` as its predecessor,
inserting the unlinked `new_node` after `node` and removing it again leaves that successor with
`node` as its `prev`, not with the `prev` it had; and when `x` is its own predecessor,
`hn_remove (x)` leaves `x` with no `next` instead of setting the `next` of the predecessor to
the old `next` of `x`. -/
theorem C21_counterexample :
    (∃ n m nr h1 h2, stale_heap.nodes 1 = some n ∧ n.next = some 2 ∧
      stale_heap.nodes 3 = some m ∧ m.prev = none ∧ m.next = none ∧
      stale_heap.nodes 2 = some nr ∧ nr.prev = none ∧
      hn_insert_after stale_heap (some 1) (some 3) = some h1 ∧
      hn_remove h1 (some 3) = some h2 ∧
      (∃ nr2, h2.nodes 2 = some nr2 ∧ nr2.prev = some 1) ∧
      ¬ SpliceUndone stale_heap h2 1 3) ∧
    (∃ n h1, stale_heap.nodes 4 = some n ∧ n.prev = some 4 ∧ n.next = some 2 ∧
      hn_remove stale_heap (some 4) = some h1 ∧
      (∃ n1, h1.nodes 4 = some n1 ∧ n1.next = none) ∧
      ¬ Unlinked stale_heap h1 4) := by
  refine ⟨⟨_, _, _, _, _, rfl, rfl, rfl, rfl, rfl, rfl, rfl, rfl, rfl, ⟨_, rfl, rfl⟩, ?_⟩,
    ⟨_, _, rfl, rfl, rfl, rfl, ⟨_, rfl, rfl⟩, ?_⟩⟩
  · rintro ⟨n, n2, m2, e1, _, _, _, b, _⟩
    cases e1
    obtain ⟨nr2, e2, b2, _⟩ := b 2 _ rfl rfl
    cases e2
    cases b2
  · rintro ⟨n, n1, e1, _, _, _, b, _⟩
    cases e1
    obtain ⟨na1, e2, b2⟩ := b 4 rfl
    cases e2
    cases b2

end CHashtable
